import Mathlib

/-!
# Channel core of the gateway: weighted upstream selection and URL rewriting

A shallow embedding of `internal/channel/base_channel.go` and of the provider
code in `internal/channel/gemini_channel.go`.

* Go `int` fields (`Weight`, `CurrentWeight`) are embedded as `Int`, and every
  `+=` and `-=` of `getUpstreamInfo` is followed by `wrap64`, the wrap-around of
  a 64-bit `int`.  `getUpstreamInfoZ` is the same loop on unbounded integers;
  `getUpstreamInfo_eq` and `fresh_run` show that the two agree as long as no
  intermediate value leaves the 64-bit range, in particular on every run from a
  fresh channel whose number of upstreams times the sum of the weights is below
  `2^63`.
* `(*url.URL).String` of the standard library, which produces the text that
  `BuildUpstreamURL` returns, is embedded as `urlString`, together with the
  escaping functions of `net/url` it calls.  Go strings are byte sequences; the
  embedding covers the texts that are valid UTF-8.
* A Go pointer into `b.Upstreams` (`*UpstreamInfo`) is embedded as the index of
  the element it points to, `nil` as `none`.
* The receiver is mutated in place in Go; here every operation returns the
  channel it leaves behind next to its result.
* `upstreamLock` and the two HTTP client handles carry no data the functions
  below read and are left out of the record.
-/

namespace Channel

/-! ## Data model -/

/-- Go's `url.Userinfo`: the user name and the optional password of a URL. -/
structure Userinfo where
  username : String
  password : String
  passwordSet : Bool
deriving DecidableEq, Repr

/-- Go's `net/url.URL`, field by field; `User` is a pointer in Go, hence an
`Option` here. -/
structure URL where
  Scheme : String
  Opaque : String
  User : Option Userinfo
  Host : String
  Path : String
  RawPath : String
  OmitHost : Bool
  ForceQuery : Bool
  RawQuery : String
  Fragment : String
  RawFragment : String
deriving DecidableEq, Repr

/-- `UpstreamInfo` of `base_channel.go`: one upstream server with its static
weight and its load-balancer counter.  `URL` is a pointer in Go, hence an
`Option` here. -/
structure UpstreamInfo where
  ID : String
  URL : Option URL
  Weight : Int
  CurrentWeight : Int
deriving DecidableEq, Repr

/-- Modelled from the spec: `types.SystemSettings` (the "effective settings
structure") is declared outside the source files at hand; the channel only
compares it structurally, so it is kept as the list of its setting values. -/
structure SystemSettings where
  values : List Int
deriving DecidableEq, Repr

/-- Modelled from the spec: `models.Group` is declared outside the source files
at hand; these are the fields the channel code reads ("provider type,
serialized upstream list, effective settings, test model", and the name). -/
structure Group where
  Name : String
  ChannelType : String
  TestModel : String
  Upstreams : List UInt8
  EffectiveConfig : SystemSettings
deriving DecidableEq, Repr

/-- `BaseChannel` of `base_channel.go` (without the mutex and the HTTP client
handles). -/
structure BaseChannel where
  Name : String
  Upstreams : List UpstreamInfo
  TestModel : String
  channelType : String
  groupUpstreams : List UInt8
  effectiveConfig : Option SystemSettings
deriving DecidableEq, Repr

/-! ## Weighted selection -/

/-- The value Go's 64-bit `int` holds for the mathematical result `x`: `x`
wrapped into the range from `-2^63` to `2^63 - 1`. -/
def wrap64 (x : Int) : Int :=
  (x + 9223372036854775808) % 18446744073709551616 - 9223372036854775808

/-- The three variables the loop of `getUpstreamInfo` updates: the slice
`b.Upstreams`, `totalWeight`, and the pointer `best`. -/
structure SelectState where
  ups : List UpstreamInfo
  totalWeight : Int
  best : Option Nat
deriving DecidableEq, Repr

/-- Body of `for i := range b.Upstreams` in `getUpstreamInfo`:
`totalWeight += up.Weight; up.CurrentWeight += up.Weight;`
`if best == nil || up.CurrentWeight > best.CurrentWeight { best = up }`.
Both `+=` are additions of Go's `int` and wrap around at 64 bits. -/
def selectBody (st : SelectState) (i : Nat) : SelectState :=
  match st.ups[i]? with
  | none => st
  | some up =>
    let up1 : UpstreamInfo := { up with CurrentWeight := wrap64 (up.CurrentWeight + up.Weight) }
    let ups1 := st.ups.set i up1
    let better : Bool :=
      match st.best with
      | none => true
      | some j =>
        match ups1[j]? with
        | some bj => decide (up1.CurrentWeight > bj.CurrentWeight)
        | none => false
    { ups := ups1
      totalWeight := wrap64 (st.totalWeight + up.Weight)
      best := if better then some i else st.best }

/-- The statement `best.CurrentWeight -= totalWeight` for `best` pointing at
index `j`; the subtraction wraps around at 64 bits. -/
def subtractAt (ups : List UpstreamInfo) (j : Nat) (total : Int) : List UpstreamInfo :=
  match ups[j]? with
  | none => ups
  | some u => ups.set j { u with CurrentWeight := wrap64 (u.CurrentWeight - total) }

/-- `BaseChannel.getUpstreamInfo`: smooth weighted round-robin.  Returns the
index of the selected upstream (`none` for Go's `nil`) and the channel after
the call. -/
def getUpstreamInfo (b : BaseChannel) : Option Nat × BaseChannel :=
  if b.Upstreams.length = 0 then (none, b)
  else if b.Upstreams.length = 1 then (some 0, b)
  else
    let st := (List.range b.Upstreams.length).foldl selectBody
      { ups := b.Upstreams, totalWeight := 0, best := none }
    match st.best with
    | none => (some 0, { b with Upstreams := st.ups })
    | some j => (some j, { b with Upstreams := subtractAt st.ups j st.totalWeight })

/-- `BaseChannel.getUpstreamURL`: the URL of the upstream `getUpstreamInfo`
selects. -/
def getUpstreamURL (b : BaseChannel) : Option URL × BaseChannel :=
  match getUpstreamInfo b with
  | (none, b1) => (none, b1)
  | (some i, b1) => ((b1.Upstreams[i]?).bind (fun u => u.URL), b1)

/-- `BaseChannel.findUpstreamByID`: index of the first upstream with the given
ID, `none` if there is none. -/
def findUpstreamByID (b : BaseChannel) (id : String) : Option Nat :=
  (List.range b.Upstreams.length).find? (fun i =>
    match b.Upstreams[i]? with
    | some u => decide (u.ID = id)
    | none => false)

/-! ## Serialisation of a URL (`net/url`) -/

/-- The `encoding` modes of `net/url`: the part of a URL a text is escaped
for. -/
inductive encoding where
  | encodePath
  | encodePathSegment
  | encodeHost
  | encodeZone
  | encodeUserPassword
  | encodeQueryComponent
  | encodeFragment
deriving DecidableEq, Repr

/-- Go's `shouldEscape` of `net/url` on an ASCII character: whether the byte
must be percent-encoded in the given mode. -/
def shouldEscape (c : Char) (mode : encoding) : Bool :=
  if ('a' ≤ c ∧ c ≤ 'z') ∨ ('A' ≤ c ∧ c ≤ 'Z') ∨ ('0' ≤ c ∧ c ≤ '9') then false
  else if (mode = encoding.encodeHost ∨ mode = encoding.encodeZone) ∧
      ['!', '$', '&', Char.ofNat 39, '(', ')', '*', '+', ',', ';', '=', ':', '[', ']', '<', '>',
        Char.ofNat 34].contains c then false
  else if ['-', '_', '.', '~'].contains c then false
  else
    match ['$', '&', '+', ',', '/', ':', ';', '=', '?', '@'].contains c, mode with
    | true, encoding.encodePath => c = '?'
    | true, encoding.encodePathSegment => c = '/' ∨ c = ';' ∨ c = ',' ∨ c = '?'
    | true, encoding.encodeUserPassword => c = '@' ∨ c = '/' ∨ c = '?' ∨ c = ':'
    | true, encoding.encodeQueryComponent => true
    | true, encoding.encodeFragment => false
    | _, _ =>
      if mode = encoding.encodeFragment ∧ ['!', '(', ')', '*'].contains c then false else true

/-- The digit `upperhex[n]` of `net/url`. -/
def upperhex (n : Nat) : Char := "0123456789ABCDEF".data.getD n '0'

/-- The three characters `%XY` that stand for the byte `n`. -/
def pctByte (n : Nat) : List Char := ['%', upperhex (n / 16), upperhex (n % 16)]

/-- The bytes of the UTF-8 encoding of the code point `n`: the bytes a Go string
holds for that character. -/
def utf8Bytes (n : Nat) : List Nat :=
  if n < 128 then [n]
  else if n < 2048 then [192 + n / 64, 128 + n % 64]
  else if n < 65536 then [224 + n / 4096, 128 + n / 64 % 64, 128 + n % 64]
  else [240 + n / 262144, 128 + n / 4096 % 64, 128 + n / 64 % 64, 128 + n % 64]

/-- The bytes of a text. -/
def bytesOf : List Char → List Nat
  | [] => []
  | c :: cs => utf8Bytes c.toNat ++ bytesOf cs

/-- The bytes `ns`, each percent-encoded. -/
def pctBytes : List Nat → List Char
  | [] => []
  | n :: ns => pctByte n ++ pctBytes ns

/-- What Go's `escape` writes for one character: an ASCII character is kept or
percent-encoded as `shouldEscape` says (a space becomes `+` in a query
component); every byte of a character outside ASCII is percent-encoded. -/
def escapeChar (mode : encoding) (c : Char) : List Char :=
  if c.toNat < 128 then
    if shouldEscape c mode then
      if c = ' ' ∧ mode = encoding.encodeQueryComponent then ['+'] else pctByte c.toNat
    else [c]
  else pctBytes (utf8Bytes c.toNat)

/-- Go's `escape` on the characters of a text. -/
def escapeChars (mode : encoding) : List Char → List Char
  | [] => []
  | c :: cs => escapeChar mode c ++ escapeChars mode cs

/-- Go's `escape(s, mode)` of `net/url`. -/
def escape (s : String) (mode : encoding) : String := String.mk (escapeChars mode s.data)

/-- Go's `ishex` on a byte. -/
def ishex (c : Nat) : Bool :=
  (48 ≤ c ∧ c ≤ 57) ∨ (97 ≤ c ∧ c ≤ 102) ∨ (65 ≤ c ∧ c ≤ 70)

/-- Go's `unhex` on a byte. -/
def unhex (c : Nat) : Nat :=
  if 48 ≤ c ∧ c ≤ 57 then c - 48
  else if 97 ≤ c ∧ c ≤ 102 then c - 97 + 10
  else if 65 ≤ c ∧ c ≤ 70 then c - 65 + 10
  else 0

/-- Go's `unescape` for the modes `encodePath` and `encodeFragment`, on bytes:
`%XY` becomes the byte it stands for, every other byte is kept; `none` (Go's
error) when a `%` is not followed by two hexadecimal digits. -/
def unescape : List Nat → Option (List Nat)
  | [] => some []
  | 37 :: a :: b :: rest =>
    if ishex a ∧ ishex b then (unescape rest).map (fun t => (unhex a * 16 + unhex b) :: t)
    else none
  | 37 :: _ => none
  | c :: rest => (unescape rest).map (fun t => c :: t)

/-- Go's `validEncoded(s, mode)`: every character of `s` may stand in an
encoded text of the given mode. -/
def validEncoded (s : String) (mode : encoding) : Bool :=
  s.data.all (fun c =>
    ['!', '$', '&', Char.ofNat 39, '(', ')', '*', '+', ',', ';', '=', ':', '@', '[', ']',
      '%'].contains c || (decide (c.toNat < 128) && !shouldEscape c mode))

/-- Go's `(*URL).EscapedPath`: `RawPath` when it is a valid encoding of `Path`,
the escaped `Path` otherwise. -/
def EscapedPath (u : URL) : String :=
  if u.RawPath ≠ "" ∧ validEncoded u.RawPath encoding.encodePath = true ∧
      unescape (bytesOf u.RawPath.data) = some (bytesOf u.Path.data) then u.RawPath
  else if u.Path = "*" then "*"
  else escape u.Path encoding.encodePath

/-- Go's `(*URL).EscapedFragment`. -/
def EscapedFragment (u : URL) : String :=
  if u.RawFragment ≠ "" ∧ validEncoded u.RawFragment encoding.encodeFragment = true ∧
      unescape (bytesOf u.RawFragment.data) = some (bytesOf u.Fragment.data) then u.RawFragment
  else escape u.Fragment encoding.encodeFragment

/-- Go's `(*Userinfo).String`. -/
def userinfoString (ui : Userinfo) : String :=
  if ui.passwordSet then
    escape ui.username encoding.encodeUserPassword ++ ":" ++
      escape ui.password encoding.encodeUserPassword
  else escape ui.username encoding.encodeUserPassword

/-- Go's `(*url.URL).String`: the text `BuildUpstreamURL` returns for its final
URL.  The successive values of `buf` are the contents of the string builder
after each statement. -/
def urlString (u : URL) : String :=
  let buf0 := if u.Scheme ≠ "" then u.Scheme ++ ":" else ""
  let buf1 :=
    if u.Opaque ≠ "" then buf0 ++ u.Opaque
    else
      let buf2 :=
        if u.Scheme ≠ "" ∨ u.Host ≠ "" ∨ u.User ≠ none then
          if u.OmitHost = true ∧ u.Host = "" ∧ u.User = none then buf0
          else
            let buf3 := if u.Host ≠ "" ∨ u.Path ≠ "" ∨ u.User ≠ none then buf0 ++ "//" else buf0
            let buf4 :=
              match u.User with
              | some ui => buf3 ++ userinfoString ui ++ "@"
              | none => buf3
            if u.Host ≠ "" then buf4 ++ escape u.Host encoding.encodeHost else buf4
        else buf0
      let path := EscapedPath u
      let buf5 :=
        if path ≠ "" ∧ path.data.head? ≠ some '/' ∧ u.Host ≠ "" then buf2 ++ "/" else buf2
      let buf6 :=
        if buf5 = "" ∧ (path.data.takeWhile (fun c => c ≠ '/')).contains ':' then buf5 ++ "./"
        else buf5
      buf6 ++ path
  let buf7 := if u.ForceQuery = true ∨ u.RawQuery ≠ "" then buf1 ++ "?" ++ u.RawQuery else buf1
  if u.Fragment ≠ "" then buf7 ++ "#" ++ EscapedFragment u else buf7

/-- The text `scheme:` a serialised URL starts with (nothing for an empty
scheme). -/
def schemeText (u : URL) : String := if u.Scheme ≠ "" then u.Scheme ++ ":" else ""

/-- The text `userinfo@` of a serialised URL (nothing without user
information). -/
def userText (u : URL) : String :=
  match u.User with
  | some ui => userinfoString ui ++ "@"
  | none => ""

/-- The text `?query` of a serialised URL (nothing for an empty query that is
not forced). -/
def queryText (force : Bool) (rawQuery : String) : String :=
  if force = true ∨ rawQuery ≠ "" then "?" ++ rawQuery else ""

/-- The text `#fragment` of a serialised URL (nothing for an empty
fragment). -/
def fragmentText (u : URL) : String :=
  if u.Fragment ≠ "" then "#" ++ EscapedFragment u else ""

/-! ## URL construction -/

/-- Go's `strings.TrimPrefix`. -/
def trimPrefix (s pre : String) : String :=
  if pre.data.isPrefixOf s.data then String.mk (s.data.drop pre.data.length) else s

/-- Go's `strings.TrimRight`: drops every trailing character contained in
`cutset`. -/
def trimRight (s cutset : String) : String :=
  String.mk (s.data.reverse.dropWhile (fun c => cutset.data.contains c)).reverse

/-- The upstream resolution at the head of `BuildUpstreamURL` (steps 1 and 2):
an explicitly requested upstream first, the weighted selection otherwise. -/
def resolveBase (b : BaseChannel) (upstreamID : String) : Option URL × BaseChannel :=
  let pinned : Option URL :=
    if upstreamID ≠ "" ∧ upstreamID ≠ "Default" then
      match findUpstreamByID b upstreamID with
      | some i => (b.Upstreams[i]?).bind (fun u => u.URL)
      | none => none
    else none
  match pinned with
  | some base => (some base, b)
  | none => getUpstreamURL b

/-- Step 3 of `BuildUpstreamURL`: the copy of `base` with the rewritten path and
the query string of the incoming URL. -/
def rewriteURL (base originalURL : URL) (group : Group) : URL :=
  { base with
    Path := trimRight base.Path "/" ++ trimPrefix originalURL.Path ("/proxy/" ++ group.Name)
    RawQuery := originalURL.RawQuery }

/-- `BaseChannel.BuildUpstreamURL`.  `render` is the serialiser of the final
URL: the standard library's `(*url.URL).String`, embedded above as `urlString`.
It is an argument so that the facts that do not depend on the serialisation
are stated for every serialiser. -/
def BuildUpstreamURL (render : URL → String) (b : BaseChannel) (originalURL : URL)
    (group : Group) (upstreamID : String) : Except String String × BaseChannel :=
  match resolveBase b upstreamID with
  | (none, b1) => (.error ("no upstream URL configured for channel " ++ b.Name), b1)
  | (some base, b1) => (.ok (render (rewriteURL base originalURL group)), b1)

/-- `BaseChannel.GetSelectedUpstreamID`.  The index `getUpstreamInfo` returns
always lies inside the slice, so the last branch is never taken; it only makes
the dereference `upstream.ID` total. -/
def GetSelectedUpstreamID (b : BaseChannel) : String × BaseChannel :=
  match getUpstreamInfo b with
  | (none, b1) => ("Default", b1)
  | (some i, b1) =>
    match b1.Upstreams[i]? with
    | some u => (u.ID, b1)
    | none => ("Default", b1)

/-! ## Runs of consecutive selections -/

/-- The channel after `k` consecutive calls of `getUpstreamInfo`. -/
def afterCalls : Nat → BaseChannel → BaseChannel
  | 0, b => b
  | k + 1, b => afterCalls k (getUpstreamInfo b).2

/-- The upstreams returned by `k` consecutive calls of `getUpstreamInfo`, in
call order. -/
def picks : Nat → BaseChannel → List (Option Nat)
  | 0, _ => []
  | k + 1, b => (getUpstreamInfo b).1 :: picks k (getUpstreamInfo b).2

/-- Sum of the static weights: the `totalWeight` of the selection. -/
def totalWeight (b : BaseChannel) : Int :=
  (b.Upstreams.map (fun u => u.Weight)).sum

/-- A freshly built channel for the selection claims: every weight is
non-negative and every counter is 0. -/
def Fresh (b : BaseChannel) : Prop :=
  ∀ u ∈ b.Upstreams, 0 ≤ u.Weight ∧ u.CurrentWeight = 0

instance (b : BaseChannel) : Decidable (Fresh b) := by
  unfold Fresh; infer_instance

/-! ## The selection on unbounded integers

The loop of `getUpstreamInfo` with the additions and the subtraction carried out
on mathematical integers.  As long as no intermediate value leaves the range of
a 64-bit `int` this is what `getUpstreamInfo` computes; the proofs below work on
it and are carried over to `getUpstreamInfo` under that condition. -/

/-- The loop body of `getUpstreamInfo` without wrap-around. -/
def selectBodyZ (st : SelectState) (i : Nat) : SelectState :=
  match st.ups[i]? with
  | none => st
  | some up =>
    let up1 : UpstreamInfo := { up with CurrentWeight := up.CurrentWeight + up.Weight }
    let ups1 := st.ups.set i up1
    let better : Bool :=
      match st.best with
      | none => true
      | some j =>
        match ups1[j]? with
        | some bj => decide (up1.CurrentWeight > bj.CurrentWeight)
        | none => false
    { ups := ups1
      totalWeight := st.totalWeight + up.Weight
      best := if better then some i else st.best }

/-- The statement `best.CurrentWeight -= totalWeight` without wrap-around. -/
def subtractAtZ (ups : List UpstreamInfo) (j : Nat) (total : Int) : List UpstreamInfo :=
  match ups[j]? with
  | none => ups
  | some u => ups.set j { u with CurrentWeight := u.CurrentWeight - total }

/-- The selection of `getUpstreamInfo` without wrap-around. -/
def getUpstreamInfoZ (b : BaseChannel) : Option Nat × BaseChannel :=
  if b.Upstreams.length = 0 then (none, b)
  else if b.Upstreams.length = 1 then (some 0, b)
  else
    let st := (List.range b.Upstreams.length).foldl selectBodyZ
      { ups := b.Upstreams, totalWeight := 0, best := none }
    match st.best with
    | none => (some 0, { b with Upstreams := st.ups })
    | some j => (some j, { b with Upstreams := subtractAtZ st.ups j st.totalWeight })

/-- The channel after `k` consecutive selections without wrap-around. -/
def afterCallsZ : Nat → BaseChannel → BaseChannel
  | 0, b => b
  | k + 1, b => afterCallsZ k (getUpstreamInfoZ b).2

/-- The upstreams returned by `k` consecutive selections without wrap-around,
in call order. -/
def picksZ : Nat → BaseChannel → List (Option Nat)
  | 0, _ => []
  | k + 1, b => (getUpstreamInfoZ b).1 :: picksZ k (getUpstreamInfoZ b).2

/-- The fields of an upstream a selection never writes. -/
def frame (u : UpstreamInfo) : String × Option URL × Int := (u.ID, u.URL, u.Weight)

/-- An integer that a 64-bit `int` can hold. -/
def In64 (x : Int) : Prop := -9223372036854775808 ≤ x ∧ x < 9223372036854775808

instance (x : Int) : Decidable (In64 x) := by
  unfold In64; infer_instance

/-! ## Auxiliary functions used to describe one selection -/

/-- An upstream after `up.CurrentWeight += up.Weight`. -/
def bump (u : UpstreamInfo) : UpstreamInfo :=
  { u with CurrentWeight := u.CurrentWeight + u.Weight }

/-- Counter plus weight: the value the loop compares. -/
def value (u : UpstreamInfo) : Int := u.CurrentWeight + u.Weight

/-- The index `best` points at after the first `k` iterations of the loop. -/
def bestUpTo (ups : List UpstreamInfo) : Nat → Option Nat
  | 0 => none
  | k + 1 =>
    match bestUpTo ups k with
    | none => some k
    | some j =>
      match ups[k]?, ups[j]? with
      | some uk, some uj => if value uk > value uj then some k else some j
      | _, _ => some j

/-- The slice after the first `k` iterations of the loop. -/
def loopUps (ups : List UpstreamInfo) (k : Nat) : List UpstreamInfo :=
  (ups.take k).map bump ++ ups.drop k

/-- Sum of the weights of a list of upstreams. -/
def sumW (ups : List UpstreamInfo) : Int := (ups.map (fun u => u.Weight)).sum

/-- Sum of the counters of a list of upstreams. -/
def sumC (ups : List UpstreamInfo) : Int := (ups.map (fun u => u.CurrentWeight)).sum

/-- Index the loop leaves in `best` after visiting every upstream. -/
def pick (ups : List UpstreamInfo) : Nat := (bestUpTo ups ups.length).getD 0

/-- The slice one selection leaves behind on two or more upstreams. -/
def step (ups : List UpstreamInfo) : List UpstreamInfo :=
  subtractAtZ (ups.map bump) (pick ups) (sumW ups)

/-- Counter of the upstream at index `i` (0 outside the slice). -/
def cAt (ups : List UpstreamInfo) (i : Nat) : Int :=
  match ups[i]? with
  | some u => u.CurrentWeight
  | none => 0

/-- Weight of the upstream at index `i` (0 outside the slice). -/
def wAt (ups : List UpstreamInfo) (i : Nat) : Int :=
  match ups[i]? with
  | some u => u.Weight
  | none => 0

/-- Value compared by the loop for the upstream at index `i`. -/
def vAt (ups : List UpstreamInfo) (i : Nat) : Int :=
  match ups[i]? with
  | some u => value u
  | none => 0

/-- The slice after `k` selections on two or more upstreams. -/
def stepN : Nat → List UpstreamInfo → List UpstreamInfo
  | 0, l => l
  | k + 1, l => stepN k (step l)

/-- The indices chosen by `k` selections on two or more upstreams. -/
def pickSeq : Nat → List UpstreamInfo → List Nat
  | 0, _ => []
  | k + 1, l => pick l :: pickSeq k (step l)

/-- Invariant of the slice along a run of selections that starts with every
counter at 0 and non-negative weights. -/
structure Balanced (l : List UpstreamInfo) : Prop where
  nonneg : ∀ u ∈ l, 0 ≤ u.Weight
  sum_zero : sumC l = 0
  lower : ∀ i, i < l.length → - sumW l ≤ cAt l i
  order : ∀ i j, i < l.length → j < l.length → wAt l j ≤ wAt l i →
    cAt l j - cAt l i ≤ sumW l

/-- Every weight is non-negative and every counter is 0. -/
def FreshUps (l : List UpstreamInfo) : Prop :=
  ∀ u ∈ l, 0 ≤ u.Weight ∧ u.CurrentWeight = 0

/-! ## Concrete channels used in witnesses and counterexamples -/

/-- A channel with the given upstreams and no other configuration. -/
def channelOf (ups : List UpstreamInfo) : BaseChannel :=
  { Name := "gemini-group", Upstreams := ups, TestModel := "", channelType := "gemini",
    groupUpstreams := [], effectiveConfig := none }

/-- An upstream with the given ID and weight, counter 0 and no URL. -/
def upstreamOf (id : String) (w : Int) : UpstreamInfo :=
  { ID := id, URL := none, Weight := w, CurrentWeight := 0 }

/-- Three upstreams with weights 2, 1, 1. -/
def chan211 : BaseChannel :=
  channelOf [upstreamOf "a" 2, upstreamOf "b" 1, upstreamOf "c" 1]

/-- Three upstreams with weights 2, 0, 1. -/
def chan201 : BaseChannel :=
  channelOf [upstreamOf "a" 2, upstreamOf "b" 0, upstreamOf "c" 1]

/-- Two upstreams, both of weight 0. -/
def chan00 : BaseChannel :=
  channelOf [upstreamOf "a" 0, upstreamOf "b" 0]

/-- A channel with a single upstream whose weight and counter are arbitrary
non-zero values. -/
def chanSingle : BaseChannel :=
  channelOf [{ ID := "only", URL := none, Weight := 7, CurrentWeight := -3 }]

/-- Counter plus weight, elementwise, on plain integer lists. -/
def bumpAll : List Int → List Int → List Int
  | c :: cs, w :: ws => (c + w) :: bumpAll cs ws
  | _, _ => []

/-- Left-to-right scan of the loop of `getUpstreamInfoZ` over the remaining
values: `i` is the index of the head, `bi` the index `best` points at and `bv`
the value found there. -/
def argmaxFrom : List Int → Nat → Nat → Int → Nat
  | [], _, bi, _ => bi
  | v :: vs, i, bi, bv =>
    if v > bv then argmaxFrom vs (i + 1) i v else argmaxFrom vs (i + 1) bi bv

/-- Index of the first maximum of a list of values. -/
def argmaxFirst : List Int → Nat
  | [] => 0
  | v :: vs => argmaxFrom vs 1 0 v

/-- Subtract `t` from the entry at index `j`. -/
def subAt : List Int → Nat → Int → List Int
  | [], _, _ => []
  | v :: vs, 0, t => (v - t) :: vs
  | v :: vs, j + 1, t => v :: subAt vs j t

/-- Counters after one selection, on plain integer lists: `ws` are the weights,
`t` their sum, `cs` the counters. -/
def countersStep (ws : List Int) (t : Int) (cs : List Int) : List Int :=
  subAt (bumpAll cs ws) (argmaxFirst (bumpAll cs ws)) t

/-- Counters after `k` selections, on plain integer lists. -/
def countersRun (ws : List Int) (t : Int) : Nat → List Int → List Int
  | 0, cs => cs
  | k + 1, cs => countersRun ws t k (countersStep ws t cs)

/-- Weights of a channel of 53 upstreams: 3 of weight 397, 2 of weight 43, 13 of
weight 10 and 35 of weight 1 (sum 1442). -/
def bigWeights : List Int :=
  List.replicate 3 397 ++ List.replicate 2 43 ++ List.replicate 13 10 ++ List.replicate 35 1

/-- Fresh upstreams `u<i>`, `u<i+1>`, ... with the given weights. -/
def bigUps : Nat → List Int → List UpstreamInfo
  | _, [] => []
  | i, w :: ws =>
    { ID := "u" ++ toString i, URL := none, Weight := w, CurrentWeight := 0 } :: bigUps (i + 1) ws

/-- A channel of 53 fresh upstreams with the weights `bigWeights`. -/
def chanBig : BaseChannel := channelOf (bigUps 0 bigWeights)

/-- Counters of the 53 upstreams after 151 selections. -/
def bigCounters1 : List Int :=
  [-617, -617, 825, -717, -717, 68, 68, 68, 68, 68, 68, 68, 68, 68, 68, 68, 68, 68, -1291, -1291,
    -1291, 151, 151, 151, 151, 151, 151, 151, 151, 151, 151, 151, 151, 151, 151, 151, 151, 151,
    151, 151, 151, 151, 151, 151, 151, 151, 151, 151, 151, 151, 151, 151, 151]

/-- Counters of the 53 upstreams after 302 selections. -/
def bigCounters2 : List Int :=
  [208, 208, 208, 8, 8, 136, 136, 136, 136, 136, 136, 136, 136, 136, 136, 136, 136, 136, -1140,
    -1140, -1140, -1140, -1140, -1140, -1140, -1140, -1140, 302, 302, 302, 302, 302, 302, 302,
    302, 302, 302, 302, 302, 302, 302, 302, 302, 302, 302, 302, 302, 302, 302, 302, 302, 302, 302]

/-- Counters of the 53 upstreams after 453 selections. -/
def bigCounters3 : List Int :=
  [-409, 1033, 1033, -709, -709, 204, 204, 204, 204, 204, 204, 204, 204, 204, 204, 204, 204, 204,
    -989, -989, -989, -989, -989, -989, -989, -989, -989, -989, -989, -989, -989, 453, 453, 453,
    453, 453, 453, 453, 453, 453, 453, 453, 453, 453, 453, 453, 453, 453, 453, 453, 453, 453, 453]

/-- Counters of the 53 upstreams after 604 selections. -/
def bigCounters4 : List Int :=
  [416, 416, 416, 16, 16, 272, 272, 272, 272, 272, 272, 272, 272, 272, 272, 272, 272, 272, -838,
    -838, -838, -838, -838, -838, -838, -838, -838, -838, -838, -838, -838, -838, -838, -838,
    -838, -838, 604, 604, 604, 604, 604, 604, 604, 604, 604, 604, 604, 604, 604, 604, 604, 604,
    604]

/-- Counters of the 53 upstreams after 755 selections. -/
def bigCounters5 : List Int :=
  [-201, -201, 1241, 741, 741, 340, 340, 340, 340, 340, 340, 340, 340, 340, 340, 340, 340, 340,
    -687, -687, -687, -687, -687, -687, -687, -687, -687, -687, -687, -687, -687, -687, -687,
    -687, -687, -687, -687, -687, -687, -687, -687, 755, 755, 755, 755, 755, 755, 755, 755, 755,
    755, 755, 755]

/-- Counters of the 53 upstreams after 906 selections. -/
def bigCounters6 : List Int :=
  [624, 624, 2066, 24, 24, 408, 408, 408, 408, 408, 408, 408, 408, 408, 408, 408, 408, 408, -536,
    -536, -536, -536, -536, -536, -536, -536, -536, -536, -536, -536, -536, -536, -536, -536,
    -536, -536, -536, -536, -536, -536, -536, -536, -536, -536, -536, -536, 906, 906, 906, 906,
    906, 906, 906]

/-- Counters of the 53 upstreams after 1057 selections. -/
def bigCounters7 : List Int :=
  [1449, 1449, 2891, 749, 749, 476, 476, 476, 476, 476, 476, 476, 476, 476, 476, 476, 476, 476,
    -385, -385, -385, -385, -385, -385, -385, -385, -385, -385, -385, -385, -385, -385, -385,
    -385, -385, -385, -385, -385, -385, -385, -385, -385, -385, -385, -385, -385, -385, -385,
    -385, -385, -385, -385, -385]

/-- A simple stand-in serialiser (not Go's `String`, which is `urlString`), used
to instantiate statements that hold for every `render`. -/
def plainString (u : URL) : String :=
  u.Scheme ++ "://" ++ u.Host ++ u.Path ++ "?" ++ u.RawQuery

/-- An upstream base URL `https://<host><path>`. -/
def baseURL (host path : String) : URL :=
  { Scheme := "https", Opaque := "", User := none, Host := host, Path := path, RawPath := "",
    OmitHost := false, ForceQuery := false, RawQuery := "", Fragment := "", RawFragment := "" }

/-- An incoming request URL with the given path and raw query. -/
def incomingURL (path query : String) : URL :=
  { Scheme := "", Opaque := "", User := none, Host := "", Path := path, RawPath := "",
    OmitHost := false, ForceQuery := false, RawQuery := query, Fragment := "", RawFragment := "" }

/-- A group with the given name. -/
def groupOf (name : String) : Group :=
  { Name := name, ChannelType := "gemini", TestModel := "", Upstreams := [],
    EffectiveConfig := { values := [] } }

/-- Two upstreams of weight 1 with URLs; the first has the empty ID. -/
def chanEmptyID : BaseChannel :=
  channelOf
    [{ ID := "", URL := some (baseURL "a.example" "/api/"), Weight := 1, CurrentWeight := 0 },
     { ID := "b", URL := some (baseURL "b.example" "/api/"), Weight := 1, CurrentWeight := 0 }]

/-- Upstream `a` at `https://a.example/api/`, weight 1. -/
def upA : UpstreamInfo :=
  { ID := "a", URL := some (baseURL "a.example" "/api/"), Weight := 1, CurrentWeight := 0 }

/-- Upstream `b` at `https://b.example/v2`, weight 1. -/
def upB : UpstreamInfo :=
  { ID := "b", URL := some (baseURL "b.example" "/v2"), Weight := 1, CurrentWeight := 0 }

/-- Two upstreams of weight 1 with URLs and IDs `a` and `b`. -/
def chanAB : BaseChannel := channelOf [upA, upB]

/-- One upstream of weight 1 whose URL pointer is nil. -/
def chanNoURL : BaseChannel := channelOf [upstreamOf "a" 1]

/-- Three fresh upstreams with weights 0, `2^63 - 1` and `2^63 - 1`. -/
def chanZeroMaxMax : BaseChannel :=
  channelOf [upstreamOf "a" 0, upstreamOf "b" 9223372036854775807,
    upstreamOf "c" 9223372036854775807]

/-- Two fresh upstreams, both of weight `2^63 - 1`. -/
def chanMaxMax : BaseChannel :=
  channelOf [upstreamOf "a" 9223372036854775807, upstreamOf "b" 9223372036854775807]

/-- Two upstreams of weight 1; the counter of the first is `2^63 - 1`, the
largest value of a 64-bit `int`. -/
def chanNearMax : BaseChannel :=
  channelOf [{ ID := "a", URL := none, Weight := 1, CurrentWeight := 9223372036854775807 },
    upstreamOf "b" 1]

/-- Two fresh upstreams with weights `2^63 - 1` and `2^62 - 1`. -/
def chanMaxHalf : BaseChannel :=
  channelOf [upstreamOf "a" 9223372036854775807, upstreamOf "b" 4611686018427387903]

/-- Three fresh upstreams with weights `2^62`, `2882303761517117440` and
`950521141494289803`; their sum `8444510921438795147` is below `2^63`, three
times the sum is not. -/
def chanWide : BaseChannel :=
  channelOf [upstreamOf "a" 4611686018427387904, upstreamOf "b" 2882303761517117440,
    upstreamOf "c" 950521141494289803]

/-- Two upstreams of weight 1; the first, `a`, sits at `https://a.example`, a
base URL with an empty path. -/
def chanRoot : BaseChannel :=
  channelOf [{ ID := "a", URL := some (baseURL "a.example" ""), Weight := 1, CurrentWeight := 0 },
    upB]

/-- The counters and the weight sum stay inside the 64-bit range during one
selection. -/
structure Fits64 (l : List UpstreamInfo) : Prop where
  nonneg : ∀ u ∈ l, 0 ≤ u.Weight
  total : sumW l < 9223372036854775808
  low : ∀ u ∈ l, -9223372036854775808 ≤ u.CurrentWeight + u.Weight - sumW l
  high : ∀ u ∈ l, u.CurrentWeight + u.Weight < 9223372036854775808

/-- No `+=` and no `-=` of one selection on the slice leaves the range of a
64-bit `int`: the running sums of the weights (`totalWeight += up.Weight`),
every counter plus its weight (`up.CurrentWeight += up.Weight`), and the
largest of these values minus the sum of the weights
(`best.CurrentWeight -= totalWeight`). -/
structure NoOverflow (l : List UpstreamInfo) : Prop where
  sums : ∀ k, k ≤ l.length → In64 (sumW (l.take k))
  bumps : ∀ u ∈ l, In64 (u.CurrentWeight + u.Weight)
  winner : In64 (vAt l (pick l) - sumW l)

instance (l : List UpstreamInfo) : Decidable (NoOverflow l) :=
  decidable_of_iff
    ((∀ k, k ≤ l.length → In64 (sumW (l.take k))) ∧
      (∀ u ∈ l, In64 (u.CurrentWeight + u.Weight)) ∧ In64 (vAt l (pick l) - sumW l))
    ⟨fun h => ⟨h.1, h.2.1, h.2.2⟩, fun h => ⟨h.sums, h.bumps, h.winner⟩⟩

/-! ## Staleness detection (definitions) -/

/-- `BaseChannel.IsConfigStale`: compares the cached snapshot with the group,
field by field.  `reflect.DeepEqual(b.effectiveConfig, &group.EffectiveConfig)`
compares the settings the two pointers point at; the cached pointer may be nil,
the address of the group's field never is.  The function only reads, so the
channel it leaves behind is the one it was called on. -/
def IsConfigStale (b : BaseChannel) (group : Group) : Bool × BaseChannel :=
  if b.channelType ≠ group.ChannelType then (true, b)
  else if b.TestModel ≠ group.TestModel then (true, b)
  else if b.groupUpstreams ≠ group.Upstreams then (true, b)
  else if b.effectiveConfig ≠ some group.EffectiveConfig then (true, b)
  else (false, b)

/-- The cached snapshot of the channel is a copy of the four compared fields of
the group. -/
def SnapshotOf (b : BaseChannel) (group : Group) : Prop :=
  b.channelType = group.ChannelType ∧ b.TestModel = group.TestModel ∧
    b.groupUpstreams = group.Upstreams ∧ b.effectiveConfig = some group.EffectiveConfig

instance (b : BaseChannel) (group : Group) : Decidable (SnapshotOf b group) := by
  unfold SnapshotOf; infer_instance

/-- A group of provider type `gemini` with test model `m1`, two serialized
bytes and one setting. -/
def groupG : Group :=
  { Name := "g", ChannelType := "gemini", TestModel := "m1", Upstreams := [91, 93],
    EffectiveConfig := { values := [30] } }

/-- A channel built for `groupG`: its snapshot holds the group's four fields. -/
def chanForG : BaseChannel :=
  { Name := "g", Upstreams := [upA, upB], TestModel := "m1", channelType := "gemini",
    groupUpstreams := [91, 93], effectiveConfig := some { values := [30] } }

/-! ## Credential validation of the Gemini channel (definitions) -/

/-- Modelled from the spec: `models.APIKey` is declared outside the source files
at hand; a credential is a "secret value" with an "optional pinned-upstream
identifier". -/
structure APIKey where
  KeyValue : String
  UpstreamFilter : String
deriving DecidableEq, Repr

/-- What the single outbound call `ch.HTTPClient.Do(req)` of `ValidateKey` comes
back with: a transport error, or a response with its status code and the result
of reading its body (`io.ReadAll`). -/
inductive CallOutcome where
  | unreachable (err : String)
  | answered (status : Int) (body : Except String (List UInt8))

/-- The library and helper functions `ValidateKey` calls: `render` is
`(*url.URL).String`, `requestError` is the error of `http.NewRequestWithContext`
for a request URL (`none` when the request is built), `parseUpstreamError` is
`app_errors.ParseUpstreamError`. -/
structure ValidationEnv where
  render : URL → String
  requestError : String → Option String
  parseUpstreamError : List UInt8 → String

/-- The upstream resolution at the head of `GeminiChannel.ValidateKey` (steps 1
and 2): the upstream `findUpstreamByID` finds for the credential's filter, the
weighted selection otherwise. -/
def validateResolve (b : BaseChannel) (filter : String) : Option URL × BaseChannel :=
  let pinned : Option URL :=
    match findUpstreamByID b filter with
    | some i => (b.Upstreams[i]?).bind (fun u => u.URL)
    | none => none
  match pinned with
  | some u => (some u, b)
  | none => getUpstreamURL b

/-- The request URL of `ValidateKey`:
`<upstream>/v1beta/models/<model>:generateContent?key=<key>`. -/
def validationRequestURL (env : ValidationEnv) (b : BaseChannel) (key : APIKey) (u : URL) :
    String :=
  env.render u ++ "/v1beta/models/" ++ b.TestModel ++ ":generateContent?key=" ++ key.KeyValue

/-- The part of `ValidateKey` after the outbound call: the verdict and the
diagnostic (`none` for a nil error) for each outcome of the call. -/
def validationVerdict (env : ValidationEnv) (outcome : CallOutcome) : Bool × Option String :=
  match outcome with
  | .unreachable err => (false, some ("failed to send validation request: " ++ err))
  | .answered status body =>
    if status = 200 then (true, none)
    else
      match body with
      | .error err =>
        (false, some ("key is invalid (status " ++ toString status ++
          "), but failed to read error body: " ++ err))
      | .ok bytes =>
        (false, some ("[status " ++ toString status ++ "] " ++ env.parseUpstreamError bytes))

/-- `GeminiChannel.ValidateKey`, with the outcome of its outbound call as an
argument.  Returns the verdict, the diagnostic and the channel after the call.
`json.Marshal` of the fixed payload cannot fail and is left out. -/
def ValidateKey (env : ValidationEnv) (b : BaseChannel) (key : APIKey) (outcome : CallOutcome) :
    (Bool × Option String) × BaseChannel :=
  match validateResolve b key.UpstreamFilter with
  | (none, b1) => ((false, some ("no upstream URL configured for channel " ++ b.Name)), b1)
  | (some u, b1) =>
    match env.requestError (validationRequestURL env b key u) with
    | some err => ((false, some ("failed to create validation request: " ++ err)), b1)
    | none => (validationVerdict env outcome, b1)

/-- An environment in which every request can be built and the error parser
returns the body length. -/
def plainEnv : ValidationEnv :=
  { render := plainString
    requestError := fun _ => none
    parseUpstreamError := fun bytes => toString bytes.length }

/-- Two upstreams configured without IDs apart from the second: ID "" with
weight 1 and ID `b` with weight 2. -/
def chanLegacy : BaseChannel :=
  channelOf
    [{ ID := "", URL := some (baseURL "a.example" "/api/"), Weight := 1, CurrentWeight := 0 },
     { ID := "b", URL := some (baseURL "b.example" "/v2"), Weight := 2, CurrentWeight := 0 }]

/-! ## Query strings of `net/url` and `ModifyRequest` (definitions) -/

/-- `url.Values` (`map[string][]string`), kept as the list of its entries in
increasing key order, the order in which `Values.Encode` writes them. -/
abbrev Values := List (String × List String)

/-- Byte-wise order of Go strings (the order of `slices.Sort` on keys), on the
characters of the two strings. -/
def keyLt : List Char → List Char → Bool
  | _, [] => false
  | [], _ :: _ => true
  | a :: as, b :: bs =>
    if a.toNat < b.toNat then true
    else if a.toNat = b.toNat then keyLt as bs
    else false

/-- The statement `m[key] = append(m[key], value)` of `url.ParseQuery`. -/
def valuesAdd : Values → String → String → Values
  | [], k, v => [(k, [v])]
  | (k1, vs) :: rest, k, v =>
    if k = k1 then (k1, vs ++ [v]) :: rest
    else if keyLt k.data k1.data then (k, [v]) :: (k1, vs) :: rest
    else (k1, vs) :: valuesAdd rest k v

/-- The method `Values.Set`: `v[key] = []string{value}`. -/
def valuesSet : Values → String → String → Values
  | [], k, v => [(k, [v])]
  | (k1, vs) :: rest, k, v =>
    if k = k1 then (k1, [v]) :: rest
    else if keyLt k.data k1.data then (k, [v]) :: (k1, vs) :: rest
    else (k1, vs) :: valuesSet rest k v

/-- The standard library's `url.QueryEscape` and `url.QueryUnescape` (`none`
for its error). -/
structure QueryCodec where
  escape : String → String
  unescape : String → Option String

/-- The two facts about `QueryEscape` the channel code relies on: unescaping
inverts it, and its output contains none of the separators `&`, `=`, `;`. -/
structure QueryCodec.Lawful (codec : QueryCodec) : Prop where
  unescape_escape : ∀ s, codec.unescape (codec.escape s) = some s
  escape_clean : ∀ s, ∀ c ∈ (codec.escape s).data, c ≠ '&' ∧ c ≠ '=' ∧ c ≠ ';'

/-- The pieces of a string between the occurrences of `sep`. -/
def splitOnChar (sep : Char) : List Char → List (List Char)
  | [] => [[]]
  | c :: cs =>
    if c = sep then [] :: splitOnChar sep cs
    else
      match splitOnChar sep cs with
      | [] => [[c]]
      | h :: t => (c :: h) :: t

/-- Go's `strings.Cut(s, sep)` for a one-character separator: the text before
the first `sep` and the text after it (empty when there is no `sep`). -/
def cutAt (sep : Char) (s : List Char) : List Char × List Char :=
  (s.takeWhile (fun c => c ≠ sep), (s.dropWhile (fun c => c ≠ sep)).drop 1)

/-- One round of the loop of `url.ParseQuery` on the piece `seg` between two
`&`: pieces with a semicolon, empty pieces and pieces that do not unescape are
skipped. -/
def parsePair (codec : QueryCodec) (m : Values) (seg : List Char) : Values :=
  if seg.contains ';' then m
  else if seg = [] then m
  else
    match codec.unescape (String.mk (cutAt '=' seg).1) with
    | none => m
    | some key =>
      match codec.unescape (String.mk (cutAt '=' seg).2) with
      | none => m
      | some value => valuesAdd m key value

/-- The method `(*url.URL).Query`: `url.ParseQuery` of the raw query, errors
dropped. -/
def parseQuery (codec : QueryCodec) (query : String) : Values :=
  (splitOnChar '&' query.data).foldl (parsePair codec) []

/-- The `key=value` texts `Values.Encode` writes, in its order. -/
def encodePairs (codec : QueryCodec) : Values → List String
  | [] => []
  | (k, vs) :: rest =>
    vs.map (fun v => codec.escape k ++ "=" ++ codec.escape v) ++ encodePairs codec rest

/-- The pairs joined by `&`. -/
def joinAmp : List String → String
  | [] => ""
  | [p] => p
  | p :: q :: rest => p ++ "&" ++ joinAmp (q :: rest)

/-- The method `Values.Encode`. -/
def encodeValues (codec : QueryCodec) (m : Values) : String :=
  joinAmp (encodePairs codec m)

/-- The part of `http.Request` the channel code touches. -/
structure HTTPRequest where
  Method : String
  URL : URL
  Header : List (String × List String)
deriving DecidableEq, Repr

/-- `GeminiChannel.ModifyRequest`:
`q := req.URL.Query(); q.Set("key", apiKey.KeyValue); req.URL.RawQuery = q.Encode()`.
Returns the request after the call. -/
def ModifyRequest (codec : QueryCodec) (req : HTTPRequest) (apiKey : APIKey) (_group : Group) :
    HTTPRequest :=
  let q := parseQuery codec req.URL.RawQuery
  let q1 := valuesSet q "key" apiKey.KeyValue
  { req with URL := { req.URL with RawQuery := encodeValues codec q1 } }

/-- Escaping of one character by `sepCodec`. -/
def sepEscapeChar (c : Char) : List Char :=
  if c = '%' then ['%', 'p']
  else if c = '&' then ['%', 'a']
  else if c = '=' then ['%', 'e']
  else if c = ';' then ['%', 's']
  else [c]

/-- Escaping by `sepCodec`. -/
def sepEscape : List Char → List Char
  | [] => []
  | c :: cs => sepEscapeChar c ++ sepEscape cs

/-- The character `sepCodec` writes `%d` for. -/
def sepDecode (d : Char) : Option Char :=
  if d = 'p' then some '%'
  else if d = 'a' then some '&'
  else if d = 'e' then some '='
  else if d = 's' then some ';'
  else none

/-- Unescaping by `sepCodec`: `none` for a percent sign that is not followed by
one of its four letters. -/
def sepUnescape : List Char → Option (List Char)
  | [] => some []
  | [c] => if c = '%' then none else some [c]
  | c :: d :: rest =>
    if c = '%' then (sepDecode d).bind (fun x => (sepUnescape rest).map (fun r => x :: r))
    else (sepUnescape (d :: rest)).map (fun r => c :: r)

/-- A small codec that escapes the separators and the percent sign only; it
stands in for `QueryEscape` where a concrete codec is needed. -/
def sepCodec : QueryCodec :=
  { escape := fun s => String.mk (sepEscape s.data)
    unescape := fun s => (sepUnescape s.data).map String.mk }

/-- A request whose query already carries a `key` and a repeated parameter. -/
def req0 : HTTPRequest :=
  { Method := "POST"
    URL := incomingURL "/v1beta/models/m:generateContent" "x=1&key=old&alt=sse&x=2"
    Header := [] }

/-- Keys in strictly increasing order, no key with an empty list of values. -/
def Canon (m : Values) : Prop :=
  m.Pairwise (fun a b => keyLt a.1.data b.1.data = true) ∧ ∀ p ∈ m, p.2 ≠ []

/-- The `(key, value)` pairs of a value map in the order `Values.Encode` writes
them. -/
def flatPairs : Values → List (String × String)
  | [] => []
  | (k, vs) :: rest => vs.map (fun v => (k, v)) ++ flatPairs rest

/-- The text `Values.Encode` writes for one pair. -/
def encodePair (codec : QueryCodec) (kv : String × String) : String :=
  codec.escape kv.1 ++ "=" ++ codec.escape kv.2

/-- The request with its raw query replaced. -/
def withRawQuery (req : HTTPRequest) (q : String) : HTTPRequest :=
  { req with URL := { req.URL with RawQuery := q } }

/-! ## Credential extraction (definitions) -/

/-- The parts of `gin.Context` the provider code reads: the request path, the
request headers under their canonical names, and the parsed query parameters
(the query cache `c.Request.URL.Query()` that `c.Query` looks into). -/
structure GinContext where
  Path : String
  Header : List (String × List String)
  QueryValues : Values
deriving DecidableEq, Repr

/-- The first value stored under `key`, "" when there is none. -/
def firstValue (m : List (String × List String)) (key : String) : String :=
  match m.lookup key with
  | some (v :: _) => v
  | _ => ""

/-- `c.GetHeader(key)` for a key in canonical form. -/
def GinContext.GetHeader (c : GinContext) (key : String) : String :=
  firstValue c.Header key

/-- `c.Query(key)`. -/
def GinContext.Query (c : GinContext) (key : String) : String :=
  firstValue c.QueryValues key

/-- `GeminiChannel.ExtractKey`. -/
def ExtractKey (c : GinContext) : String :=
  let key := c.GetHeader "X-Goog-Api-Key"
  if key ≠ "" then key
  else
    let key := c.Query "key"
    if key ≠ "" then key
    else ""

/-- A request context with both the header and the `key` query parameter. -/
def ctxBoth : GinContext :=
  { Path := "/proxy/g/v1beta/models/m:generateContent"
    Header := [("Accept", ["*/*"]), ("X-Goog-Api-Key", ["from-header"])]
    QueryValues := [("alt", ["sse"]), ("key", ["from-query"])] }

/-- A request context with the `key` query parameter only. -/
def ctxQuery : GinContext :=
  { Path := "/proxy/g/v1beta/models/m:generateContent"
    Header := [("Accept", ["*/*"])]
    QueryValues := [("alt", ["sse"]), ("key", ["from-query"])] }

/-! ## The loop of `getUpstreamInfoZ` -/

theorem loopUps_getElem? (ups : List UpstreamInfo) (k i : Nat) (hk : k ≤ ups.length) :
    (loopUps ups k)[i]? = if i < k then (ups[i]?).map bump else ups[i]? := by
  unfold loopUps
  have hlen : (List.map bump (List.take k ups)).length = k := by
    rw [List.length_map, List.length_take]; omega
  rw [List.getElem?_append, hlen]
  by_cases hik : i < k
  · simp only [hik, if_true, List.getElem?_map, List.getElem?_take]
  · simp only [hik, if_false, List.getElem?_drop]
    congr 1
    omega

theorem loopUps_length (ups : List UpstreamInfo) (k : Nat) :
    (loopUps ups k).length = ups.length := by
  unfold loopUps
  rw [List.length_append, List.length_map, List.length_take, List.length_drop]; omega

theorem loopUps_set (ups : List UpstreamInfo) (k : Nat) (u : UpstreamInfo)
    (h : ups[k]? = some u) : (loopUps ups k).set k (bump u) = loopUps ups (k + 1) := by
  have hk : k < ups.length := by
    by_contra hc
    rw [List.getElem?_eq_none (by omega)] at h; cases h
  apply List.ext_getElem?
  intro i
  rw [List.getElem?_set, loopUps_getElem? ups k i (by omega),
    loopUps_getElem? ups (k + 1) i (by omega), loopUps_length]
  by_cases hki : k = i
  · subst hki; simp [hk, h]
  · simp only [hki, if_false]
    by_cases hik : i < k
    · simp [hik, Nat.lt_succ_of_lt hik]
    · have : ¬ i < k + 1 := by omega
      simp [hik, this]

theorem bestUpTo_lt (ups : List UpstreamInfo) :
    ∀ (k j : Nat), bestUpTo ups k = some j → j < k := by
  intro k
  induction k with
  | zero => intro j h; simp [bestUpTo] at h
  | succ k ih =>
    intro j h
    unfold bestUpTo at h
    split at h
    · cases h; omega
    · rename_i j0 hj0
      have := ih j0 hj0
      split at h
      · split at h <;> (cases h; omega)
      · cases h; omega

theorem loop_fold (ups : List UpstreamInfo) :
    ∀ k, k ≤ ups.length →
      (List.range k).foldl selectBodyZ { ups := ups, totalWeight := 0, best := none } =
        { ups := loopUps ups k
          totalWeight := ((ups.take k).map (fun u => u.Weight)).sum
          best := bestUpTo ups k } := by
  intro k
  induction k with
  | zero => intro _; simp [loopUps, bestUpTo]
  | succ k ih =>
    intro hk
    have hk1 : k < ups.length := by omega
    rw [List.range_succ, List.foldl_append, ih (by omega)]
    have hget : ups[k]? = some ups[k] := List.getElem?_eq_getElem hk1
    simp only [List.foldl_cons, List.foldl_nil, selectBodyZ]
    have h1 : (loopUps ups k)[k]? = some ups[k] := by
      rw [loopUps_getElem? ups k k (by omega)]; simp [hget]
    rw [h1]
    simp only
    have hset := loopUps_set ups k ups[k] hget
    unfold bump at hset
    rw [hset]
    congr 1
    · rw [List.take_succ, hget, List.map_append, List.sum_append]; simp
    · conv_rhs => unfold bestUpTo
      cases hb : bestUpTo ups k with
      | none => simp
      | some j =>
        have hj := bestUpTo_lt ups k j hb
        have hjl : j < ups.length := by omega
        have hgj : ups[j]? = some ups[j] := List.getElem?_eq_getElem hjl
        simp only [loopUps_getElem? ups (k + 1) j (by omega), hgj, hget, show j < k + 1 by omega, if_true,
          Option.map_some']
        simp only [bump, value]
        by_cases hc : ups[k].CurrentWeight + ups[k].Weight > ups[j].CurrentWeight + ups[j].Weight
        · simp [hc]
        · simp [hc]

theorem loopUps_full (ups : List UpstreamInfo) : loopUps ups ups.length = ups.map bump := by
  simp [loopUps]

theorem bestUpTo_isSome (ups : List UpstreamInfo) :
    ∀ k, 0 < k → ∃ j, bestUpTo ups k = some j := by
  intro k hk
  cases k with
  | zero => omega
  | succ k =>
    unfold bestUpTo
    split
    · exact ⟨_, rfl⟩
    · split
      · split <;> exact ⟨_, rfl⟩
      · exact ⟨_, rfl⟩

theorem getUpstreamInfoZ_eq (b : BaseChannel) (h : 2 ≤ b.Upstreams.length) :
    getUpstreamInfoZ b = (some (pick b.Upstreams), { b with Upstreams := step b.Upstreams }) := by
  unfold getUpstreamInfoZ
  have h0 : ¬ b.Upstreams.length = 0 := by omega
  have h1 : ¬ b.Upstreams.length = 1 := by omega
  simp only [h0, h1, if_false]
  rw [loop_fold b.Upstreams b.Upstreams.length (le_refl _)]
  obtain ⟨j, hj⟩ := bestUpTo_isSome b.Upstreams b.Upstreams.length (by omega)
  simp only [hj, pick, step, Option.getD_some, loopUps_full, sumW, List.take_length]

theorem pick_lt (ups : List UpstreamInfo) (h : 0 < ups.length) : pick ups < ups.length := by
  obtain ⟨j, hj⟩ := bestUpTo_isSome ups ups.length h
  have := bestUpTo_lt ups _ _ hj
  simp [pick, hj, this]

theorem bestUpTo_max (ups : List UpstreamInfo) :
    ∀ k j, k ≤ ups.length → bestUpTo ups k = some j →
      (∀ i, i < k → vAt ups i ≤ vAt ups j) ∧ (∀ i, i < j → vAt ups i < vAt ups j) := by
  intro k
  induction k with
  | zero => intro j _ h; simp [bestUpTo] at h
  | succ k ih =>
    intro j hk h
    have hk1 : k < ups.length := by omega
    have hgk : ups[k]? = some ups[k] := List.getElem?_eq_getElem hk1
    unfold bestUpTo at h
    cases hb : bestUpTo ups k with
    | none =>
      rw [hb] at h
      simp only [Option.some.injEq] at h
      subst h
      cases k with
      | zero =>
        constructor
        · intro i hi
          have : i = 0 := by omega
          subst this; exact le_refl _
        · intro i hi; omega
      | succ k =>
        obtain ⟨j0, hj0⟩ := bestUpTo_isSome ups (k + 1) (by omega)
        rw [hj0] at hb; cases hb
    | some j0 =>
      rw [hb] at h
      have hj0 := bestUpTo_lt ups k j0 hb
      have hgj : ups[j0]? = some ups[j0] := List.getElem?_eq_getElem (by omega)
      obtain ⟨ih1, ih2⟩ := ih j0 (by omega) hb
      simp only [hgk, hgj] at h
      have vk : vAt ups k = value ups[k] := by simp [vAt, hgk]
      have vj : vAt ups j0 = value ups[j0] := by simp [vAt, hgj]
      by_cases hc : value ups[k] > value ups[j0]
      · simp only [hc, if_true, Option.some.injEq] at h
        subst h
        constructor
        · intro i hi
          by_cases hik : i = k
          · subst hik; exact le_refl _
          · have := ih1 i (by omega)
            rw [vk]; rw [vj] at this; omega
        · intro i hi
          have := ih1 i hi
          rw [vk]; rw [vj] at this; omega
      · simp only [hc, if_false, Option.some.injEq] at h
        subst h
        constructor
        · intro i hi
          by_cases hik : i = k
          · subst hik; rw [vk, vj]; omega
          · exact ih1 i (by omega)
        · exact ih2

theorem pick_max (ups : List UpstreamInfo) (h : 0 < ups.length) :
    (∀ i, i < ups.length → vAt ups i ≤ vAt ups (pick ups)) ∧
    (∀ i, i < pick ups → vAt ups i < vAt ups (pick ups)) := by
  obtain ⟨j, hj⟩ := bestUpTo_isSome ups ups.length h
  have := bestUpTo_max ups _ j (le_refl _) hj
  simpa [pick, hj] using this

theorem step_getElem? (ups : List UpstreamInfo) (i : Nat) :
    (step ups)[i]? = (ups[i]?).map (fun u =>
      { u with CurrentWeight :=
          if i = pick ups then u.CurrentWeight + u.Weight - sumW ups
          else u.CurrentWeight + u.Weight }) := by
  unfold step subtractAtZ
  cases hp : (List.map bump ups)[pick ups]? with
  | none =>
    simp only
    rw [List.getElem?_map] at hp ⊢
    have hn : ups[pick ups]? = none := by
      cases hq : ups[pick ups]? with
      | none => rfl
      | some u => rw [hq] at hp; cases hp
    by_cases hip : i = pick ups
    · subst hip; simp [hn]
    · simp only [hip, if_false]; rfl
  | some u =>
    simp only
    rw [List.getElem?_set, List.getElem?_map]
    rw [List.getElem?_map] at hp
    by_cases hip : pick ups = i
    · subst hip
      cases hq : ups[pick ups]? with
      | none => rw [hq] at hp; cases hp
      | some u0 =>
        rw [hq] at hp
        simp only [Option.map_some', Option.some.injEq] at hp
        subst hp
        have hl : pick ups < ups.length := by
          by_contra hc
          rw [List.getElem?_eq_none (by omega)] at hq; cases hq
        simp [hl, bump]
    · have : ¬ i = pick ups := fun h => hip h.symm
      simp only [hip, this, if_false]; rfl

/-! ## One selection on the slice -/

theorem step_length (l : List UpstreamInfo) : (step l).length = l.length := by
  unfold step subtractAtZ
  split <;> simp

theorem cAt_of_getElem? {l : List UpstreamInfo} {i : Nat} {u : UpstreamInfo}
    (h : l[i]? = some u) : cAt l i = u.CurrentWeight := by
  simp [cAt, h]

theorem wAt_of_getElem? {l : List UpstreamInfo} {i : Nat} {u : UpstreamInfo}
    (h : l[i]? = some u) : wAt l i = u.Weight := by
  simp [wAt, h]

theorem vAt_eq (l : List UpstreamInfo) (i : Nat) : vAt l i = cAt l i + wAt l i := by
  unfold vAt cAt wAt
  cases l[i]? <;> simp [value]

theorem wAt_step (l : List UpstreamInfo) (i : Nat) : wAt (step l) i = wAt l i := by
  unfold wAt
  rw [step_getElem?]
  cases l[i]? <;> simp

theorem cAt_step (l : List UpstreamInfo) (i : Nat) (hi : i < l.length) :
    cAt (step l) i = cAt l i + wAt l i - (if i = pick l then sumW l else 0) := by
  unfold cAt wAt
  rw [step_getElem?, List.getElem?_eq_getElem hi]
  by_cases h : i = pick l <;> simp [h]

theorem map_weight_step (l : List UpstreamInfo) :
    (step l).map (fun u => u.Weight) = l.map (fun u => u.Weight) := by
  apply List.ext_getElem?
  intro i
  rw [List.getElem?_map, List.getElem?_map, step_getElem?]
  cases l[i]? <;> simp

theorem sumW_step (l : List UpstreamInfo) : sumW (step l) = sumW l := by
  unfold sumW; rw [map_weight_step]

theorem sumC_bump (l : List UpstreamInfo) : sumC (l.map bump) = sumC l + sumW l := by
  induction l with
  | nil => simp [sumC, sumW]
  | cons u l ih =>
    simp only [sumC, sumW, List.map_cons, List.sum_cons] at ih ⊢
    simp only [bump]
    omega

theorem sumC_set (l : List UpstreamInfo) :
    ∀ (j : Nat) (u : UpstreamInfo), j < l.length →
      sumC (l.set j u) = sumC l - cAt l j + u.CurrentWeight := by
  induction l with
  | nil => intro j u h; simp at h
  | cons a l ih =>
    intro j u h
    cases j with
    | zero => simp [sumC, cAt]; omega
    | succ j =>
      have := ih j u (by simpa using h)
      simp only [sumC, List.set_cons_succ, List.map_cons, List.sum_cons, cAt,
        List.getElem?_cons_succ] at this ⊢
      omega

theorem sumC_subtractAt (l : List UpstreamInfo) (j : Nat) (t : Int) (h : j < l.length) :
    sumC (subtractAtZ l j t) = sumC l - t := by
  unfold subtractAtZ
  rw [List.getElem?_eq_getElem h]
  simp only
  rw [sumC_set l j _ h, cAt_of_getElem? (List.getElem?_eq_getElem h)]
  simp only
  omega

theorem sumC_step (l : List UpstreamInfo) (h : 0 < l.length) : sumC (step l) = sumC l := by
  unfold step
  rw [sumC_subtractAt _ _ _ (by simpa using pick_lt l h), sumC_bump]
  omega

theorem sum_value_le (l : List UpstreamInfo) (m : Int) (h : ∀ u ∈ l, value u ≤ m) :
    sumC l + sumW l ≤ l.length * m := by
  induction l with
  | nil => simp [sumC, sumW]
  | cons a l ih =>
    have h1 := ih (fun u hu => h u (List.mem_cons_of_mem _ hu))
    have h2 := h a (List.mem_cons_self _ _)
    simp only [sumC, sumW, List.map_cons, List.sum_cons, List.length_cons, value] at h1 h2 ⊢
    push_cast
    nlinarith

theorem vAt_of_mem {l : List UpstreamInfo} {u : UpstreamInfo} (h : u ∈ l) :
    ∃ i, i < l.length ∧ vAt l i = value u := by
  obtain ⟨i, hi, rfl⟩ := List.mem_iff_getElem.mp h
  exact ⟨i, hi, by simp [vAt, List.getElem?_eq_getElem hi]⟩

/-- The selected upstream carries at least the average value. -/
theorem sum_le_pick (l : List UpstreamInfo) (h : 0 < l.length) :
    sumC l + sumW l ≤ l.length * vAt l (pick l) := by
  apply sum_value_le
  intro u hu
  obtain ⟨i, hi, hv⟩ := vAt_of_mem hu
  rw [← hv]
  exact (pick_max l h).1 i hi

/-! ## The invariant of a run -/

theorem sumW_nonneg (l : List UpstreamInfo) (h : ∀ u ∈ l, 0 ≤ u.Weight) : 0 ≤ sumW l := by
  induction l with
  | nil => simp [sumW]
  | cons a l ih =>
    have h1 := ih (fun u hu => h u (List.mem_cons_of_mem _ hu))
    have h2 := h a (List.mem_cons_self _ _)
    simp only [sumW, List.map_cons, List.sum_cons] at h1 ⊢
    omega

theorem wAt_nonneg (l : List UpstreamInfo) (h : ∀ u ∈ l, 0 ≤ u.Weight) (i : Nat) :
    0 ≤ wAt l i := by
  unfold wAt
  cases hg : l[i]? with
  | none => simp
  | some u => exact h u (List.getElem?_mem hg)

theorem mem_step_weight (l : List UpstreamInfo) (h : ∀ u ∈ l, 0 ≤ u.Weight) :
    ∀ u ∈ step l, 0 ≤ u.Weight := by
  intro u hu
  obtain ⟨i, hi, rfl⟩ := List.mem_iff_getElem.mp hu
  have hg : (step l)[i]? = some (step l)[i] := List.getElem?_eq_getElem hi
  have := wAt_step l i
  rw [wAt_of_getElem? hg] at this
  rw [this]
  exact wAt_nonneg l h i

theorem vAt_pick_nonneg (l : List UpstreamInfo) (h : 0 < l.length)
    (hw : ∀ u ∈ l, 0 ≤ u.Weight) (hs : sumC l = 0) : 0 ≤ vAt l (pick l) := by
  have h1 := sum_le_pick l h
  have h2 := sumW_nonneg l hw
  rw [hs] at h1
  by_contra hc
  have hneg : vAt l (pick l) ≤ -1 := by omega
  have hlen : (1 : Int) ≤ l.length := by exact_mod_cast h
  nlinarith

theorem Balanced.step {l : List UpstreamInfo} (hb : Balanced l) (h : 0 < l.length) :
    Balanced (step l) := by
  have hT := sumW_nonneg l hb.nonneg
  have hv := vAt_pick_nonneg l h hb.nonneg hb.sum_zero
  rw [vAt_eq] at hv
  have hmax := (pick_max l h).1
  refine ⟨mem_step_weight l hb.nonneg, ?_, ?_, ?_⟩
  · rw [sumC_step l h]; exact hb.sum_zero
  · intro i hi
    rw [step_length] at hi
    rw [sumW_step, cAt_step l i hi]
    have h1 := hb.lower i hi
    have h2 := wAt_nonneg l hb.nonneg i
    by_cases hp : i = pick l
    · subst hp; simp only [if_true]; omega
    · simp only [hp, if_false]; omega
  · intro i j hi hj hw
    rw [step_length] at hi hj
    rw [wAt_step, wAt_step] at hw
    rw [sumW_step, cAt_step l i hi, cAt_step l j hj]
    have h1 := hb.order i j hi hj hw
    have hi1 := hmax i hi
    have hj1 := hmax j hj
    rw [vAt_eq, vAt_eq] at hi1 hj1
    by_cases hpi : i = pick l
    · by_cases hpj : j = pick l
      · simp only [hpi, hpj, if_true]; omega
      · simp only [hpi, hpj, if_true, if_false]
        rw [hpi] at hw h1
        omega
    · by_cases hpj : j = pick l
      · simp only [hpi, hpj, if_true, if_false]
        rw [hpj] at hw h1
        omega
      · simp only [hpi, hpj, if_false]; omega

theorem stepN_succ (k : Nat) (l : List UpstreamInfo) :
    stepN (k + 1) l = Channel.step (stepN k l) := by
  induction k generalizing l with
  | zero => rfl
  | succ k ih =>
    show stepN (k + 1) (Channel.step l) = _
    rw [ih]; rfl

theorem pickSeq_succ (k : Nat) (l : List UpstreamInfo) :
    pickSeq (k + 1) l = pickSeq k l ++ [pick (stepN k l)] := by
  induction k generalizing l with
  | zero => rfl
  | succ k ih =>
    show pick l :: pickSeq (k + 1) (Channel.step l) = _
    rw [ih]; rfl

theorem stepN_add (a c : Nat) (l : List UpstreamInfo) :
    stepN (a + c) l = stepN c (stepN a l) := by
  induction a generalizing l with
  | zero => simp [stepN]
  | succ a ih =>
    rw [Nat.add_right_comm]
    show stepN (a + c) (Channel.step l) = stepN c (stepN a (Channel.step l))
    exact ih _

theorem stepN_length (k : Nat) (l : List UpstreamInfo) : (stepN k l).length = l.length := by
  induction k generalizing l with
  | zero => rfl
  | succ k ih => show (stepN k (Channel.step l)).length = _; rw [ih, step_length]

theorem wAt_stepN (k : Nat) (l : List UpstreamInfo) (i : Nat) :
    wAt (stepN k l) i = wAt l i := by
  induction k generalizing l with
  | zero => rfl
  | succ k ih => show wAt (stepN k (Channel.step l)) i = _; rw [ih, wAt_step]

theorem sumW_stepN (k : Nat) (l : List UpstreamInfo) : sumW (stepN k l) = sumW l := by
  induction k generalizing l with
  | zero => rfl
  | succ k ih => show sumW (stepN k (Channel.step l)) = _; rw [ih, sumW_step]

theorem Balanced.stepN {l : List UpstreamInfo} (hb : Balanced l) (h : 0 < l.length) (k : Nat) :
    Balanced (stepN k l) := by
  induction k generalizing l with
  | zero => exact hb
  | succ k ih =>
    show Balanced (Channel.stepN k (Channel.step l))
    exact ih (hb.step h) (by rw [step_length]; exact h)

/-- Counter after `m` selections: start value plus `m` times the weight minus
the total weight for every time the upstream was chosen. -/
theorem cAt_stepN (m : Nat) (l : List UpstreamInfo) (i : Nat) (hi : i < l.length) :
    cAt (stepN m l) i = cAt l i + m * wAt l i - sumW l * ((pickSeq m l).count i : Nat) := by
  induction m generalizing l with
  | zero => simp [stepN, pickSeq]
  | succ m ih =>
    show cAt (stepN m (Channel.step l)) i = _
    rw [ih (Channel.step l) (by rw [step_length]; exact hi), cAt_step l i hi, wAt_step, sumW_step]
    show _ = cAt l i + _ - sumW l * ((pick l :: pickSeq m (Channel.step l)).count i : Nat)
    rw [List.count_cons]
    by_cases hp : i = pick l
    · subst hp; simp only [if_true, beq_self_eq_true]; push_cast; ring
    · have : (pick l == i) = false := by
        simp only [beq_eq_false_iff_ne]; exact fun h => hp h.symm
      simp only [hp, if_false, this]; push_cast; ring

theorem cAt_fresh {l : List UpstreamInfo} (h : FreshUps l) (i : Nat) : cAt l i = 0 := by
  unfold cAt
  cases hg : l[i]? with
  | none => rfl
  | some u => exact (h u (List.getElem?_mem hg)).2

theorem sumC_fresh {l : List UpstreamInfo} (h : FreshUps l) : sumC l = 0 := by
  induction l with
  | nil => simp [sumC]
  | cons a l ih =>
    have h1 := ih (fun u hu => h u (List.mem_cons_of_mem _ hu))
    have h2 := (h a (List.mem_cons_self _ _)).2
    simp only [sumC, List.map_cons, List.sum_cons] at h1 ⊢
    omega

theorem Balanced.of_fresh {l : List UpstreamInfo} (h : FreshUps l) : Balanced l := by
  have hw : ∀ u ∈ l, 0 ≤ u.Weight := fun u hu => (h u hu).1
  have hT := sumW_nonneg l hw
  refine ⟨hw, sumC_fresh h, ?_, ?_⟩
  · intro i _; rw [cAt_fresh h]; omega
  · intro i j _ _ _; rw [cAt_fresh h, cAt_fresh h]; omega

theorem stepN_getElem? (m : Nat) (l : List UpstreamInfo) (i : Nat) :
    (stepN m l)[i]? = (l[i]?).map (fun u => { u with CurrentWeight := cAt (stepN m l) i }) := by
  induction m generalizing l with
  | zero =>
    simp only [stepN]
    cases hg : l[i]? with
    | none => rfl
    | some u => simp [cAt, hg]
  | succ m ih =>
    show (stepN m (Channel.step l))[i]? = (l[i]?).map (fun u =>
      { u with CurrentWeight := cAt (stepN m (Channel.step l)) i })
    rw [ih, step_getElem?]
    cases l[i]? <;> simp

/-- During the first `sumW l` selections from the fresh state no upstream is
chosen more often than its weight. -/
theorem count_le_weight {l : List UpstreamInfo} (h : FreshUps l) (hn : 0 < l.length) :
    ∀ k : Nat, (k : Int) ≤ sumW l → ∀ i, i < l.length →
      (((pickSeq k l).count i : Nat) : Int) ≤ wAt l i := by
  have hw : ∀ u ∈ l, 0 ≤ u.Weight := fun u hu => (h u hu).1
  intro k
  induction k with
  | zero => intro _ i _; simpa [pickSeq] using wAt_nonneg l hw i
  | succ k ih =>
    intro hk i hi
    have ihk := ih (by push_cast at hk; omega)
    rw [pickSeq_succ, List.count_append]
    have hbal := (Balanced.of_fresh h).stepN hn k
    have hlen : 0 < (stepN k l).length := by rw [stepN_length]; exact hn
    by_cases hp : pick (stepN k l) = i
    · have hcount : List.count i [pick (stepN k l)] = 1 := by simp [hp]
      rw [hcount]
      by_contra hc
      have hge : wAt l i ≤ ((pickSeq k l).count i : Nat) := by push_cast at hc ⊢; omega
      have heq : (((pickSeq k l).count i : Nat) : Int) = wAt l i :=
        le_antisymm (ihk i hi) hge
      have hv := vAt_pick_nonneg (stepN k l) hlen hbal.nonneg hbal.sum_zero
      have hsum := sum_le_pick (stepN k l) hlen
      rw [hbal.sum_zero, sumW_stepN] at hsum
      rw [hp, vAt_eq, wAt_stepN, cAt_stepN k l i hi, cAt_fresh h, heq] at hv hsum
      have hwi := wAt_nonneg l hw i
      have hval : 0 + (k : Int) * wAt l i - sumW l * wAt l i + wAt l i ≤ 0 := by
        have : ((k : Int) + 1 - sumW l) * wAt l i ≤ 0 :=
          mul_nonpos_of_nonpos_of_nonneg (by push_cast at hk; omega) hwi
        nlinarith
      have hlenpos : (0 : Int) < (stepN k l).length := by exact_mod_cast hlen
      have hTpos : 0 < sumW l := by push_cast at hk; omega
      nlinarith
    · have hcount : List.count i [pick (stepN k l)] = 0 := by
        simp [List.count_cons, hp]
      rw [hcount]
      simpa using ihk i hi

theorem eq_zero_of_sumC_zero (l : List UpstreamInfo) (h0 : ∀ u ∈ l, 0 ≤ u.CurrentWeight)
    (hs : sumC l = 0) : ∀ u ∈ l, u.CurrentWeight = 0 := by
  induction l with
  | nil => intro u hu; cases hu
  | cons a l ih =>
    have ha := h0 a (List.mem_cons_self _ _)
    have hl : ∀ u ∈ l, 0 ≤ u.CurrentWeight := fun u hu => h0 u (List.mem_cons_of_mem _ hu)
    have hnn : 0 ≤ sumC l := by
      clear ih hs h0 ha
      induction l with
      | nil => simp [sumC]
      | cons b l ih2 =>
        have h1 := ih2 (fun u hu => hl u (List.mem_cons_of_mem _ hu))
        have h2 := hl b (List.mem_cons_self _ _)
        simp only [sumC, List.map_cons, List.sum_cons] at h1 ⊢
        omega
    simp only [sumC, List.map_cons, List.sum_cons] at hs hnn
    intro u hu
    rcases List.mem_cons.mp hu with rfl | hu
    · omega
    · exact ih hl (by simp only [sumC]; omega) u hu

/-- After `sumW l` selections from the fresh state every counter is 0 again. -/
theorem cAt_period {l : List UpstreamInfo} (h : FreshUps l) (hn : 0 < l.length)
    (i : Nat) : cAt (stepN (sumW l).toNat l) i = 0 := by
  have hw : ∀ u ∈ l, 0 ≤ u.Weight := fun u hu => (h u hu).1
  have hT := sumW_nonneg l hw
  have hcast : (((sumW l).toNat : Nat) : Int) = sumW l := Int.toNat_of_nonneg hT
  have hbal := (Balanced.of_fresh h).stepN hn (sumW l).toNat
  have hall : ∀ u ∈ stepN (sumW l).toNat l, 0 ≤ u.CurrentWeight := by
    intro u hu
    obtain ⟨j, hj, rfl⟩ := List.mem_iff_getElem.mp hu
    have hg : (stepN (sumW l).toNat l)[j]? = some (stepN (sumW l).toNat l)[j] :=
      List.getElem?_eq_getElem hj
    rw [← cAt_of_getElem? hg]
    rw [stepN_length] at hj
    rw [cAt_stepN _ l j hj, cAt_fresh h, hcast]
    have := count_le_weight h hn (sumW l).toNat (by rw [hcast]) j hj
    nlinarith
  have hz := eq_zero_of_sumC_zero _ hall hbal.sum_zero
  unfold cAt
  cases hg : (stepN (sumW l).toNat l)[i]? with
  | none => rfl
  | some u => exact hz u (List.getElem?_mem hg)

theorem stepN_period {l : List UpstreamInfo} (h : FreshUps l) (hn : 0 < l.length) :
    stepN (sumW l).toNat l = l := by
  apply List.ext_getElem?
  intro i
  rw [stepN_getElem?, cAt_period h hn]
  cases hg : l[i]? with
  | none => rfl
  | some u =>
    have := (h u (List.getElem?_mem hg)).2
    simp only [Option.map_some', Option.some.injEq]
    cases u
    simp only at this
    simp [this]

/-! ## From the slice to the channel -/

theorem afterCallsZ_eq (k : Nat) (b : BaseChannel) (h : 2 ≤ b.Upstreams.length) :
    afterCallsZ k b = { b with Upstreams := stepN k b.Upstreams } := by
  induction k generalizing b with
  | zero => rfl
  | succ k ih =>
    show afterCallsZ k (getUpstreamInfoZ b).2 = _
    rw [getUpstreamInfoZ_eq b h]
    simp only
    rw [ih _ (by simp only [step_length]; exact h)]
    rfl

theorem picksZ_eq (k : Nat) (b : BaseChannel) (h : 2 ≤ b.Upstreams.length) :
    picksZ k b = (pickSeq k b.Upstreams).map some := by
  induction k generalizing b with
  | zero => rfl
  | succ k ih =>
    show (getUpstreamInfoZ b).1 :: picksZ k (getUpstreamInfoZ b).2 = _
    rw [getUpstreamInfoZ_eq b h]
    simp only
    rw [ih _ (by simp only [step_length]; exact h)]
    rfl

theorem afterCallsZ_upstreams (k : Nat) (b : BaseChannel) (h : 2 ≤ b.Upstreams.length) :
    (afterCallsZ k b).Upstreams = stepN k b.Upstreams := by
  rw [afterCallsZ_eq k b h]

theorem count_map_some (l : List Nat) (i : Nat) :
    (l.map some).count (some i) = l.count i := by
  induction l with
  | nil => rfl
  | cons a l ih =>
    simp only [List.map_cons, List.count_cons, ih]
    by_cases h : a = i <;> simp [h]

theorem wAt_le_sumW (l : List UpstreamInfo) (h : ∀ u ∈ l, 0 ≤ u.Weight) (i : Nat) :
    wAt l i ≤ sumW l := by
  induction l generalizing i with
  | nil => simp [wAt, sumW]
  | cons a l ih =>
    have h1 := sumW_nonneg l (fun u hu => h u (List.mem_cons_of_mem _ hu))
    have h2 := h a (List.mem_cons_self _ _)
    cases i with
    | zero =>
      simp only [wAt, sumW, List.getElem?_cons_zero, List.map_cons, List.sum_cons] at h1 ⊢
      omega
    | succ i =>
      have := ih (fun u hu => h u (List.mem_cons_of_mem _ hu)) i
      simp only [wAt, sumW, List.getElem?_cons_succ, List.map_cons, List.sum_cons] at this ⊢
      omega

/-- Any window of `sumW l` selections brings the slice back to where the window
started. -/
theorem stepN_window {l : List UpstreamInfo} (h : FreshUps l) (hn : 0 < l.length) (k : Nat) :
    stepN (sumW l).toNat (stepN k l) = stepN k l := by
  rw [← stepN_add, Nat.add_comm, stepN_add, stepN_period h hn]

theorem count_window {l : List UpstreamInfo} (h : FreshUps l) (hn : 0 < l.length) (k i : Nat)
    (hi : i < l.length) :
    (((pickSeq (sumW l).toNat (stepN k l)).count i : Nat) : Int) = wAt l i := by
  have hw : ∀ u ∈ l, 0 ≤ u.Weight := fun u hu => (h u hu).1
  have hT := sumW_nonneg l hw
  have hcast : (((sumW l).toNat : Nat) : Int) = sumW l := Int.toNat_of_nonneg hT
  have hA := cAt_stepN (sumW l).toNat (stepN k l) i (by rw [stepN_length]; exact hi)
  rw [stepN_window h hn, wAt_stepN, sumW_stepN, hcast] at hA
  rcases eq_or_lt_of_le hT with h0 | hpos
  · have hwi := wAt_le_sumW l hw i
    have hwi0 := wAt_nonneg l hw i
    rw [← h0]
    simp only [Int.toNat_zero, pickSeq, List.count_nil, Nat.cast_zero]
    omega
  · have : sumW l * (wAt l i - ((pickSeq (sumW l).toNat (stepN k l)).count i : Nat)) = 0 := by
      linarith
    rcases mul_eq_zero.mp this with h1 | h1
    · omega
    · omega

/-! ## Runs on unbounded integers -/

/-- Without wrap-around:
on a channel with at least two upstreams, non-negative weights and all
counters 0 at the start, every window of `totalWeight` consecutive calls of
`getUpstreamInfoZ` (starting after any number `k` of earlier calls) returns the
upstream at each index `i` exactly `Weight_i` times. -/
theorem windowZ_counts (b : BaseChannel)
    (h2 : 2 ≤ b.Upstreams.length) (hf : Fresh b) (k i : Nat) (u : UpstreamInfo)
    (hu : b.Upstreams[i]? = some u) :
    (((picksZ (totalWeight b).toNat (afterCallsZ k b)).count (some i) : Nat) : Int) = u.Weight := by
  have hi : i < b.Upstreams.length := by
    by_contra hc
    rw [List.getElem?_eq_none (by omega)] at hu; cases hu
  have hlen : 2 ≤ (afterCallsZ k b).Upstreams.length := by
    rw [afterCallsZ_upstreams k b h2, stepN_length]; exact h2
  rw [picksZ_eq _ _ hlen, count_map_some, afterCallsZ_upstreams k b h2]
  have := count_window (l := b.Upstreams) hf (by omega) k i hi
  rw [wAt_of_getElem? hu] at this
  exact this

/-- Without wrap-around:
on a channel with at least two upstreams one call of `getUpstreamInfoZ`
returns the first upstream, in configured order, whose counter plus weight is
maximal; afterwards that upstream's counter is its old counter plus its weight
minus the sum of all weights, every other counter is its old value plus its own
weight, and nothing else in the channel changes. -/
theorem selectionZ_step (b : BaseChannel) (h2 : 2 ≤ b.Upstreams.length) :
    ∃ j uj, (getUpstreamInfoZ b).1 = some j ∧ b.Upstreams[j]? = some uj ∧
      (∀ i ui, b.Upstreams[i]? = some ui →
        ui.CurrentWeight + ui.Weight ≤ uj.CurrentWeight + uj.Weight ∧
        (i < j → ui.CurrentWeight + ui.Weight < uj.CurrentWeight + uj.Weight)) ∧
      (∀ (i : Nat) (ui : UpstreamInfo), b.Upstreams[i]? = some ui →
        (getUpstreamInfoZ b).2.Upstreams[i]? = some { ui with
          CurrentWeight := ui.CurrentWeight + ui.Weight - (if i = j then totalWeight b else 0) }) ∧
      (getUpstreamInfoZ b).2.Upstreams.length = b.Upstreams.length ∧
      { (getUpstreamInfoZ b).2 with Upstreams := b.Upstreams } = b := by
  have hn : 0 < b.Upstreams.length := by omega
  have hj := pick_lt b.Upstreams hn
  refine ⟨pick b.Upstreams, b.Upstreams[pick b.Upstreams], ?_, List.getElem?_eq_getElem hj,
    ?_, ?_, ?_, ?_⟩
  · rw [getUpstreamInfoZ_eq b h2]
  · intro i ui hui
    have hi : i < b.Upstreams.length := by
      by_contra hc
      rw [List.getElem?_eq_none (by omega)] at hui; cases hui
    have hm := pick_max b.Upstreams hn
    have e1 : vAt b.Upstreams i = ui.CurrentWeight + ui.Weight := by
      simp [vAt, hui, value]
    have e2 : vAt b.Upstreams (pick b.Upstreams) =
        b.Upstreams[pick b.Upstreams].CurrentWeight + b.Upstreams[pick b.Upstreams].Weight := by
      simp [vAt, List.getElem?_eq_getElem hj, value]
    constructor
    · have := hm.1 i hi; rw [e1, e2] at this; exact this
    · intro hij; have := hm.2 i hij; rw [e1, e2] at this; exact this
  · intro i ui hui
    rw [getUpstreamInfoZ_eq b h2]
    simp only [step_getElem?, hui, Option.map_some', totalWeight, sumW]
    by_cases hij : i = pick b.Upstreams <;> simp [hij]
  · rw [getUpstreamInfoZ_eq b h2]; simp only [step_length]
  · rw [getUpstreamInfoZ_eq b h2]

theorem getUpstreamInfoZ_afterCalls (k : Nat) (b : BaseChannel) (h2 : 2 ≤ b.Upstreams.length) :
    (getUpstreamInfoZ (afterCallsZ k b)).1 = some (pick (stepN k b.Upstreams)) := by
  have hlen : 2 ≤ (afterCallsZ k b).Upstreams.length := by
    rw [afterCallsZ_upstreams k b h2, stepN_length]; exact h2
  rw [getUpstreamInfoZ_eq _ hlen, afterCallsZ_upstreams k b h2]

theorem lt_length_of_getElem? {l : List UpstreamInfo} {i : Nat} {u : UpstreamInfo}
    (h : l[i]? = some u) : i < l.length := by
  by_contra hc
  rw [List.getElem?_eq_none (by omega)] at h; cases h

/-- Without wrap-around:
on a channel with at least two upstreams,
non-negative weights of positive sum and all counters 0 at the start, an
upstream of weight 0 is not returned by `getUpstreamInfoZ`, after any number `k`
of earlier calls. -/
theorem zero_weightZ_not_selected (b : BaseChannel) (h2 : 2 ≤ b.Upstreams.length)
    (hf : Fresh b) (hpos : 0 < totalWeight b) (k i : Nat) (u : UpstreamInfo)
    (hu : b.Upstreams[i]? = some u) (hw : u.Weight = 0) :
    (getUpstreamInfoZ (afterCallsZ k b)).1 ≠ some i := by
  rw [getUpstreamInfoZ_afterCalls k b h2]
  intro hp
  have hp : pick (stepN k b.Upstreams) = i := Option.some.inj hp
  have hi := lt_length_of_getElem? hu
  have hn : 0 < b.Upstreams.length := by omega
  have hbal := (Balanced.of_fresh (l := b.Upstreams) hf).stepN hn k
  have hlen : 0 < (stepN k b.Upstreams).length := by rw [stepN_length]; exact hn
  have hsum := sum_le_pick (stepN k b.Upstreams) hlen
  rw [hbal.sum_zero, sumW_stepN, hp, vAt_eq, wAt_stepN, cAt_stepN k _ i hi,
    cAt_fresh hf, wAt_of_getElem? hu, hw] at hsum
  have hT : 0 < sumW b.Upstreams := hpos
  have hlenpos : (0 : Int) < (stepN k b.Upstreams).length := by exact_mod_cast hlen
  have hc : (0 : Int) ≤ ((pickSeq k b.Upstreams).count i : Nat) := Int.natCast_nonneg _
  have hprod : 0 ≤ sumW b.Upstreams * ((pickSeq k b.Upstreams).count i : Nat) :=
    mul_nonneg (le_of_lt hT) hc
  nlinarith

/-- Without wrap-around:
on a channel with at least two upstreams,
non-negative weights and all counters 0 at the start, whenever two consecutive
calls of `getUpstreamInfoZ` return the same upstream, no upstream has a larger
weight than that one. -/
theorem repeatZ_max_weight (b : BaseChannel) (h2 : 2 ≤ b.Upstreams.length)
    (hf : Fresh b) (k i : Nat)
    (hfst : (getUpstreamInfoZ (afterCallsZ k b)).1 = some i)
    (hsnd : (getUpstreamInfoZ (afterCallsZ (k + 1) b)).1 = some i) :
    ∀ u ∈ b.Upstreams, ∀ ui, b.Upstreams[i]? = some ui → u.Weight ≤ ui.Weight := by
  rw [getUpstreamInfoZ_afterCalls k b h2] at hfst
  rw [getUpstreamInfoZ_afterCalls (k + 1) b h2, stepN_succ] at hsnd
  have hp1 : pick (stepN k b.Upstreams) = i := Option.some.inj hfst
  have hp2 : pick (Channel.step (stepN k b.Upstreams)) = i := Option.some.inj hsnd
  intro u hu ui hui
  obtain ⟨j, hj, rfl⟩ := List.mem_iff_getElem.mp hu
  have hi := lt_length_of_getElem? hui
  have hn : 0 < b.Upstreams.length := by omega
  have hbal := (Balanced.of_fresh (l := b.Upstreams) hf).stepN hn k
  have hlen : (stepN k b.Upstreams).length = b.Upstreams.length := stepN_length _ _
  have hwj : wAt b.Upstreams j = b.Upstreams[j].Weight :=
    wAt_of_getElem? (List.getElem?_eq_getElem hj)
  have hwi : wAt b.Upstreams i = ui.Weight := wAt_of_getElem? hui
  rw [← hwj, ← hwi]
  by_contra hc
  have hlt : wAt b.Upstreams i < wAt b.Upstreams j := by omega
  have hne : j ≠ i := by
    intro h; rw [h] at hlt; omega
  -- the heavier upstream `j` is at most `totalWeight` behind `i`
  have hord := hbal.order j i (by omega) (by omega)
    (by rw [wAt_stepN, wAt_stepN]; omega)
  rw [sumW_stepN] at hord
  -- `i` wins the second selection against `j`
  have hmax := (pick_max (Channel.step (stepN k b.Upstreams))
    (by rw [step_length]; omega)).1 j (by rw [step_length]; omega)
  rw [hp2, vAt_eq, vAt_eq, wAt_step, wAt_step, wAt_stepN, wAt_stepN,
    cAt_step _ j (by omega), cAt_step _ i (by omega), hp1, wAt_stepN, wAt_stepN,
    sumW_stepN] at hmax
  simp only [hne, if_false, if_true] at hmax
  omega

/-- Without wrap-around:
on a channel with at least two upstreams, non-negative weights and all
counters 0 at the start, from the state reached after any number `k` of
selections, `totalWeight` further selections lead back to exactly that state:
every upstream's `CurrentWeight` (and the rest of the channel) is as at the
start of the window. -/
theorem windowZ_restores (b : BaseChannel) (h2 : 2 ≤ b.Upstreams.length)
    (hf : Fresh b) (k : Nat) :
    afterCallsZ (totalWeight b).toNat (afterCallsZ k b) = afterCallsZ k b ∧
    ∀ (i : Nat) (u : UpstreamInfo), (afterCallsZ k b).Upstreams[i]? = some u →
      ∃ v, (afterCallsZ (totalWeight b).toNat (afterCallsZ k b)).Upstreams[i]? = some v ∧
        v.CurrentWeight = u.CurrentWeight := by
  have hlen : 2 ≤ (afterCallsZ k b).Upstreams.length := by
    rw [afterCallsZ_upstreams k b h2, stepN_length]; exact h2
  have key : afterCallsZ (totalWeight b).toNat (afterCallsZ k b) = afterCallsZ k b := by
    rw [afterCallsZ_eq _ _ hlen, afterCallsZ_upstreams k b h2]
    have := stepN_window (l := b.Upstreams) hf (by omega) k
    unfold totalWeight
    unfold sumW at this
    rw [this, afterCallsZ_eq k b h2]
  exact ⟨key, fun i u hu => ⟨u, by rw [key]; exact hu, rfl⟩⟩

/-! ## Evaluating long runs on integer lists -/

theorem bumpAll_eq (l : List UpstreamInfo) :
    bumpAll (l.map (fun u => u.CurrentWeight)) (l.map (fun u => u.Weight)) = l.map value := by
  induction l with
  | nil => rfl
  | cons a l ih => simp only [List.map_cons, bumpAll, ih, value]

theorem argmaxFrom_eq (l : List UpstreamInfo) :
    ∀ d k bi, k + d = l.length → bestUpTo l k = some bi →
      argmaxFrom ((l.drop k).map value) k bi (vAt l bi) = pick l := by
  intro d
  induction d with
  | zero =>
    intro k bi hk hb
    have : k = l.length := by omega
    subst this
    simp [argmaxFrom, pick, hb]
  | succ d ih =>
    intro k bi hk hb
    have hkl : k < l.length := by omega
    have hbi := bestUpTo_lt l k bi hb
    have hgk : l[k]? = some l[k] := List.getElem?_eq_getElem hkl
    have hgb : l[bi]? = some l[bi] := List.getElem?_eq_getElem (by omega)
    have hvb : vAt l bi = value l[bi] := by simp [vAt, hgb]
    rw [List.drop_eq_getElem_cons hkl, List.map_cons]
    unfold argmaxFrom
    by_cases hc : value l[k] > vAt l bi
    · simp only [hc, if_true]
      have hnext : bestUpTo l (k + 1) = some k := by
        conv_lhs => unfold bestUpTo
        rw [hvb] at hc
        simp [hb, hgk, hgb, hc]
      have := ih (k + 1) k (by omega) hnext
      rw [show vAt l k = value l[k] by simp [vAt, hgk]] at this
      exact this
    · simp only [hc, if_false]
      have hnext : bestUpTo l (k + 1) = some bi := by
        conv_lhs => unfold bestUpTo
        rw [hvb] at hc
        simp [hb, hgk, hgb, hc]
      exact ih (k + 1) bi (by omega) hnext

theorem argmaxFirst_eq (l : List UpstreamInfo) : argmaxFirst (l.map value) = pick l := by
  cases l with
  | nil => simp [argmaxFirst, pick, bestUpTo]
  | cons a l =>
    have h1 : bestUpTo (a :: l) 1 = some 0 := by simp [bestUpTo]
    have := argmaxFrom_eq (a :: l) l.length 1 0 (by simp; omega) h1
    simpa [argmaxFirst, vAt] using this

theorem counters_subtractAt (l : List UpstreamInfo) (j : Nat) (t : Int) :
    (subtractAtZ l j t).map (fun u => u.CurrentWeight) =
      subAt (l.map (fun u => u.CurrentWeight)) j t := by
  induction l generalizing j with
  | nil => simp [subtractAtZ, subAt]
  | cons a l ih =>
    cases j with
    | zero => simp [subtractAtZ, subAt]
    | succ j =>
      have := ih j
      unfold subtractAtZ at this ⊢
      simp only [List.getElem?_cons_succ, List.map_cons, subAt]
      cases hg : l[j]? with
      | none => rw [hg] at this; simp only at this ⊢; rw [← this]; simp
      | some u => rw [hg] at this; simp only at this ⊢; rw [← this]; simp

theorem counters_step (l : List UpstreamInfo) :
    (step l).map (fun u => u.CurrentWeight) =
      countersStep (l.map (fun u => u.Weight)) (sumW l) (l.map (fun u => u.CurrentWeight)) := by
  unfold step countersStep
  rw [counters_subtractAt, bumpAll_eq, argmaxFirst_eq]
  congr 1
  rw [List.map_map]
  rfl

theorem counters_stepN (k : Nat) (l : List UpstreamInfo) :
    (stepN k l).map (fun u => u.CurrentWeight) =
      countersRun (l.map (fun u => u.Weight)) (sumW l) k (l.map (fun u => u.CurrentWeight)) := by
  induction k generalizing l with
  | zero => rfl
  | succ k ih =>
    show (stepN k (Channel.step l)).map _ = _
    rw [ih, map_weight_step, sumW_step, counters_step]
    rfl

theorem countersRun_add (ws : List Int) (t : Int) (a c : Nat) (cs : List Int) :
    countersRun ws t (a + c) cs = countersRun ws t c (countersRun ws t a cs) := by
  induction a generalizing cs with
  | zero => simp [countersRun]
  | succ a ih =>
    rw [Nat.add_right_comm]
    show countersRun ws t (a + c) (countersStep ws t cs) = _
    rw [ih]; rfl

set_option maxRecDepth 1000000 in
theorem bigCounters_segment1 :
    countersRun bigWeights 1442 151 (List.replicate 53 0) = bigCounters1 := by
  decide!

set_option maxRecDepth 1000000 in
theorem bigCounters_segment2 :
    countersRun bigWeights 1442 151 (bigCounters1) = bigCounters2 := by
  decide!

set_option maxRecDepth 1000000 in
theorem bigCounters_segment3 :
    countersRun bigWeights 1442 151 (bigCounters2) = bigCounters3 := by
  decide!

set_option maxRecDepth 1000000 in
theorem bigCounters_segment4 :
    countersRun bigWeights 1442 151 (bigCounters3) = bigCounters4 := by
  decide!

set_option maxRecDepth 1000000 in
theorem bigCounters_segment5 :
    countersRun bigWeights 1442 151 (bigCounters4) = bigCounters5 := by
  decide!

set_option maxRecDepth 1000000 in
theorem bigCounters_segment6 :
    countersRun bigWeights 1442 151 (bigCounters5) = bigCounters6 := by
  decide!

set_option maxRecDepth 1000000 in
theorem bigCounters_segment7 :
    countersRun bigWeights 1442 151 (bigCounters6) = bigCounters7 := by
  decide!

theorem bigCounters_run : countersRun bigWeights 1442 1057 (List.replicate 53 0) = bigCounters7 := by
  have e : (1057 : Nat) = 151 + (151 + (151 + (151 + (151 + (151 + 151))))) := by norm_num
  rw [e]
  simp only [countersRun_add, bigCounters_segment1, bigCounters_segment2, bigCounters_segment3,
    bigCounters_segment4, bigCounters_segment5, bigCounters_segment6, bigCounters_segment7]

theorem chanBig_counters :
    (afterCallsZ 1057 chanBig).Upstreams.map (fun u => u.CurrentWeight) = bigCounters7 := by
  have h2 : 2 ≤ chanBig.Upstreams.length := by decide
  have hw : chanBig.Upstreams.map (fun u => u.Weight) = bigWeights := by decide
  have hc : chanBig.Upstreams.map (fun u => u.CurrentWeight) = List.replicate 53 0 := by decide
  have hs : sumW chanBig.Upstreams = 1442 := by decide
  rw [afterCallsZ_upstreams 1057 chanBig h2, counters_stepN, hw, hc, hs, bigCounters_run]

/-! ## Bounds on the counters without wrap-around -/

theorem getUpstreamInfoZ_small (b : BaseChannel) (h : b.Upstreams.length ≤ 1) :
    (getUpstreamInfoZ b).2 = b := by
  unfold getUpstreamInfoZ
  by_cases h0 : b.Upstreams.length = 0
  · simp [h0]
  · have h1 : b.Upstreams.length = 1 := by omega
    simp [h1]

theorem afterCallsZ_small (k : Nat) (b : BaseChannel) (h : b.Upstreams.length ≤ 1) :
    afterCallsZ k b = b := by
  induction k with
  | zero => rfl
  | succ k ih =>
    show afterCallsZ k (getUpstreamInfoZ b).2 = b
    rw [getUpstreamInfoZ_small b h, ih]

theorem sumC_ge (l : List UpstreamInfo) (m : Int) (h : ∀ u ∈ l, m ≤ u.CurrentWeight) :
    l.length * m ≤ sumC l := by
  induction l with
  | nil => simp [sumC]
  | cons a l ih =>
    have h1 := ih (fun u hu => h u (List.mem_cons_of_mem _ hu))
    have h2 := h a (List.mem_cons_self _ _)
    simp only [sumC, List.map_cons, List.sum_cons, List.length_cons] at h1 ⊢
    push_cast
    nlinarith

theorem cAt_add_le_sumC (l : List UpstreamInfo) (m : Int) (h : ∀ u ∈ l, m ≤ u.CurrentWeight) :
    ∀ i, i < l.length → cAt l i + ((l.length : Int) - 1) * m ≤ sumC l := by
  induction l with
  | nil => intro i hi; simp at hi
  | cons a l ih =>
    intro i hi
    have hl : ∀ u ∈ l, m ≤ u.CurrentWeight := fun u hu => h u (List.mem_cons_of_mem _ hu)
    have ha := h a (List.mem_cons_self _ _)
    cases i with
    | zero =>
      have := sumC_ge l m hl
      simp only [sumC, cAt, List.getElem?_cons_zero, List.map_cons, List.sum_cons,
        List.length_cons] at this ⊢
      push_cast
      linarith
    | succ i =>
      have := ih hl i (by simpa using hi)
      simp only [sumC, cAt, List.getElem?_cons_succ, List.map_cons, List.sum_cons,
        List.length_cons] at this ⊢
      push_cast
      linarith

theorem Balanced.upper {l : List UpstreamInfo} (hb : Balanced l) (i : Nat) (hi : i < l.length) :
    cAt l i ≤ ((l.length : Int) - 1) * sumW l := by
  have hall : ∀ u ∈ l, - sumW l ≤ u.CurrentWeight := by
    intro u hu
    obtain ⟨j, hj, rfl⟩ := List.mem_iff_getElem.mp hu
    have := hb.lower j hj
    rw [cAt_of_getElem? (List.getElem?_eq_getElem hj)] at this
    exact this
  have := cAt_add_le_sumC l _ hall i hi
  rw [hb.sum_zero] at this
  linarith

/-- Without wrap-around:
on a channel with non-negative weights and all
counters 0 at the start, after any number `k` of calls of `getUpstreamInfoZ`
every upstream's `CurrentWeight` lies between `-totalWeight` and
`(n - 1) * totalWeight`, where `n` is the number of upstreams; so its absolute
value is at most `2 * totalWeight` whenever the channel has at most three
upstreams. -/
theorem counterZ_bounds (b : BaseChannel) (hf : Fresh b) (k i : Nat) (u : UpstreamInfo)
    (hu : (afterCallsZ k b).Upstreams[i]? = some u) :
    - totalWeight b ≤ u.CurrentWeight ∧
    u.CurrentWeight ≤ ((b.Upstreams.length : Int) - 1) * totalWeight b ∧
    (b.Upstreams.length ≤ 3 → |u.CurrentWeight| ≤ 2 * totalWeight b) := by
  have hw : ∀ v ∈ b.Upstreams, 0 ≤ v.Weight := fun v hv => (hf v hv).1
  have hT : 0 ≤ sumW b.Upstreams := sumW_nonneg _ hw
  have hbounds : - totalWeight b ≤ u.CurrentWeight ∧
      u.CurrentWeight ≤ ((b.Upstreams.length : Int) - 1) * totalWeight b := by
    show - sumW b.Upstreams ≤ _ ∧ _ ≤ _ * sumW b.Upstreams
    by_cases h2 : 2 ≤ b.Upstreams.length
    · rw [afterCallsZ_upstreams k b h2] at hu
      have hi : i < b.Upstreams.length := by
        have := lt_length_of_getElem? hu
        rwa [stepN_length] at this
      have hbal := (Balanced.of_fresh (l := b.Upstreams) hf).stepN (by omega) k
      have hlo := hbal.lower i (by rw [stepN_length]; exact hi)
      have hup := hbal.upper i (by rw [stepN_length]; exact hi)
      rw [cAt_of_getElem? hu, sumW_stepN] at hlo hup
      rw [stepN_length] at hup
      exact ⟨hlo, hup⟩
    · rw [afterCallsZ_small k b (by omega)] at hu
      have h0 := (hf u (List.getElem?_mem hu)).2
      have hi := lt_length_of_getElem? hu
      have hlen : b.Upstreams.length = 1 := by omega
      rw [h0, hlen]
      constructor
      · omega
      · simp
  refine ⟨hbounds.1, hbounds.2, ?_⟩
  intro h3
  have hn : ((b.Upstreams.length : Int) - 1) ≤ 2 := by
    have : (b.Upstreams.length : Int) ≤ 3 := by exact_mod_cast h3
    omega
  have h1 := hbounds.1
  have h2 := hbounds.2
  have hT2 : 0 ≤ totalWeight b := hT
  rw [abs_le]
  constructor
  · linarith
  · nlinarith

/-! ## Agreement of the selection with unbounded integers -/

theorem wrap64_eq (x : Int) (h1 : -9223372036854775808 ≤ x) (h2 : x < 9223372036854775808) :
    wrap64 x = x := by
  unfold wrap64
  omega

theorem wrap64_of_in64 (x : Int) (h : In64 x) : wrap64 x = x :=
  wrap64_eq x h.1 h.2

theorem selectBody_eq (st : SelectState) (i : Nat)
    (h : ∀ up, st.ups[i]? = some up →
      wrap64 (up.CurrentWeight + up.Weight) = up.CurrentWeight + up.Weight ∧
      wrap64 (st.totalWeight + up.Weight) = st.totalWeight + up.Weight) :
    selectBody st i = selectBodyZ st i := by
  unfold selectBody selectBodyZ
  cases hg : st.ups[i]? with
  | none => rfl
  | some up =>
    obtain ⟨h1, h2⟩ := h up hg
    simp only [h1, h2]

theorem sum_take_weight (l : List UpstreamInfo) (h : ∀ u ∈ l, 0 ≤ u.Weight) (k : Nat) :
    0 ≤ ((l.take k).map (fun u => u.Weight)).sum ∧
      ((l.take k).map (fun u => u.Weight)).sum ≤ sumW l := by
  have h1 := sumW_nonneg (l.take k) (fun u hu => h u (List.mem_of_mem_take hu))
  have h2 := sumW_nonneg (l.drop k) (fun u hu => h u (List.mem_of_mem_drop hu))
  have h3 : sumW l = sumW (l.take k) + sumW (l.drop k) := by
    unfold sumW
    rw [← List.sum_append, ← List.map_append, List.take_append_drop]
  unfold sumW at h1 h2 h3 ⊢
  omega

theorem loop_fold_eq (l : List UpstreamInfo)
    (hs : ∀ k, k ≤ l.length → In64 (sumW (l.take k)))
    (hb : ∀ u ∈ l, In64 (u.CurrentWeight + u.Weight)) :
    ∀ k, k ≤ l.length →
      (List.range k).foldl selectBody { ups := l, totalWeight := 0, best := none } =
      (List.range k).foldl selectBodyZ { ups := l, totalWeight := 0, best := none } := by
  intro k
  induction k with
  | zero => intro _; rfl
  | succ k ih =>
    intro hk
    have hk1 : k < l.length := by omega
    rw [List.range_succ, List.foldl_append, List.foldl_append, ih (by omega),
      loop_fold l k (by omega)]
    simp only [List.foldl_cons, List.foldl_nil]
    apply selectBody_eq
    intro up hup
    simp only at hup
    rw [loopUps_getElem? l k k (by omega)] at hup
    simp only [lt_irrefl, if_false] at hup
    have hmem : up ∈ l := List.getElem?_mem hup
    have hs1 := hs (k + 1) hk
    unfold sumW at hs1
    rw [List.take_succ, hup, List.map_append, List.sum_append] at hs1
    simp only [Option.toList, List.map_cons, List.map_nil, List.sum_cons, List.sum_nil,
      add_zero] at hs1
    constructor
    · exact wrap64_of_in64 _ (hb up hmem)
    · dsimp only
      exact wrap64_of_in64 _ hs1

theorem subtractAt_eq (l : List UpstreamInfo) (j : Nat) (t : Int)
    (h : ∀ u, l[j]? = some u → wrap64 (u.CurrentWeight - t) = u.CurrentWeight - t) :
    subtractAt l j t = subtractAtZ l j t := by
  unfold subtractAt subtractAtZ
  cases hg : l[j]? with
  | none => rfl
  | some u => simp only [h u hg]

/-- While no addition and no subtraction of the call leaves the 64-bit range,
`getUpstreamInfo` is the selection on unbounded integers. -/
theorem getUpstreamInfo_eq (b : BaseChannel) (hf : NoOverflow b.Upstreams) :
    getUpstreamInfo b = getUpstreamInfoZ b := by
  unfold getUpstreamInfo getUpstreamInfoZ
  by_cases h0 : b.Upstreams.length = 0
  · simp only [h0, if_true]
  by_cases h1 : b.Upstreams.length = 1
  · simp only [h1, if_true]
  simp only [h0, h1, if_false]
  rw [loop_fold_eq b.Upstreams hf.sums hf.bumps _ (le_refl _), loop_fold b.Upstreams _ (le_refl _)]
  simp only
  cases hb : bestUpTo b.Upstreams b.Upstreams.length with
  | none => rfl
  | some j =>
    simp only
    rw [subtractAt_eq]
    intro u hu
    rw [loopUps_full, List.getElem?_map] at hu
    cases hg : b.Upstreams[j]? with
    | none => rw [hg] at hu; cases hu
    | some v =>
      rw [hg] at hu
      simp only [Option.map_some', Option.some.injEq] at hu
      subst hu
      have hw := hf.winner
      have hp : pick b.Upstreams = j := by simp [pick, hb]
      rw [hp] at hw
      simp only [vAt, hg, value, sumW] at hw
      rw [List.take_length]
      simp only [bump]
      exact wrap64_of_in64 _ hw

theorem getUpstreamInfo_small_eq (b : BaseChannel) (h : b.Upstreams.length ≤ 1) :
    getUpstreamInfo b = getUpstreamInfoZ b := by
  unfold getUpstreamInfo getUpstreamInfoZ
  by_cases h0 : b.Upstreams.length = 0
  · simp only [h0, if_true]
  · have h1 : b.Upstreams.length = 1 := by omega
    simp only [h1, if_true]

theorem Fits64.noOverflow {l : List UpstreamInfo} (hf : Fits64 l) (hn : 0 < l.length) :
    NoOverflow l := by
  have hT := sumW_nonneg l hf.nonneg
  have htot := hf.total
  refine ⟨?_, ?_, ?_⟩
  · intro k _
    obtain ⟨h1, h2⟩ := sum_take_weight l hf.nonneg k
    unfold In64
    unfold sumW at htot h2 ⊢
    constructor <;> omega
  · intro u hu
    have h1 := hf.low u hu
    have h2 := hf.high u hu
    unfold In64
    constructor <;> omega
  · have hp := pick_lt l hn
    have hg : l[pick l]? = some l[pick l] := List.getElem?_eq_getElem hp
    have hmem : l[pick l] ∈ l := List.getElem?_mem hg
    have h1 := hf.low _ hmem
    have h2 := hf.high _ hmem
    simp only [vAt, hg, value]
    unfold In64
    constructor <;> omega

theorem Balanced.fits64 {l : List UpstreamInfo} (hb : Balanced l) (h2 : 2 ≤ l.length)
    (hfit : (l.length : Int) * sumW l < 9223372036854775808) : Fits64 l := by
  have hT := sumW_nonneg l hb.nonneg
  have hn : (2 : Int) ≤ l.length := by exact_mod_cast h2
  have h2T : 2 * sumW l ≤ (l.length : Int) * sumW l := by nlinarith
  have key : ∀ u ∈ l, - sumW l ≤ u.CurrentWeight ∧
      u.CurrentWeight ≤ ((l.length : Int) - 1) * sumW l ∧ 0 ≤ u.Weight ∧ u.Weight ≤ sumW l := by
    intro u hu
    obtain ⟨j, hj, rfl⟩ := List.mem_iff_getElem.mp hu
    have hg : l[j]? = some l[j] := List.getElem?_eq_getElem hj
    have h1 := hb.lower j hj
    have h3 := hb.upper j hj
    have h4 := wAt_le_sumW l hb.nonneg j
    rw [cAt_of_getElem? hg] at h1 h3
    rw [wAt_of_getElem? hg] at h4
    exact ⟨h1, h3, hb.nonneg _ hu, h4⟩
  refine ⟨hb.nonneg, by omega, ?_, ?_⟩
  · intro u hu
    obtain ⟨k1, _, k3, _⟩ := key u hu
    omega
  · intro u hu
    obtain ⟨_, k2, _, k4⟩ := key u hu
    have : ((l.length : Int) - 1) * sumW l = (l.length : Int) * sumW l - sumW l := by ring
    omega

theorem afterCalls_succ (m : Nat) (c : BaseChannel) :
    afterCalls (m + 1) c = (getUpstreamInfo (afterCalls m c)).2 := by
  induction m generalizing c with
  | zero => rfl
  | succ m ih => exact ih (getUpstreamInfo c).2

theorem afterCallsZ_succ (m : Nat) (c : BaseChannel) :
    afterCallsZ (m + 1) c = (getUpstreamInfoZ (afterCallsZ m c)).2 := by
  induction m generalizing c with
  | zero => rfl
  | succ m ih => exact ih (getUpstreamInfoZ c).2

theorem picks_succ (m : Nat) (c : BaseChannel) :
    picks (m + 1) c = picks m c ++ [(getUpstreamInfo (afterCalls m c)).1] := by
  induction m generalizing c with
  | zero => rfl
  | succ m ih =>
    show (getUpstreamInfo c).1 :: picks (m + 1) (getUpstreamInfo c).2 = _
    rw [ih]; rfl

theorem picksZ_succ (m : Nat) (c : BaseChannel) :
    picksZ (m + 1) c = picksZ m c ++ [(getUpstreamInfoZ (afterCallsZ m c)).1] := by
  induction m generalizing c with
  | zero => rfl
  | succ m ih =>
    show (getUpstreamInfoZ c).1 :: picksZ (m + 1) (getUpstreamInfoZ c).2 = _
    rw [ih]; rfl

theorem afterCalls_add (k m : Nat) (c : BaseChannel) :
    afterCalls m (afterCalls k c) = afterCalls (k + m) c := by
  induction k generalizing c with
  | zero => rw [Nat.zero_add]; rfl
  | succ k ih =>
    rw [Nat.succ_add]
    exact ih (getUpstreamInfo c).2

theorem afterCallsZ_add (k m : Nat) (c : BaseChannel) :
    afterCallsZ m (afterCallsZ k c) = afterCallsZ (k + m) c := by
  induction k generalizing c with
  | zero => rw [Nat.zero_add]; rfl
  | succ k ih =>
    rw [Nat.succ_add]
    exact ih (getUpstreamInfoZ c).2

theorem picks_add (k m : Nat) (c : BaseChannel) :
    picks (k + m) c = picks k c ++ picks m (afterCalls k c) := by
  induction k generalizing c with
  | zero => rw [Nat.zero_add]; rfl
  | succ k ih =>
    rw [Nat.succ_add]
    show (getUpstreamInfo c).1 :: picks (k + m) (getUpstreamInfo c).2 = _
    rw [ih]; rfl

/-- A run of `getUpstreamInfo` none of whose calls overflows is the run on
unbounded integers. -/
theorem run_agree (c : BaseChannel)
    (h : ∀ m, getUpstreamInfo (afterCallsZ m c) = getUpstreamInfoZ (afterCallsZ m c)) (m : Nat) :
    afterCalls m c = afterCallsZ m c ∧ picks m c = picksZ m c := by
  have hA : ∀ m, afterCalls m c = afterCallsZ m c := by
    intro m
    induction m with
    | zero => rfl
    | succ m ih => rw [afterCalls_succ, afterCallsZ_succ, ih, h]
  have hP : ∀ m, picks m c = picksZ m c := by
    intro m
    induction m with
    | zero => rfl
    | succ m ih => rw [picks_succ, picksZ_succ, ih, hA, h]
  exact ⟨hA m, hP m⟩

/-- On a channel with non-negative weights and all counters 0 at the start
whose number of upstreams times the sum of the weights is below `2^63`, no call
of a run overflows. -/
theorem fresh_agree (b : BaseChannel) (hf : Fresh b)
    (hfit : (b.Upstreams.length : Int) * totalWeight b < 9223372036854775808) (m : Nat) :
    getUpstreamInfo (afterCallsZ m b) = getUpstreamInfoZ (afterCallsZ m b) := by
  by_cases h2 : 2 ≤ b.Upstreams.length
  · apply getUpstreamInfo_eq
    rw [afterCallsZ_upstreams m b h2]
    have hbal := (Balanced.of_fresh (l := b.Upstreams) hf).stepN (by omega) m
    apply Fits64.noOverflow
    · apply hbal.fits64
      · rw [stepN_length]; exact h2
      · rw [stepN_length, sumW_stepN]; exact hfit
    · rw [stepN_length]; omega
  · apply getUpstreamInfo_small_eq
    rw [afterCallsZ_small m b (by omega)]
    omega

/-- Under the same bound the run of `getUpstreamInfo` from any reached state is
the run on unbounded integers. -/
theorem fresh_run (b : BaseChannel) (hf : Fresh b)
    (hfit : (b.Upstreams.length : Int) * totalWeight b < 9223372036854775808) (k m : Nat) :
    afterCalls k b = afterCallsZ k b ∧
    afterCalls m (afterCalls k b) = afterCallsZ m (afterCallsZ k b) ∧
    picks m (afterCalls k b) = picksZ m (afterCallsZ k b) ∧
    getUpstreamInfo (afterCalls k b) = getUpstreamInfoZ (afterCallsZ k b) := by
  have hk := (run_agree b (fresh_agree b hf hfit) k).1
  have hrun := run_agree (afterCallsZ k b)
    (fun j => by rw [afterCallsZ_add]; exact fresh_agree b hf hfit (k + j)) m
  rw [hk]
  exact ⟨rfl, hrun.1, hrun.2, fresh_agree b hf hfit k⟩

/-! ## What a selection leaves alone -/

theorem map_frame_set (l : List UpstreamInfo) (i : Nat) (u v : UpstreamInfo)
    (h : l[i]? = some u) (hv : frame v = frame u) : (l.set i v).map frame = l.map frame := by
  have hi := lt_length_of_getElem? h
  apply List.ext_getElem?
  intro j
  rw [List.getElem?_map, List.getElem?_map, List.getElem?_set]
  by_cases hij : i = j
  · subst hij
    simp [hi, h, hv]
  · simp [hij]

theorem selectBody_frame (st : SelectState) (i : Nat) :
    (selectBody st i).ups.map frame = st.ups.map frame := by
  unfold selectBody
  cases hg : st.ups[i]? with
  | none => rfl
  | some up => exact map_frame_set st.ups i up _ hg rfl

theorem selectBody_best (st : SelectState) (i : Nat) :
    ((selectBody st i).best = st.best ∨ (selectBody st i).best = some i) ∧
    (i < st.ups.length → (selectBody st i).best ≠ none) := by
  unfold selectBody
  cases hg : st.ups[i]? with
  | none =>
    refine ⟨Or.inl rfl, ?_⟩
    intro hi
    rw [List.getElem?_eq_getElem hi] at hg
    cases hg
  | some up =>
    cases hb : st.best with
    | none => exact ⟨Or.inr (by simp), fun _ => by simp⟩
    | some j =>
      simp only
      split
      · exact ⟨Or.inr rfl, fun _ => by simp⟩
      · exact ⟨Or.inl rfl, fun _ => by simp⟩

theorem loop_shape (ups : List UpstreamInfo) :
    ∀ k, k ≤ ups.length →
      ((List.range k).foldl selectBody
        { ups := ups, totalWeight := 0, best := none }).ups.map frame = ups.map frame ∧
      (∀ j, ((List.range k).foldl selectBody
        { ups := ups, totalWeight := 0, best := none }).best = some j → j < k) ∧
      (0 < k → ((List.range k).foldl selectBody
        { ups := ups, totalWeight := 0, best := none }).best ≠ none) := by
  intro k
  induction k with
  | zero =>
    intro _
    refine ⟨rfl, ?_, ?_⟩
    · intro j hj; cases hj
    · intro h; omega
  | succ k ih =>
    intro hk
    obtain ⟨h1, h2, _⟩ := ih (by omega)
    rw [List.range_succ, List.foldl_append]
    simp only [List.foldl_cons, List.foldl_nil]
    have hlen : ((List.range k).foldl selectBody
        { ups := ups, totalWeight := 0, best := none }).ups.length = ups.length := by
      have := congrArg List.length h1
      simpa using this
    obtain ⟨hb1, hb2⟩ := selectBody_best ((List.range k).foldl selectBody
        { ups := ups, totalWeight := 0, best := none }) k
    refine ⟨by rw [selectBody_frame, h1], ?_, ?_⟩
    · intro j hj
      rcases hb1 with hb | hb
      · rw [hb] at hj
        have := h2 j hj
        omega
      · rw [hb] at hj
        cases hj
        omega
    · intro _
      exact hb2 (by rw [hlen]; omega)

theorem subtractAt_frame (l : List UpstreamInfo) (j : Nat) (t : Int) :
    (subtractAt l j t).map frame = l.map frame := by
  unfold subtractAt
  cases hg : l[j]? with
  | none => rfl
  | some u => exact map_frame_set l j u _ hg rfl

theorem getUpstreamInfo_single (b : BaseChannel) (h1 : b.Upstreams.length = 1) :
    getUpstreamInfo b = (some 0, b) := by
  unfold getUpstreamInfo
  simp [h1]

theorem getUpstreamInfo_nil (b : BaseChannel) (h0 : b.Upstreams = []) :
    getUpstreamInfo b = (none, b) := by
  unfold getUpstreamInfo
  simp [h0]

theorem getUpstreamInfo_small (b : BaseChannel) (h : b.Upstreams.length ≤ 1) :
    (getUpstreamInfo b).2 = b := by
  unfold getUpstreamInfo
  by_cases h0 : b.Upstreams.length = 0
  · simp [h0]
  · have h1 : b.Upstreams.length = 1 := by omega
    simp [h1]

theorem afterCalls_small (k : Nat) (b : BaseChannel) (h : b.Upstreams.length ≤ 1) :
    afterCalls k b = b := by
  induction k with
  | zero => rfl
  | succ k ih =>
    show afterCalls k (getUpstreamInfo b).2 = b
    rw [getUpstreamInfo_small b h, ih]

/-- Whatever the counters and the weights are, a call of `getUpstreamInfo` on a
channel with at least one upstream returns an index inside the slice and changes
nothing but the counters. -/
theorem getUpstreamInfo_shape (b : BaseChannel) (hne : b.Upstreams ≠ []) :
    ∃ i, (getUpstreamInfo b).1 = some i ∧ i < b.Upstreams.length ∧
      (getUpstreamInfo b).2.Upstreams.map frame = b.Upstreams.map frame ∧
      { (getUpstreamInfo b).2 with Upstreams := b.Upstreams } = b := by
  have hpos : 0 < b.Upstreams.length := List.length_pos.mpr hne
  by_cases h1 : b.Upstreams.length = 1
  · rw [getUpstreamInfo_single b h1]
    exact ⟨0, rfl, hpos, rfl, rfl⟩
  · have h0 : ¬ b.Upstreams.length = 0 := by omega
    obtain ⟨hs1, hs2, hs3⟩ := loop_shape b.Upstreams b.Upstreams.length (le_refl _)
    unfold getUpstreamInfo
    simp only [h0, h1, if_false]
    cases hb : ((List.range b.Upstreams.length).foldl selectBody
        { ups := b.Upstreams, totalWeight := 0, best := none }).best with
    | none => exact absurd hb (hs3 hpos)
    | some j =>
      exact ⟨j, rfl, hs2 j hb, by rw [subtractAt_frame, hs1], rfl⟩

theorem getUpstreamInfo_index (b : BaseChannel) (hne : b.Upstreams ≠ []) :
    ∃ i u, (getUpstreamInfo b).1 = some i ∧ b.Upstreams[i]? = some u ∧
      ∃ v, (getUpstreamInfo b).2.Upstreams[i]? = some v ∧ v.ID = u.ID ∧ v.URL = u.URL := by
  obtain ⟨i, hi, hlt, hmap, _⟩ := getUpstreamInfo_shape b hne
  have hg : b.Upstreams[i]? = some b.Upstreams[i] := List.getElem?_eq_getElem hlt
  have hm := congrArg (fun l => l[i]?) hmap
  simp only [List.getElem?_map, hg, Option.map_some'] at hm
  cases hv : (getUpstreamInfo b).2.Upstreams[i]? with
  | none => rw [hv] at hm; cases hm
  | some v =>
    rw [hv] at hm
    simp only [Option.map_some', Option.some.injEq, frame, Prod.mk.injEq] at hm
    exact ⟨i, b.Upstreams[i], hi, hg, v, hv, hm.1, hm.2.1⟩

theorem getUpstreamInfo_none_iff (b : BaseChannel) :
    (getUpstreamInfo b).1 = none ↔ b.Upstreams = [] := by
  constructor
  · intro h
    by_contra hne
    obtain ⟨i, u, hi, _⟩ := getUpstreamInfo_index b hne
    rw [hi] at h
    cases h
  · intro h
    rw [getUpstreamInfo_nil b h]

/-! ## Claims about the weighted selection -/

/-- C1 (as the code has it): on a channel with at least two upstreams,
non-negative weights and all counters 0 at the start, whose number of upstreams
times the sum of the weights is below `2^63`, every window of `totalWeight`
consecutive calls of `getUpstreamInfo` (starting after any number `k` of earlier
calls) returns the upstream at each index `i` exactly `Weight_i` times. -/
theorem C1_window_returns_each_weight_times (b : BaseChannel)
    (h2 : 2 ≤ b.Upstreams.length) (hf : Fresh b)
    (hfit : (b.Upstreams.length : Int) * totalWeight b < 9223372036854775808)
    (k i : Nat) (u : UpstreamInfo) (hu : b.Upstreams[i]? = some u) :
    (((picks (totalWeight b).toNat (afterCalls k b)).count (some i) : Nat) : Int) = u.Weight := by
  rw [(fresh_run b hf hfit k (totalWeight b).toNat).2.2.1]
  exact windowZ_counts b h2 hf k i u hu

theorem C1_window_returns_each_weight_times_witness :
    2 ≤ chan211.Upstreams.length ∧ Fresh chan211 ∧
      (chan211.Upstreams.length : Int) * totalWeight chan211 < 9223372036854775808 ∧
      chan211.Upstreams[0]? = some (upstreamOf "a" 2) ∧
      (((picks (totalWeight chan211).toNat (afterCalls 3 chan211)).count (some 0) : Nat) : Int)
        = (upstreamOf "a" 2).Weight :=
  ⟨by decide, by decide, by decide, rfl,
    C1_window_returns_each_weight_times chan211 (by decide) (by decide) (by decide) 3 0 _ rfl⟩

/-- C1 fails as stated: with the weights 0, `2^63 - 1`, `2^63 - 1` (all
non-negative, all counters 0) the sums of `getUpstreamInfo` wrap around, the
second call returns the upstream of weight 0, and so the window of `totalWeight`
calls from the start returns it at least once, not 0 times. -/
theorem C1_counterexample :
    2 ≤ chanZeroMaxMax.Upstreams.length ∧ Fresh chanZeroMaxMax ∧
      chanZeroMaxMax.Upstreams[0]? = some (upstreamOf "a" 0) ∧
      picks 4 chanZeroMaxMax = [some 1, some 0, some 1, some 0] ∧
      (((picks (totalWeight chanZeroMaxMax).toNat (afterCalls 0 chanZeroMaxMax)).count (some 0)
        : Nat) : Int) ≠ (upstreamOf "a" 0).Weight := by
  have hp : picks 4 chanZeroMaxMax = [some 1, some 0, some 1, some 0] := by decide
  refine ⟨by decide, by decide, rfl, hp, ?_⟩
  have hT : (totalWeight chanZeroMaxMax).toNat = 4 + 18446744073709551610 := by decide
  have hw : (upstreamOf "a" 0).Weight = 0 := rfl
  rw [hT, hw]
  show (((picks (4 + 18446744073709551610) chanZeroMaxMax).count (some 0) : Nat) : Int) ≠ 0
  rw [picks_add, hp, List.count_append]
  have h2 : ([some 1, some 0, some 1, some 0] : List (Option Nat)).count (some 0) = 2 := by decide
  rw [h2]
  omega

/-- C2 (as the code has it): on a channel with at least two upstreams on which
no addition and no subtraction of the call leaves the range of a 64-bit `int`,
one call of `getUpstreamInfo` returns the first upstream, in configured order,
whose counter plus weight is maximal; afterwards that upstream's counter is its
old counter plus its weight minus the sum of all weights, every other counter
is its old value plus its own weight, and nothing else in the channel
changes. -/
theorem C2_selection_step (b : BaseChannel) (h2 : 2 ≤ b.Upstreams.length)
    (hfit : NoOverflow b.Upstreams) :
    ∃ j uj, (getUpstreamInfo b).1 = some j ∧ b.Upstreams[j]? = some uj ∧
      (∀ i ui, b.Upstreams[i]? = some ui →
        ui.CurrentWeight + ui.Weight ≤ uj.CurrentWeight + uj.Weight ∧
        (i < j → ui.CurrentWeight + ui.Weight < uj.CurrentWeight + uj.Weight)) ∧
      (∀ (i : Nat) (ui : UpstreamInfo), b.Upstreams[i]? = some ui →
        (getUpstreamInfo b).2.Upstreams[i]? = some { ui with
          CurrentWeight := ui.CurrentWeight + ui.Weight - (if i = j then totalWeight b else 0) }) ∧
      (getUpstreamInfo b).2.Upstreams.length = b.Upstreams.length ∧
      { (getUpstreamInfo b).2 with Upstreams := b.Upstreams } = b := by
  rw [getUpstreamInfo_eq b hfit]
  exact selectionZ_step b h2

theorem C2_selection_step_witness :
    2 ≤ chan211.Upstreams.length ∧ NoOverflow chan211.Upstreams ∧
    ∃ j uj, (getUpstreamInfo chan211).1 = some j ∧ chan211.Upstreams[j]? = some uj ∧
      (∀ i ui, chan211.Upstreams[i]? = some ui →
        ui.CurrentWeight + ui.Weight ≤ uj.CurrentWeight + uj.Weight ∧
        (i < j → ui.CurrentWeight + ui.Weight < uj.CurrentWeight + uj.Weight)) ∧
      (∀ (i : Nat) (ui : UpstreamInfo), chan211.Upstreams[i]? = some ui →
        (getUpstreamInfo chan211).2.Upstreams[i]? = some { ui with
          CurrentWeight :=
            ui.CurrentWeight + ui.Weight - (if i = j then totalWeight chan211 else 0) }) ∧
      (getUpstreamInfo chan211).2.Upstreams.length = chan211.Upstreams.length ∧
      { (getUpstreamInfo chan211).2 with Upstreams := chan211.Upstreams } = chan211 :=
  ⟨by decide, by decide, C2_selection_step chan211 (by decide) (by decide)⟩

/-- C2 fails as stated: on two upstreams of weight 1 with counters `2^63 - 1`
and 0 the first has the larger counter plus weight (`2^63` against 1), yet
`getUpstreamInfo` returns the second, and the counters it leaves are `-2^63` and
-1 instead of `2^63 - 2` and 1: the addition for the first upstream wraps
around. -/
theorem C2_counterexample :
    2 ≤ chanNearMax.Upstreams.length ∧
      chanNearMax.Upstreams.map (fun u => u.CurrentWeight + u.Weight) =
        [9223372036854775808, 1] ∧
      totalWeight chanNearMax = 2 ∧
      (getUpstreamInfo chanNearMax).1 = some 1 ∧
      (getUpstreamInfo chanNearMax).2.Upstreams.map (fun u => u.CurrentWeight) =
        [-9223372036854775808, -1] := by
  decide

/-- C3 (as the code has it): on a channel with at least two upstreams,
non-negative weights of positive sum and all counters 0 at the start, whose
number of upstreams times the sum of the weights is below `2^63`, an upstream
of weight 0 is not returned by `getUpstreamInfo`, after any number `k` of
earlier calls. -/
theorem C3_zero_weight_never_selected (b : BaseChannel) (h2 : 2 ≤ b.Upstreams.length)
    (hf : Fresh b) (hfit : (b.Upstreams.length : Int) * totalWeight b < 9223372036854775808)
    (hpos : 0 < totalWeight b) (k i : Nat) (u : UpstreamInfo)
    (hu : b.Upstreams[i]? = some u) (hw : u.Weight = 0) :
    (getUpstreamInfo (afterCalls k b)).1 ≠ some i := by
  rw [(fresh_run b hf hfit k 0).2.2.2]
  exact zero_weightZ_not_selected b h2 hf hpos k i u hu hw

theorem C3_zero_weight_never_selected_witness :
    2 ≤ chan201.Upstreams.length ∧ Fresh chan201 ∧
      (chan201.Upstreams.length : Int) * totalWeight chan201 < 9223372036854775808 ∧
      0 < totalWeight chan201 ∧
      chan201.Upstreams[1]? = some (upstreamOf "b" 0) ∧ (upstreamOf "b" 0).Weight = 0 ∧
      (getUpstreamInfo (afterCalls 4 chan201)).1 ≠ some 1 :=
  ⟨by decide, by decide, by decide, by decide, rfl, rfl,
    C3_zero_weight_never_selected chan201 (by decide) (by decide) (by decide) (by decide) 4 1 _
      rfl rfl⟩

/-- C3 fails as stated: with two upstreams that both have weight 0 the first
call returns the first of them. -/
theorem C3_counterexample :
    2 ≤ chan00.Upstreams.length ∧ Fresh chan00 ∧
      chan00.Upstreams[0]? = some (upstreamOf "a" 0) ∧ (upstreamOf "a" 0).Weight = 0 ∧
      (getUpstreamInfo (afterCalls 0 chan00)).1 = some 0 := by
  decide

/-- C4 (as the code has it): on a channel with at least two upstreams,
non-negative weights and all counters 0 at the start, whose number of upstreams
times the sum of the weights is below `2^63`, whenever two consecutive calls of
`getUpstreamInfo` return the same upstream, no upstream has a larger weight
than that one. -/
theorem C4_repeated_upstream_has_max_weight (b : BaseChannel) (h2 : 2 ≤ b.Upstreams.length)
    (hf : Fresh b) (hfit : (b.Upstreams.length : Int) * totalWeight b < 9223372036854775808)
    (k i : Nat)
    (hfst : (getUpstreamInfo (afterCalls k b)).1 = some i)
    (hsnd : (getUpstreamInfo (afterCalls (k + 1) b)).1 = some i) :
    ∀ u ∈ b.Upstreams, ∀ ui, b.Upstreams[i]? = some ui → u.Weight ≤ ui.Weight := by
  rw [(fresh_run b hf hfit k 0).2.2.2] at hfst
  rw [(fresh_run b hf hfit (k + 1) 0).2.2.2] at hsnd
  exact repeatZ_max_weight b h2 hf k i hfst hsnd

theorem C4_repeated_upstream_has_max_weight_witness :
    2 ≤ chan211.Upstreams.length ∧ Fresh chan211 ∧
      (chan211.Upstreams.length : Int) * totalWeight chan211 < 9223372036854775808 ∧
      (getUpstreamInfo (afterCalls 3 chan211)).1 = some 0 ∧
      (getUpstreamInfo (afterCalls (3 + 1) chan211)).1 = some 0 ∧
      ∀ u ∈ chan211.Upstreams, ∀ ui, chan211.Upstreams[0]? = some ui → u.Weight ≤ ui.Weight :=
  ⟨by decide, by decide, by decide, by decide, by decide,
    C4_repeated_upstream_has_max_weight chan211 (by decide) (by decide) (by decide) 3 0
      (by decide) (by decide)⟩

/-- C4 fails as stated: with weights 2, 1, 1 the fourth and the fifth call both
return the first upstream, whose weight 2 is not more than half of the total 4. -/
theorem C4_counterexample :
    2 ≤ chan211.Upstreams.length ∧ Fresh chan211 ∧
      (getUpstreamInfo (afterCalls 3 chan211)).1 = some 0 ∧
      (getUpstreamInfo (afterCalls 4 chan211)).1 = some 0 ∧
      chan211.Upstreams[0]? = some (upstreamOf "a" 2) ∧
      ¬ (totalWeight chan211 < 2 * (upstreamOf "a" 2).Weight) := by
  decide

/-- C5 (as the code has it): on a channel with at least two upstreams,
non-negative weights and all counters 0 at the start, whose number of upstreams
times the sum of the weights is below `2^63`, from the state reached after any
number `k` of selections, `totalWeight` further selections lead back to exactly
that state: every upstream's `CurrentWeight` (and the rest of the channel) is as
at the start of the window. -/
theorem C5_window_restores_counters (b : BaseChannel) (h2 : 2 ≤ b.Upstreams.length)
    (hf : Fresh b) (hfit : (b.Upstreams.length : Int) * totalWeight b < 9223372036854775808)
    (k : Nat) :
    afterCalls (totalWeight b).toNat (afterCalls k b) = afterCalls k b ∧
    ∀ (i : Nat) (u : UpstreamInfo), (afterCalls k b).Upstreams[i]? = some u →
      ∃ v, (afterCalls (totalWeight b).toNat (afterCalls k b)).Upstreams[i]? = some v ∧
        v.CurrentWeight = u.CurrentWeight := by
  have key : afterCalls (totalWeight b).toNat (afterCalls k b) = afterCalls k b := by
    rw [(fresh_run b hf hfit k (totalWeight b).toNat).2.1, (fresh_run b hf hfit k 0).1]
    exact (windowZ_restores b h2 hf k).1
  exact ⟨key, fun i u hu => ⟨u, by rw [key]; exact hu, rfl⟩⟩

theorem C5_window_restores_counters_witness :
    2 ≤ chan211.Upstreams.length ∧ Fresh chan211 ∧
      (chan211.Upstreams.length : Int) * totalWeight chan211 < 9223372036854775808 ∧
      afterCalls (totalWeight chan211).toNat (afterCalls 2 chan211) = afterCalls 2 chan211 :=
  ⟨by decide, by decide, by decide,
    (C5_window_restores_counters chan211 (by decide) (by decide) (by decide) 2).1⟩

theorem chanMaxMax_even (j : Nat) :
    afterCalls (2 * (j + 1)) chanMaxMax = afterCalls 2 chanMaxMax := by
  induction j with
  | zero => rfl
  | succ j ih =>
    have e : 2 * (j + 1 + 1) = 2 * (j + 1) + 2 := by ring
    rw [e, ← afterCalls_add, ih, afterCalls_add]
    decide

/-- C5 fails as stated: with two upstreams of weight `2^63 - 1` (counters 0 at
the start) the sums of `getUpstreamInfo` wrap around; after `totalWeight` calls
the counters are 2 and -2, not the 0 and 0 of the start of the window. -/
theorem C5_counterexample :
    2 ≤ chanMaxMax.Upstreams.length ∧ Fresh chanMaxMax ∧
      (afterCalls 0 chanMaxMax).Upstreams.map (fun u => u.CurrentWeight) = [0, 0] ∧
      (afterCalls (totalWeight chanMaxMax).toNat (afterCalls 0 chanMaxMax)).Upstreams.map
        (fun u => u.CurrentWeight) = [2, -2] := by
  refine ⟨by decide, by decide, by decide, ?_⟩
  have hT : (totalWeight chanMaxMax).toNat = 2 * (9223372036854775806 + 1) := by decide
  rw [hT]
  show (afterCalls (2 * (9223372036854775806 + 1)) chanMaxMax).Upstreams.map
    (fun u => u.CurrentWeight) = [2, -2]
  rw [chanMaxMax_even]
  decide

/-- C7: on a channel with exactly one upstream, whatever its weight and
counter, `getUpstreamInfo` returns that upstream (index 0) and leaves the whole
channel, its `CurrentWeight` included, unchanged. -/
theorem C7_single_upstream_untouched (b : BaseChannel) (h1 : b.Upstreams.length = 1) :
    getUpstreamInfo b = (some 0, b) := by
  unfold getUpstreamInfo
  simp [h1]

theorem C7_single_upstream_untouched_witness :
    chanSingle.Upstreams.length = 1 ∧ getUpstreamInfo chanSingle = (some 0, chanSingle) :=
  ⟨by decide, C7_single_upstream_untouched chanSingle (by decide)⟩

/-- C6 fails as stated: on the fresh channel `chanBig` (53 upstreams,
non-negative weights of sum 1442) the counter of the third upstream is 2891
after 1057 selections, more than twice the total weight. -/
theorem C6_counterexample :
    Fresh chanBig ∧ totalWeight chanBig = 1442 ∧
      ∃ u ∈ (afterCalls 1057 chanBig).Upstreams, 2 * totalWeight chanBig < |u.CurrentWeight| := by
  have ht : totalWeight chanBig = 1442 := by decide
  have hfresh : Fresh chanBig := by decide
  refine ⟨hfresh, ht, ?_⟩
  have hrun : afterCalls 1057 chanBig = afterCallsZ 1057 chanBig :=
    (fresh_run chanBig hfresh (by rw [ht]; decide) 1057 0).1
  have hm : (2891 : Int) ∈ (afterCalls 1057 chanBig).Upstreams.map (fun u => u.CurrentWeight) := by
    rw [hrun, chanBig_counters]; decide
  obtain ⟨u, hu, hcw⟩ := List.mem_map.mp hm
  refine ⟨u, hu, ?_⟩
  rw [ht, hcw]
  decide

/-- C6 (as the code has it): on a channel with non-negative weights and all
counters 0 at the start, whose number of upstreams times the sum of the weights
is below `2^63`, after any number `k` of calls of `getUpstreamInfo` every
upstream's `CurrentWeight` lies between `-totalWeight` and
`(n - 1) * totalWeight`, where `n` is the number of upstreams; so its absolute
value is at most `2 * totalWeight` whenever the channel has at most three
upstreams. -/
theorem C6_counter_bounds (b : BaseChannel) (hf : Fresh b)
    (hfit : (b.Upstreams.length : Int) * totalWeight b < 9223372036854775808)
    (k i : Nat) (u : UpstreamInfo)
    (hu : (afterCalls k b).Upstreams[i]? = some u) :
    - totalWeight b ≤ u.CurrentWeight ∧
    u.CurrentWeight ≤ ((b.Upstreams.length : Int) - 1) * totalWeight b ∧
    (b.Upstreams.length ≤ 3 → |u.CurrentWeight| ≤ 2 * totalWeight b) := by
  rw [(fresh_run b hf hfit k 0).1] at hu
  exact counterZ_bounds b hf k i u hu

theorem C6_counter_bounds_witness :
    Fresh chan211 ∧
      (chan211.Upstreams.length : Int) * totalWeight chan211 < 9223372036854775808 ∧
      (afterCalls 2 chan211).Upstreams[1]? =
        some { ID := "b", URL := none, Weight := 1, CurrentWeight := -2 } ∧
      - totalWeight chan211 ≤ (-2 : Int) ∧
      (-2 : Int) ≤ ((chan211.Upstreams.length : Int) - 1) * totalWeight chan211 ∧
      (chan211.Upstreams.length ≤ 3 → |(-2 : Int)| ≤ 2 * totalWeight chan211) :=
  ⟨by decide, by decide, by decide,
    C6_counter_bounds chan211 (by decide) (by decide) 2 1
      { ID := "b", URL := none, Weight := 1, CurrentWeight := -2 } (by decide)⟩

/-- The bound on the size of the weights cannot be dropped from C3: with the
weights 0, `2^63 - 1`, `2^63 - 1`, whose sum is positive, the second call
returns the upstream of weight 0. -/
theorem zero_weight_selected_after_wrap :
    Fresh chanZeroMaxMax ∧ 0 < totalWeight chanZeroMaxMax ∧
      chanZeroMaxMax.Upstreams[0]? = some (upstreamOf "a" 0) ∧
      (getUpstreamInfo (afterCalls 1 chanZeroMaxMax)).1 = some 0 := by
  decide

/-- The bound on the size of the weights cannot be dropped from C4: with the
weights `2^63 - 1` and `2^62 - 1` the second and the third call both return the
lighter upstream. -/
theorem lighter_repeated_after_wrap :
    Fresh chanMaxHalf ∧ picks 3 chanMaxHalf = [some 0, some 1, some 1] ∧
      (chanMaxHalf.Upstreams.map (fun u => u.Weight)) =
        [9223372036854775807, 4611686018427387903] := by
  decide

/-- The bound on the size of the weights cannot be dropped from C6: on
`chanWide` the sum of the weights fits in 64 bits, yet after 17 calls the
counter of one upstream is below minus that sum. -/
theorem lower_bound_fails_after_wrap :
    Fresh chanWide ∧ totalWeight chanWide = 8444510921438795147 ∧
      ∃ u ∈ (afterCalls 17 chanWide).Upstreams, u.CurrentWeight < - totalWeight chanWide := by
  decide

/-! ## Claims about `BuildUpstreamURL` -/

theorem findUpstreamByID_first (b : BaseChannel) (id : String) (i : Nat) (u : UpstreamInfo)
    (hu : b.Upstreams[i]? = some u) (hid : u.ID = id)
    (hfirst : ∀ j v, j < i → b.Upstreams[j]? = some v → v.ID ≠ id) :
    findUpstreamByID b id = some i := by
  unfold findUpstreamByID
  rw [List.find?_range_eq_some]
  refine ⟨by simp [hu, hid], ?_, ?_⟩
  · rw [List.mem_range]; exact lt_length_of_getElem? hu
  · intro j hj
    cases hg : b.Upstreams[j]? with
    | none => simp
    | some v => simpa using hfirst j v hj hg

theorem resolveBase_pinned (b : BaseChannel) (id : String) (i : Nat) (u : UpstreamInfo)
    (base : URL) (hne : id ≠ "") (hnd : id ≠ "Default")
    (hu : b.Upstreams[i]? = some u) (hid : u.ID = id)
    (hfirst : ∀ j v, j < i → b.Upstreams[j]? = some v → v.ID ≠ id)
    (hurl : u.URL = some base) : resolveBase b id = (some base, b) := by
  unfold resolveBase
  simp [hne, hnd, findUpstreamByID_first b id i u hu hid hfirst, hu, hurl]

/-- C8 (as the code has it): for an override identifier that is neither empty
nor "Default" and is the ID of a configured upstream, `BuildUpstreamURL` builds
its result from the base URL of the first upstream (in configured order) with
that ID, provided that upstream has a URL, and leaves the channel, hence every
`CurrentWeight`, unchanged. -/
theorem C8_override_leaves_counters (render : URL → String) (b : BaseChannel)
    (originalURL : URL) (group : Group) (id : String) (i : Nat) (u : UpstreamInfo) (base : URL)
    (hne : id ≠ "") (hnd : id ≠ "Default")
    (hu : b.Upstreams[i]? = some u) (hid : u.ID = id)
    (hfirst : ∀ j v, j < i → b.Upstreams[j]? = some v → v.ID ≠ id)
    (hurl : u.URL = some base) :
    BuildUpstreamURL render b originalURL group id =
      (.ok (render (rewriteURL base originalURL group)), b) := by
  unfold BuildUpstreamURL
  rw [resolveBase_pinned b id i u base hne hnd hu hid hfirst hurl]

theorem C8_override_leaves_counters_witness :
    "b" ≠ "" ∧ "b" ≠ "Default" ∧
      BuildUpstreamURL plainString chanAB (incomingURL "/proxy/g/v1/chat" "k=1") (groupOf "g") "b" =
        (.ok (plainString (rewriteURL (baseURL "b.example" "/v2")
          (incomingURL "/proxy/g/v1/chat" "k=1") (groupOf "g"))), chanAB) :=
  ⟨by decide, by decide,
    C8_override_leaves_counters plainString chanAB _ _ "b" 1 upB
      (baseURL "b.example" "/v2") (by decide) (by decide) rfl rfl
      (by
        intro j v hj hv
        have hj0 : j = 0 := by omega
        subst hj0
        have hv2 : some upA = some v := hv
        cases hv2
        decide)
      rfl⟩

/-- C8 fails as stated: the override "" is not "Default" and is the ID of the
first configured upstream, yet `BuildUpstreamURL` runs the weighted selection
and changes the counters from 0, 0 to -1, 1. -/
theorem C8_counterexample :
    "" ≠ "Default" ∧
      (chanEmptyID.Upstreams[0]?).map (fun u => u.ID) = some "" ∧
      chanEmptyID.Upstreams.map (fun u => u.CurrentWeight) = [0, 0] ∧
      (BuildUpstreamURL plainString chanEmptyID (incomingURL "/proxy/g/v1/chat" "k=1")
        (groupOf "g") "").2.Upstreams.map (fun u => u.CurrentWeight) = [-1, 1] := by
  decide

theorem trimPrefix_append (pre rest : String) : trimPrefix (pre ++ rest) pre = rest := by
  unfold trimPrefix
  have h : pre.data.isPrefixOf (pre ++ rest).data = true := by
    rw [String.data_append, List.isPrefixOf_iff_prefix]
    exact List.prefix_append _ _
  rw [if_pos h, String.data_append, List.drop_left]

theorem trimRight_slash (s : String) :
    (∃ k, s = trimRight s "/" ++ String.mk (List.replicate k '/')) ∧
    (trimRight s "/").data.getLast? ≠ some '/' := by
  unfold trimRight
  have hp : ∀ c : Char, (fun c => "/".data.contains c) c = true → c = '/' := by
    intro c hc
    simpa using hc
  constructor
  · refine ⟨(s.data.reverse.takeWhile (fun c => "/".data.contains c)).length, ?_⟩
    apply String.ext
    rw [String.data_append]
    have hsplit := List.takeWhile_append_dropWhile (fun c => "/".data.contains c) s.data.reverse
    have hrev : s.data = (s.data.reverse.dropWhile (fun c => "/".data.contains c)).reverse ++
        (s.data.reverse.takeWhile (fun c => "/".data.contains c)).reverse := by
      rw [← List.reverse_append, hsplit, List.reverse_reverse]
    have hrep : (s.data.reverse.takeWhile (fun c => "/".data.contains c)).reverse =
        List.replicate (s.data.reverse.takeWhile (fun c => "/".data.contains c)).length '/' := by
      rw [List.eq_replicate_iff]
      refine ⟨List.length_reverse _, ?_⟩
      intro c hc
      exact hp c (List.mem_takeWhile_imp (List.mem_reverse.mp hc))
    conv_lhs => rw [hrev, hrep]
  · show (s.data.reverse.dropWhile (fun c => "/".data.contains c)).reverse.getLast? ≠ some '/'
    rw [List.getLast?_reverse]
    have hh := List.head?_dropWhile_not (fun c => "/".data.contains c) s.data.reverse
    intro hc
    rw [hc] at hh
    simp at hh

theorem getUpstreamURL_isSome (b : BaseChannel) (hne : b.Upstreams ≠ [])
    (hurl : ∀ u ∈ b.Upstreams, u.URL ≠ none) : ∃ base, (getUpstreamURL b).1 = some base := by
  obtain ⟨i, u, hi, hu, v, hv, _, hvu⟩ := getUpstreamInfo_index b hne
  have hnone := hurl u (List.getElem?_mem hu)
  rw [← hvu] at hnone
  unfold getUpstreamURL
  cases hr : getUpstreamInfo b with
  | mk o b1 =>
    rw [hr] at hi hv
    simp only at hi hv
    subst hi
    simp only [hv]
    cases hU : v.URL with
    | none => exact absurd hU hnone
    | some base => exact ⟨base, by simp [hU]⟩

theorem resolveBase_isSome (b : BaseChannel) (id : String) (hne : b.Upstreams ≠ [])
    (hurl : ∀ u ∈ b.Upstreams, u.URL ≠ none) : ∃ base, (resolveBase b id).1 = some base := by
  unfold resolveBase
  simp only
  split
  · rename_i base _
    exact ⟨base, rfl⟩
  · exact getUpstreamURL_isSome b hne hurl

theorem resolveBase_nil (b : BaseChannel) (id : String) (h0 : b.Upstreams = []) :
    resolveBase b id = (none, b) := by
  unfold resolveBase findUpstreamByID getUpstreamURL
  rw [getUpstreamInfo_nil b h0]
  simp [h0]

/-- C10 (as the code has it): on a channel whose configured upstreams all have
a URL, for every incoming URL, group and override identifier `BuildUpstreamURL`
returns an error value exactly when the channel has zero configured upstreams
(the error is "no upstream URL configured for channel <name>" and the channel
is unchanged); with at least one configured upstream it returns a URL. -/
theorem C10_error_iff_no_upstream (render : URL → String) (b : BaseChannel) (originalURL : URL)
    (group : Group) (id : String) (hurl : ∀ u ∈ b.Upstreams, u.URL ≠ none) :
    ((∃ e, (BuildUpstreamURL render b originalURL group id).1 = Except.error e) ↔
      b.Upstreams = []) ∧
    (b.Upstreams = [] → BuildUpstreamURL render b originalURL group id =
      (Except.error ("no upstream URL configured for channel " ++ b.Name), b)) ∧
    (b.Upstreams ≠ [] →
      ∃ final, (BuildUpstreamURL render b originalURL group id).1 = Except.ok (render final)) := by
  have hnil : b.Upstreams = [] → BuildUpstreamURL render b originalURL group id =
      (Except.error ("no upstream URL configured for channel " ++ b.Name), b) := by
    intro h0
    unfold BuildUpstreamURL
    rw [resolveBase_nil b id h0]
  have hcons : b.Upstreams ≠ [] →
      ∃ final, (BuildUpstreamURL render b originalURL group id).1 = Except.ok (render final) := by
    intro hne
    obtain ⟨base, hb⟩ := resolveBase_isSome b id hne hurl
    refine ⟨rewriteURL base originalURL group, ?_⟩
    unfold BuildUpstreamURL
    cases hr : resolveBase b id with
    | mk o b1 =>
      rw [hr] at hb
      simp only at hb
      subst hb
      rfl
  refine ⟨⟨?_, ?_⟩, hnil, hcons⟩
  · rintro ⟨e, he⟩
    by_contra hne
    obtain ⟨final, hf⟩ := hcons hne
    rw [hf] at he
    cases he
  · intro h0
    exact ⟨_, by rw [hnil h0]⟩

theorem C10_error_iff_no_upstream_witness :
    (∀ u ∈ chanAB.Upstreams, u.URL ≠ none) ∧
    ((∃ e, (BuildUpstreamURL plainString chanAB (incomingURL "/proxy/g/v1/chat" "k=1")
        (groupOf "g") "zzz").1 = Except.error e) ↔ chanAB.Upstreams = []) ∧
    (chanAB.Upstreams = [] →
      BuildUpstreamURL plainString chanAB (incomingURL "/proxy/g/v1/chat" "k=1")
        (groupOf "g") "zzz" =
      (Except.error ("no upstream URL configured for channel " ++ chanAB.Name), chanAB)) ∧
    (chanAB.Upstreams ≠ [] →
      ∃ final, (BuildUpstreamURL plainString chanAB (incomingURL "/proxy/g/v1/chat" "k=1")
        (groupOf "g") "zzz").1 = Except.ok (plainString final)) :=
  ⟨by decide,
    C10_error_iff_no_upstream plainString chanAB (incomingURL "/proxy/g/v1/chat" "k=1")
      (groupOf "g") "zzz" (by decide)⟩

/-- C10 fails as stated: the channel `chanNoURL` has one configured upstream,
whose URL pointer is nil, and `BuildUpstreamURL` returns the error. -/
theorem C10_counterexample :
    chanNoURL.Upstreams.length = 1 ∧
      BuildUpstreamURL plainString chanNoURL (incomingURL "/proxy/g/v1/chat" "k=1")
        (groupOf "g") "Default" =
      (Except.error "no upstream URL configured for channel gemini-group", chanNoURL) :=
  ⟨rfl, rfl⟩

theorem string_append_eq_empty (a b : String) : a ++ b = "" ↔ a = "" ∧ b = "" := by
  constructor
  · intro h
    have hd := congrArg String.data h
    rw [String.data_append] at hd
    have hd2 : a.data ++ b.data = [] := hd
    rw [List.append_eq_nil] at hd2
    exact ⟨String.ext hd2.1, String.ext hd2.2⟩
  · rintro ⟨rfl, rfl⟩
    rfl

/-- The serialisation of a URL with a host and no opaque part whose escaped
path is empty or starts with a slash. -/
theorem urlString_of_host (u : URL) (hop : u.Opaque = "") (hhost : u.Host ≠ "")
    (hp : EscapedPath u = "" ∨ (EscapedPath u).data.head? = some '/') :
    urlString u = schemeText u ++ "//" ++ userText u ++ escape u.Host encoding.encodeHost ++
      EscapedPath u ++ queryText u.ForceQuery u.RawQuery ++ fragmentText u := by
  have hslash : ¬ (EscapedPath u ≠ "" ∧ (EscapedPath u).data.head? ≠ some '/' ∧ u.Host ≠ "") := by
    rintro ⟨h1, h2, _⟩
    rcases hp with h | h
    · exact h1 h
    · exact h2 h
  have hslash2 : ¬ (¬ EscapedPath u = "" ∧ ¬ (EscapedPath u).data.head? = some '/') := by
    rintro ⟨h1, h2⟩
    rcases hp with h | h
    · exact h1 h
    · exact h2 h
  unfold urlString schemeText userText queryText fragmentText
  simp only [hop, hhost, hslash, ne_eq, not_true_eq_false, not_false_eq_true, if_true, if_false,
    true_or, or_true, false_and, and_false]
  cases hu : u.User with
  | none =>
    by_cases hs : u.Scheme = "" <;> by_cases hq : (u.ForceQuery = true ∨ ¬ u.RawQuery = "") <;>
      by_cases hf : u.Fragment = "" <;>
      simp [hs, hq, hf, hslash2, string_append_eq_empty, String.append_assoc]
  | some ui =>
    by_cases hs : u.Scheme = "" <;> by_cases hq : (u.ForceQuery = true ∨ ¬ u.RawQuery = "") <;>
      by_cases hf : u.Fragment = "" <;>
      simp [hs, hq, hf, hslash2, string_append_eq_empty, String.append_assoc]

theorem escape_empty (mode : encoding) : escape "" mode = "" := rfl

theorem escape_path_head (s : String) (h : s.data.head? = some '/') :
    (escape s encoding.encodePath).data.head? = some '/' := by
  unfold escape
  cases hd : s.data with
  | nil => rw [hd] at h; cases h
  | cons c cs =>
    rw [hd] at h
    simp only [List.head?_cons, Option.some.injEq] at h
    subst h
    rfl

theorem EscapedPath_plain (u : URL) (hraw : u.RawPath = "")
    (hslash : ∀ c, u.Path.data.head? = some c → c = '/') :
    EscapedPath u = escape u.Path encoding.encodePath ∧
    (EscapedPath u = "" ∨ (EscapedPath u).data.head? = some '/') := by
  have hstar : u.Path ≠ "*" := by
    intro h
    have := hslash '*' (by rw [h]; rfl)
    exact absurd this (by decide)
  have he : EscapedPath u = escape u.Path encoding.encodePath := by
    unfold EscapedPath
    simp [hraw, hstar]
  refine ⟨he, ?_⟩
  rw [he]
  cases hd : u.Path.data with
  | nil =>
    left
    have : u.Path = "" := String.ext hd
    rw [this]; rfl
  | cons c cs =>
    right
    have hc := hslash c (by rw [hd]; rfl)
    subst hc
    exact escape_path_head _ (by rw [hd]; rfl)

/-- C9 (as the code has it): whenever the resolution yields a base URL, for an
incoming path `"/proxy/" ++ group.Name ++ rest` `BuildUpstreamURL` succeeds and
returns the serialisation (Go's `String`) of the URL that has the scheme and
the host of the base, the base's path without its trailing slashes followed by
`rest` as path, and the raw query of the incoming URL as query string.  When
the base has a host, no opaque part and no separately stored encoded path, and
the new path is empty or begins with a slash, the returned text is
`scheme://userinfo@host`, the escaped new path, `?` and the incoming raw query,
and the base's fragment. -/
theorem C9_path_rewrite (b b1 : BaseChannel) (originalURL : URL)
    (group : Group) (id : String) (base : URL) (rest : String)
    (hres : resolveBase b id = (some base, b1))
    (hpath : originalURL.Path = "/proxy/" ++ group.Name ++ rest) :
    (∃ final : URL,
      BuildUpstreamURL urlString b originalURL group id = (.ok (urlString final), b1) ∧
      final.Scheme = base.Scheme ∧ final.Host = base.Host ∧
      final.Path = trimRight base.Path "/" ++ rest ∧
      final.RawQuery = originalURL.RawQuery) ∧
    (∃ k, base.Path = trimRight base.Path "/" ++ String.mk (List.replicate k '/')) ∧
    (trimRight base.Path "/").data.getLast? ≠ some '/' ∧
    (base.Opaque = "" → base.Host ≠ "" → base.RawPath = "" →
      (∀ c, (trimRight base.Path "/" ++ rest).data.head? = some c → c = '/') →
      BuildUpstreamURL urlString b originalURL group id =
        (.ok (schemeText base ++ "//" ++ userText base ++ escape base.Host encoding.encodeHost ++
          escape (trimRight base.Path "/" ++ rest) encoding.encodePath ++
          queryText base.ForceQuery originalURL.RawQuery ++ fragmentText base), b1)) := by
  have hbuild : BuildUpstreamURL urlString b originalURL group id =
      (.ok (urlString (rewriteURL base originalURL group)), b1) := by
    unfold BuildUpstreamURL
    rw [hres]
  have hfp : (rewriteURL base originalURL group).Path = trimRight base.Path "/" ++ rest := by
    show trimRight base.Path "/" ++ trimPrefix originalURL.Path ("/proxy/" ++ group.Name) = _
    rw [hpath, trimPrefix_append]
  refine ⟨⟨rewriteURL base originalURL group, hbuild, rfl, rfl, hfp, rfl⟩,
    (trimRight_slash base.Path).1, (trimRight_slash base.Path).2, ?_⟩
  intro hop hhost hraw hslash
  rw [hbuild]
  have hplain := EscapedPath_plain (rewriteURL base originalURL group) hraw
    (by rw [hfp]; exact hslash)
  rw [urlString_of_host (rewriteURL base originalURL group) hop hhost hplain.2, hplain.1, hfp]
  rfl

theorem C9_path_rewrite_witness :
    resolveBase chanAB "a" = (some (baseURL "a.example" "/api/"), chanAB) ∧
    (incomingURL "/proxy/myGroup/v1/chat" "alt=sse").Path =
      "/proxy/" ++ (groupOf "myGroup").Name ++ "/v1/chat" ∧
    BuildUpstreamURL urlString chanAB (incomingURL "/proxy/myGroup/v1/chat" "alt=sse")
      (groupOf "myGroup") "a" = (.ok "https://a.example/api/v1/chat?alt=sse", chanAB) :=
  ⟨by decide, by decide,
    ((C9_path_rewrite chanAB chanAB (incomingURL "/proxy/myGroup/v1/chat" "alt=sse")
      (groupOf "myGroup") "a" (baseURL "a.example" "/api/") "/v1/chat" (by decide)
      (by decide)).2.2.2 rfl (by decide) rfl (by decide)).trans rfl⟩

/-- C9 fails as stated: the group is `g`, the incoming path `/proxy/g2/v1` is
`"/proxy/" ++ "g" ++ "2/v1"`, the base `https://a.example` has the empty path,
so the claimed path is `2/v1`; the URL `BuildUpstreamURL` returns is
`https://a.example/2/v1?k=1`, whose path is `/2/v1`: serialising inserts a
slash between the host and a path that does not begin with one. -/
theorem C9_counterexample :
    resolveBase chanRoot "a" = (some (baseURL "a.example" ""), chanRoot) ∧
    (incomingURL "/proxy/g2/v1" "k=1").Path = "/proxy/" ++ (groupOf "g").Name ++ "2/v1" ∧
    trimRight (baseURL "a.example" "").Path "/" ++ "2/v1" = "2/v1" ∧
    BuildUpstreamURL urlString chanRoot (incomingURL "/proxy/g2/v1" "k=1") (groupOf "g") "a" =
      (.ok ("https://a.example" ++ "/" ++ "2/v1" ++ "?" ++ "k=1"), chanRoot) :=
  ⟨by decide, by decide, by decide, rfl⟩

/-! ## Staleness detection -/

theorem IsConfigStale_false_iff (b : BaseChannel) (group : Group) :
    (IsConfigStale b group).1 = false ↔ SnapshotOf b group := by
  unfold IsConfigStale SnapshotOf
  by_cases h1 : b.channelType = group.ChannelType
  · by_cases h2 : b.TestModel = group.TestModel
    · by_cases h3 : b.groupUpstreams = group.Upstreams
      · by_cases h4 : b.effectiveConfig = some group.EffectiveConfig
        · simp [h1, h2, h3, h4]
        · simp [h1, h2, h3, h4]
      · simp [h1, h2, h3]
    · simp [h1, h2]
  · simp [h1]

/-- C11: `IsConfigStale` returns false exactly when the cached provider type,
test model, serialized upstream bytes and effective settings all equal the
group's.  So it is false for the group `g0` the snapshot was copied from and
true for every group `g` that differs from `g0` in exactly one of these four
fields (whatever the others are it differs in at least one).  The channel is
left unchanged. -/
theorem C11_stale_iff_snapshot_differs (b : BaseChannel) (g0 : Group) (hsnap : SnapshotOf b g0) :
    (∀ g : Group, (IsConfigStale b g).1 = false ↔
      (b.channelType = g.ChannelType ∧ b.TestModel = g.TestModel ∧
        b.groupUpstreams = g.Upstreams ∧ b.effectiveConfig = some g.EffectiveConfig)) ∧
    (IsConfigStale b g0).1 = false ∧
    (∀ g : Group, g.ChannelType ≠ g0.ChannelType → g.TestModel = g0.TestModel →
      g.Upstreams = g0.Upstreams → g.EffectiveConfig = g0.EffectiveConfig →
      (IsConfigStale b g).1 = true) ∧
    (∀ g : Group, g.ChannelType = g0.ChannelType → g.TestModel ≠ g0.TestModel →
      g.Upstreams = g0.Upstreams → g.EffectiveConfig = g0.EffectiveConfig →
      (IsConfigStale b g).1 = true) ∧
    (∀ g : Group, g.ChannelType = g0.ChannelType → g.TestModel = g0.TestModel →
      g.Upstreams ≠ g0.Upstreams → g.EffectiveConfig = g0.EffectiveConfig →
      (IsConfigStale b g).1 = true) ∧
    (∀ g : Group, g.ChannelType = g0.ChannelType → g.TestModel = g0.TestModel →
      g.Upstreams = g0.Upstreams → g.EffectiveConfig ≠ g0.EffectiveConfig →
      (IsConfigStale b g).1 = true) ∧
    (∀ g : Group, (IsConfigStale b g).2 = b) := by
  obtain ⟨s1, s2, s3, s4⟩ := hsnap
  have hstale : ∀ g : Group, ¬ SnapshotOf b g → (IsConfigStale b g).1 = true := by
    intro g hg
    cases hv : (IsConfigStale b g).1 with
    | true => rfl
    | false => exact absurd ((IsConfigStale_false_iff b g).mp hv) hg
  refine ⟨fun g => IsConfigStale_false_iff b g,
    (IsConfigStale_false_iff b g0).mpr ⟨s1, s2, s3, s4⟩, ?_, ?_, ?_, ?_, ?_⟩
  · intro g h1 _ _ _
    exact hstale g (fun hs => h1 (by rw [← hs.1, s1]))
  · intro g _ h2 _ _
    exact hstale g (fun hs => h2 (by rw [← hs.2.1, s2]))
  · intro g _ _ h3 _
    exact hstale g (fun hs => h3 (by rw [← hs.2.2.1, s3]))
  · intro g _ _ _ h4
    refine hstale g (fun hs => h4 ?_)
    have := hs.2.2.2
    rw [s4] at this
    exact (Option.some.inj this).symm
  · intro g
    unfold IsConfigStale
    split
    · rfl
    · split
      · rfl
      · split
        · rfl
        · split <;> rfl

theorem C11_stale_iff_snapshot_differs_witness :
    SnapshotOf chanForG groupG ∧
    (IsConfigStale chanForG groupG).1 = false ∧
    (IsConfigStale chanForG { groupG with TestModel := "m2" }).1 = true ∧
    (IsConfigStale chanForG { groupG with Upstreams := [91, 32, 93] }).1 = true ∧
    (IsConfigStale chanForG groupG).2 = chanForG :=
  ⟨by decide,
    (C11_stale_iff_snapshot_differs chanForG groupG (by decide)).2.1,
    (C11_stale_iff_snapshot_differs chanForG groupG (by decide)).2.2.2.1 _ rfl (by decide) rfl rfl,
    (C11_stale_iff_snapshot_differs chanForG groupG (by decide)).2.2.2.2.1 _ rfl rfl
      (by decide) rfl,
    (C11_stale_iff_snapshot_differs chanForG groupG (by decide)).2.2.2.2.2.2 groupG⟩

/-! ## `GetSelectedUpstreamID` and the fallback of `BuildUpstreamURL` -/

/-- C17: `GetSelectedUpstreamID` returns the literal "Default" when the channel
has no upstreams, and the weighted selection returns none exactly then; on a
channel with at least one upstream it returns the ID of a configured upstream,
the one at the index `getUpstreamInfo` yields. -/
theorem C17_selected_id (b : BaseChannel) :
    (b.Upstreams = [] → GetSelectedUpstreamID b = ("Default", b)) ∧
    ((getUpstreamInfo b).1 = none ↔ b.Upstreams = []) ∧
    (b.Upstreams ≠ [] → ∃ i u, (getUpstreamInfo b).1 = some i ∧ b.Upstreams[i]? = some u ∧
      u ∈ b.Upstreams ∧ (GetSelectedUpstreamID b).1 = u.ID) := by
  refine ⟨?_, getUpstreamInfo_none_iff b, ?_⟩
  · intro h
    unfold GetSelectedUpstreamID
    rw [getUpstreamInfo_nil b h]
  · intro hne
    obtain ⟨i, u, hi, hu, v, hv, hid, _⟩ := getUpstreamInfo_index b hne
    refine ⟨i, u, hi, hu, List.getElem?_mem hu, ?_⟩
    unfold GetSelectedUpstreamID
    cases hr : getUpstreamInfo b with
    | mk o b1 =>
      rw [hr] at hi hv
      simp only at hi hv
      subst hi
      simp only [hv]
      exact hid

theorem C17_selected_id_witness :
    chanAB.Upstreams ≠ [] ∧
    ∃ i u, (getUpstreamInfo chanAB).1 = some i ∧ chanAB.Upstreams[i]? = some u ∧
      u ∈ chanAB.Upstreams ∧ (GetSelectedUpstreamID chanAB).1 = u.ID :=
  ⟨by decide, (C17_selected_id chanAB).2.2 (by decide)⟩

/-- C19: `GetSelectedUpstreamID` leaves the channel exactly as one call of
`getUpstreamInfo` leaves it.  On the channel `chanAB` (two upstreams of weight 1,
counters 0) it returns the ID `a`, and `BuildUpstreamURL` with override
"Default", called right after it, builds its URL from the base of upstream
`b`. -/
theorem C19_getter_advances_selection :
    (∀ b : BaseChannel, (GetSelectedUpstreamID b).2 = (getUpstreamInfo b).2) ∧
    (GetSelectedUpstreamID chanAB).1 = "a" ∧
    (GetSelectedUpstreamID chanAB).2.Upstreams.map (fun u => u.CurrentWeight) = [-1, 1] ∧
    (∀ (render : URL → String) (originalURL : URL) (group : Group),
      (BuildUpstreamURL render (GetSelectedUpstreamID chanAB).2 originalURL group "Default").1 =
        Except.ok (render (rewriteURL (baseURL "b.example" "/v2") originalURL group))) ∧
    upB.ID = "b" ∧ upB.URL = some (baseURL "b.example" "/v2") := by
  refine ⟨?_, by decide, by decide, ?_, rfl, rfl⟩
  · intro b
    unfold GetSelectedUpstreamID
    cases hr : getUpstreamInfo b with
    | mk o b1 =>
      cases o with
      | none => rfl
      | some i =>
        simp only
        cases b1.Upstreams[i]? <;> rfl
  · intro render originalURL group
    rfl

theorem resolveBase_default (b : BaseChannel) : resolveBase b "Default" = getUpstreamURL b := by
  unfold resolveBase
  simp

theorem findUpstreamByID_none (b : BaseChannel) (id : String)
    (h : ∀ u ∈ b.Upstreams, u.ID ≠ id) : findUpstreamByID b id = none := by
  unfold findUpstreamByID
  rw [List.find?_eq_none]
  intro i _
  cases hg : b.Upstreams[i]? with
  | none => simp
  | some u => simpa using h u (List.getElem?_mem hg)

theorem resolveBase_unmatched (b : BaseChannel) (id : String)
    (h : ∀ u ∈ b.Upstreams, u.ID ≠ id) : resolveBase b id = getUpstreamURL b := by
  unfold resolveBase
  rw [findUpstreamByID_none b id h]
  simp

/-- C20 (as the code has it): for an override identifier that is the ID of no
configured upstream, `BuildUpstreamURL` gives the same result and leaves the
same channel as the call with override "Default" from the same state: it falls
back to the weighted selection, which advances the counters as one call of
`getUpstreamInfo` does.  On a channel with at least one upstream, all of whose
upstreams have a URL, that result is a URL and not an error. -/
theorem C20_unknown_override_falls_back (render : URL → String) (b : BaseChannel)
    (originalURL : URL) (group : Group) (id : String)
    (hno : ∀ u ∈ b.Upstreams, u.ID ≠ id) :
    BuildUpstreamURL render b originalURL group id =
      BuildUpstreamURL render b originalURL group "Default" ∧
    (BuildUpstreamURL render b originalURL group id).2 = (getUpstreamInfo b).2 ∧
    (b.Upstreams ≠ [] → (∀ u ∈ b.Upstreams, u.URL ≠ none) →
      ∃ final, (BuildUpstreamURL render b originalURL group id).1 = Except.ok (render final)) := by
  have h1 : resolveBase b id = getUpstreamURL b := resolveBase_unmatched b id hno
  have h2 : resolveBase b "Default" = getUpstreamURL b := resolveBase_default b
  refine ⟨?_, ?_, ?_⟩
  · unfold BuildUpstreamURL
    rw [h1, h2]
  · unfold BuildUpstreamURL
    rw [h1]
    unfold getUpstreamURL
    cases hr : getUpstreamInfo b with
    | mk o b1 =>
      cases o with
      | none => rfl
      | some i =>
        simp only
        cases (b1.Upstreams[i]?).bind (fun u => u.URL) <;> rfl
  · intro hne hurl
    obtain ⟨base, hb⟩ := resolveBase_isSome b id hne hurl
    refine ⟨rewriteURL base originalURL group, ?_⟩
    unfold BuildUpstreamURL
    cases hr : resolveBase b id with
    | mk o b1 =>
      rw [hr] at hb
      simp only at hb
      subst hb
      rfl

theorem C20_unknown_override_falls_back_witness :
    (∀ u ∈ chanAB.Upstreams, u.ID ≠ "zzz") ∧
    BuildUpstreamURL plainString chanAB (incomingURL "/proxy/g/v1/chat" "k=1") (groupOf "g") "zzz" =
      BuildUpstreamURL plainString chanAB (incomingURL "/proxy/g/v1/chat" "k=1") (groupOf "g")
        "Default" ∧
    (BuildUpstreamURL plainString chanAB (incomingURL "/proxy/g/v1/chat" "k=1") (groupOf "g")
      "zzz").2 = (getUpstreamInfo chanAB).2 :=
  ⟨by decide,
    (C20_unknown_override_falls_back plainString chanAB (incomingURL "/proxy/g/v1/chat" "k=1")
      (groupOf "g") "zzz" (by decide)).1,
    (C20_unknown_override_falls_back plainString chanAB (incomingURL "/proxy/g/v1/chat" "k=1")
      (groupOf "g") "zzz" (by decide)).2.1⟩

/-- C20 fails as stated: the channel `chanNoURL` has one configured upstream,
the override "zzz" is not "Default" and is the ID of no upstream, and
`BuildUpstreamURL` fails, because the URL pointer of the selected upstream is
nil. -/
theorem C20_counterexample :
    chanNoURL.Upstreams.length = 1 ∧ "zzz" ≠ "Default" ∧
      (∀ u ∈ chanNoURL.Upstreams, u.ID ≠ "zzz") ∧
      BuildUpstreamURL plainString chanNoURL (incomingURL "/proxy/g/v1/chat" "k=1")
        (groupOf "g") "zzz" =
      (Except.error "no upstream URL configured for channel gemini-group", chanNoURL) :=
  ⟨rfl, by decide, by decide, rfl⟩

/-! ## Credential validation -/

theorem validateResolve_eq_resolveBase (b : BaseChannel) (filter : String)
    (h : (filter ≠ "" ∧ filter ≠ "Default") ∨ ∀ u ∈ b.Upstreams, u.ID ≠ filter) :
    validateResolve b filter = resolveBase b filter := by
  unfold validateResolve resolveBase
  rcases h with ⟨h1, h2⟩ | h
  · have hp : (filter ≠ "" ∧ filter ≠ "Default") := ⟨h1, h2⟩
    rw [if_pos hp]
  · rw [findUpstreamByID_none b filter h]
    simp

theorem BuildUpstreamURL_snd (render : URL → String) (b : BaseChannel) (originalURL : URL)
    (group : Group) (id : String) :
    (BuildUpstreamURL render b originalURL group id).2 = (resolveBase b id).2 := by
  unfold BuildUpstreamURL
  cases hr : resolveBase b id with
  | mk o b1 => cases o <;> rfl

theorem ValidateKey_snd (env : ValidationEnv) (b : BaseChannel) (key : APIKey)
    (outcome : CallOutcome) :
    (ValidateKey env b key outcome).2 = (validateResolve b key.UpstreamFilter).2 := by
  unfold ValidateKey
  cases hr : validateResolve b key.UpstreamFilter with
  | mk o b1 =>
    cases o with
    | none => rfl
    | some u =>
      simp only
      cases env.requestError (validationRequestURL env b key u) <;> rfl

/-- C12, evaluated at the failing input: on `chanLegacy` the filter "" makes
`ValidateKey` resolve the first upstream (whose ID is "") and leave the counters
at 0, 0, while `BuildUpstreamURL` with override "" runs the weighted selection,
resolves the second upstream and leaves the counters at 1, -1. -/
theorem C12_validate_resolution_diverges :
    (validateResolve chanLegacy "").1 = some (baseURL "a.example" "/api/") ∧
    (validateResolve chanLegacy "").2.Upstreams.map (fun u => u.CurrentWeight) = [0, 0] ∧
    (resolveBase chanLegacy "").1 = some (baseURL "b.example" "/v2") ∧
    (resolveBase chanLegacy "").2.Upstreams.map (fun u => u.CurrentWeight) = [1, -1] ∧
    (∀ (env : ValidationEnv) (key : APIKey) (outcome : CallOutcome), key.UpstreamFilter = "" →
      (ValidateKey env chanLegacy key outcome).2 = chanLegacy) ∧
    (∀ (render : URL → String) (originalURL : URL) (group : Group),
      (BuildUpstreamURL render chanLegacy originalURL group "").2 ≠ chanLegacy) := by
  refine ⟨by decide, by decide, by decide, by decide, ?_, ?_⟩
  · intro env key outcome hk
    rw [ValidateKey_snd, hk]
    decide
  · intro render originalURL group h
    rw [BuildUpstreamURL_snd] at h
    revert h
    decide

theorem validateResolve_isSome (b : BaseChannel) (filter : String) (hne : b.Upstreams ≠ [])
    (hurl : ∀ u ∈ b.Upstreams, u.URL ≠ none) : ∃ u, (validateResolve b filter).1 = some u := by
  unfold validateResolve
  simp only
  split
  · rename_i u _
    exact ⟨u, rfl⟩
  · exact getUpstreamURL_isSome b hne hurl

theorem ValidateKey_called (env : ValidationEnv) (b c : BaseChannel) (key : APIKey) (u : URL)
    (outcome : CallOutcome) (hres : validateResolve b key.UpstreamFilter = (some u, c))
    (hreq : env.requestError (validationRequestURL env b key u) = none) :
    ValidateKey env b key outcome = (validationVerdict env outcome, c) := by
  unfold ValidateKey
  rw [hres]
  simp only [hreq]

theorem validationVerdict_valid_iff (env : ValidationEnv) (outcome : CallOutcome) :
    ((validationVerdict env outcome).1 = true ↔ ∃ body, outcome = CallOutcome.answered 200 body) ∧
    (validationVerdict env outcome = (true, none) ↔
      ∃ body, outcome = CallOutcome.answered 200 body) := by
  cases outcome with
  | unreachable err => simp [validationVerdict]
  | answered status body =>
    by_cases h : status = 200
    · subst h
      simp [validationVerdict]
    · cases body <;> simp [validationVerdict, h]

/-- C13 (as the code has it): with the outcome of the outbound call as an
input, on a channel with at least one upstream, all of whose upstreams have a
URL, and when the validation request can be built, `ValidateKey` returns
valid = true with no error exactly when the upstream was reached and answered
with status 200. -/
theorem C13_valid_iff_status_200 (env : ValidationEnv) (b : BaseChannel) (key : APIKey)
    (outcome : CallOutcome) (hne : b.Upstreams ≠ [])
    (hurl : ∀ u ∈ b.Upstreams, u.URL ≠ none)
    (hreq : ∀ u, env.requestError (validationRequestURL env b key u) = none) :
    ((ValidateKey env b key outcome).1 = (true, none) ↔
      ∃ body, outcome = CallOutcome.answered 200 body) ∧
    ((ValidateKey env b key outcome).1.1 = true ↔
      ∃ body, outcome = CallOutcome.answered 200 body) := by
  obtain ⟨u, hu⟩ := validateResolve_isSome b key.UpstreamFilter hne hurl
  have hres : validateResolve b key.UpstreamFilter =
      (some u, (validateResolve b key.UpstreamFilter).2) := by
    rw [← hu]
  rw [ValidateKey_called env b _ key u outcome hres (hreq u)]
  exact ⟨(validationVerdict_valid_iff env outcome).2, (validationVerdict_valid_iff env outcome).1⟩

theorem C13_valid_iff_status_200_witness :
    chanAB.Upstreams ≠ [] ∧ (∀ u ∈ chanAB.Upstreams, u.URL ≠ none) ∧
    (ValidateKey plainEnv chanAB { KeyValue := "secret", UpstreamFilter := "b" }
      (CallOutcome.answered 200 (Except.ok []))).1 = (true, none) :=
  ⟨by decide, by decide,
    (C13_valid_iff_status_200 plainEnv chanAB { KeyValue := "secret", UpstreamFilter := "b" }
      (CallOutcome.answered 200 (Except.ok [])) (by decide) (by decide) (fun _ => rfl)).1.mpr
      ⟨_, rfl⟩⟩

/-- C13 fails as stated: the upstream is reached and answers with the success
status 204, and `ValidateKey` returns valid = false with a diagnostic. -/
theorem C13_counterexample :
    chanAB.Upstreams ≠ [] ∧ (200 : Int) ≤ 204 ∧ (204 : Int) < 300 ∧
    (ValidateKey plainEnv chanAB { KeyValue := "secret", UpstreamFilter := "b" }
      (CallOutcome.answered 204 (Except.ok []))).1 = (false, some "[status 204] 0") := by
  decide

theorem head?_append_data (lit x : String) (c : Char) (h : lit.data.head? = some c) :
    (lit ++ x).data.head? = some c := by
  rw [String.data_append]
  cases hl : lit.data with
  | nil => rw [hl] at h; cases h
  | cons a l => rw [hl] at h; simpa using h

theorem ne_of_head?_ne (s t : String) (h : s.data.head? ≠ t.data.head?) : s ≠ t := by
  intro hst
  rw [hst] at h
  exact h rfl

/-- C14: when the call is made (an upstream URL is resolved and the request is
built), every answer with a status other than 200 gives valid = false with a
non-empty diagnostic, every transport failure gives valid = false with a
diagnostic, and the diagnostic of a transport failure is never the diagnostic
of an answered call, for any status code, response body, transport error text,
channel, credential and helper functions. -/
theorem C14_diagnostics (env1 env2 : ValidationEnv) (b1 c1 b2 c2 : BaseChannel)
    (key1 key2 : APIKey) (u1 u2 : URL)
    (hres1 : validateResolve b1 key1.UpstreamFilter = (some u1, c1))
    (hreq1 : env1.requestError (validationRequestURL env1 b1 key1 u1) = none)
    (hres2 : validateResolve b2 key2.UpstreamFilter = (some u2, c2))
    (hreq2 : env2.requestError (validationRequestURL env2 b2 key2 u2) = none) :
    (∀ (status : Int) (body : Except String (List UInt8)), status ≠ 200 →
      ∃ d, (ValidateKey env2 b2 key2 (CallOutcome.answered status body)).1 = (false, some d) ∧
        d ≠ "") ∧
    (∀ err : String,
      ∃ d, (ValidateKey env1 b1 key1 (CallOutcome.unreachable err)).1 = (false, some d) ∧
        d ≠ "") ∧
    (∀ (err : String) (status : Int) (body : Except String (List UInt8)),
      (ValidateKey env1 b1 key1 (CallOutcome.unreachable err)).1.2 ≠
        (ValidateKey env2 b2 key2 (CallOutcome.answered status body)).1.2) := by
  have hf : ∀ err : String,
      ("failed to send validation request: " ++ err).data.head? = some 'f' :=
    fun err => head?_append_data _ _ _ rfl
  have hk : ∀ (status : Int) (err : String),
      ("key is invalid (status " ++ toString status ++
        "), but failed to read error body: " ++ err).data.head? = some 'k' :=
    fun status err =>
      head?_append_data _ _ _ (head?_append_data _ _ _ (head?_append_data _ _ _ rfl))
  have hs : ∀ (status : Int) (msg : String),
      ("[status " ++ toString status ++ "] " ++ msg).data.head? = some '[' :=
    fun status msg =>
      head?_append_data _ _ _ (head?_append_data _ _ _ (head?_append_data _ _ _ rfl))
  have hempty : ("" : String).data.head? = none := rfl
  refine ⟨?_, ?_, ?_⟩
  · intro status body hst
    rw [ValidateKey_called env2 b2 c2 key2 u2 _ hres2 hreq2]
    cases body with
    | error err =>
      refine ⟨"key is invalid (status " ++ toString status ++
        "), but failed to read error body: " ++ err,
        by simp only [validationVerdict, hst, if_false], ?_⟩
      apply ne_of_head?_ne
      rw [hk, hempty]
      simp
    | ok bytes =>
      refine ⟨"[status " ++ toString status ++ "] " ++ env2.parseUpstreamError bytes,
        by simp only [validationVerdict, hst, if_false], ?_⟩
      apply ne_of_head?_ne
      rw [hs, hempty]
      simp
  · intro err
    rw [ValidateKey_called env1 b1 c1 key1 u1 _ hres1 hreq1]
    refine ⟨_, rfl, ?_⟩
    apply ne_of_head?_ne
    rw [hf, hempty]
    simp
  · intro err status body
    rw [ValidateKey_called env1 b1 c1 key1 u1 _ hres1 hreq1,
      ValidateKey_called env2 b2 c2 key2 u2 _ hres2 hreq2]
    by_cases hst : status = 200
    · subst hst
      simp [validationVerdict]
    · cases body with
      | error e =>
        simp only [validationVerdict, hst, if_false]
        intro h
        have h2 := congrArg (fun o : Option String => o.map (fun s => s.data.head?)) h
        simp only [Option.map_some'] at h2
        rw [hf, hk] at h2
        revert h2
        decide
      | ok bytes =>
        simp only [validationVerdict, hst, if_false]
        intro h
        have h2 := congrArg (fun o : Option String => o.map (fun s => s.data.head?)) h
        simp only [Option.map_some'] at h2
        rw [hf, hs] at h2
        revert h2
        decide

theorem C14_diagnostics_witness :
    validateResolve chanAB "b" = (some (baseURL "b.example" "/v2"), chanAB) ∧
    (∃ d, (ValidateKey plainEnv chanAB { KeyValue := "secret", UpstreamFilter := "b" }
      (CallOutcome.answered 403 (Except.ok [1, 2]))).1 = (false, some d) ∧ d ≠ "") ∧
    (ValidateKey plainEnv chanAB { KeyValue := "secret", UpstreamFilter := "b" }
      (CallOutcome.unreachable "dial tcp: timeout")).1.2 ≠
      (ValidateKey plainEnv chanAB { KeyValue := "secret", UpstreamFilter := "b" }
        (CallOutcome.answered 403 (Except.ok [1, 2]))).1.2 :=
  ⟨by decide,
    (C14_diagnostics plainEnv plainEnv chanAB chanAB chanAB chanAB
      { KeyValue := "secret", UpstreamFilter := "b" }
      { KeyValue := "secret", UpstreamFilter := "b" }
      (baseURL "b.example" "/v2") (baseURL "b.example" "/v2")
      (by decide) rfl (by decide) rfl).1 403 (Except.ok [1, 2]) (by decide),
    (C14_diagnostics plainEnv plainEnv chanAB chanAB chanAB chanAB
      { KeyValue := "secret", UpstreamFilter := "b" }
      { KeyValue := "secret", UpstreamFilter := "b" }
      (baseURL "b.example" "/v2") (baseURL "b.example" "/v2")
      (by decide) rfl (by decide) rfl).2.2 "dial tcp: timeout" 403 (Except.ok [1, 2])⟩

/-! ## Query strings and `ModifyRequest` -/

theorem keyLt_irrefl (a : List Char) : keyLt a a = false := by
  induction a with
  | nil => rfl
  | cons c cs ih => simp [keyLt, ih]

theorem keyLt_trans : ∀ (a b c : List Char), keyLt a b = true → keyLt b c = true →
    keyLt a c = true := by
  intro a
  induction a with
  | nil =>
    intro b c h1 h2
    cases b with
    | nil => simp [keyLt] at h1
    | cons y ys =>
      cases c with
      | nil => simp [keyLt] at h2
      | cons z zs => simp [keyLt]
  | cons x xs ih =>
    intro b c h1 h2
    cases b with
    | nil => simp [keyLt] at h1
    | cons y ys =>
      cases c with
      | nil => simp [keyLt] at h2
      | cons z zs =>
        simp only [keyLt] at h1 h2 ⊢
        by_cases hxy : x.toNat < y.toNat
        · by_cases hyz : y.toNat < z.toNat
          · have : x.toNat < z.toNat := by omega
            simp [this]
          · simp only [hyz, if_false] at h2
            by_cases hyz2 : y.toNat = z.toNat
            · have : x.toNat < z.toNat := by omega
              simp [this]
            · simp [hyz2] at h2
        · simp only [hxy, if_false] at h1
          by_cases hxy2 : x.toNat = y.toNat
          · simp only [hxy2, if_true] at h1
            by_cases hyz : y.toNat < z.toNat
            · have : x.toNat < z.toNat := by omega
              simp [this]
            · simp only [hyz, if_false] at h2
              by_cases hyz2 : y.toNat = z.toNat
              · simp only [hyz2, if_true] at h2
                have h3 : ¬ x.toNat < z.toNat := by omega
                have h4 : x.toNat = z.toNat := by omega
                rw [if_neg h3, if_pos h4]
                exact ih ys zs h1 h2
              · simp [hyz2] at h2
          · simp [hxy2] at h1

theorem char_eq_of_toNat_eq (a b : Char) (h : a.toNat = b.toNat) : a = b := by
  have := congrArg Char.ofNat h
  rwa [Char.ofNat_toNat, Char.ofNat_toNat] at this

theorem keyLt_total : ∀ (a b : List Char), a ≠ b → keyLt a b = false → keyLt b a = true := by
  intro a
  induction a with
  | nil =>
    intro b hne h
    cases b with
    | nil => exact absurd rfl hne
    | cons y ys => simp [keyLt] at h
  | cons x xs ih =>
    intro b hne h
    cases b with
    | nil => rfl
    | cons y ys =>
      simp only [keyLt] at h ⊢
      by_cases hxy : x.toNat < y.toNat
      · simp [hxy] at h
      · simp only [hxy, if_false] at h
        by_cases hxy2 : x.toNat = y.toNat
        · simp only [hxy2, if_true] at h
          have hc : x = y := char_eq_of_toNat_eq x y hxy2
          have hne2 : xs ≠ ys := by
            intro h2; apply hne; rw [hc, h2]
          have h3 : ¬ y.toNat < x.toNat := by omega
          rw [if_neg h3, if_pos hxy2.symm]
          exact ih ys hne2 h
        · have : y.toNat < x.toNat := by omega
          simp [this]

theorem keyLt_ne {a b : String} (h : keyLt a.data b.data = true) : a ≠ b := by
  intro hab
  rw [hab, keyLt_irrefl] at h
  cases h

theorem keyLt_asymm {a b : List Char} (h : keyLt a b = true) : keyLt b a = false := by
  cases hb : keyLt b a with
  | false => rfl
  | true =>
    have := keyLt_trans a b a h hb
    rw [keyLt_irrefl] at this
    cases this

theorem valuesSet_idem (m : Values) (k v : String) :
    valuesSet (valuesSet m k v) k v = valuesSet m k v := by
  induction m with
  | nil => simp [valuesSet]
  | cons p rest ih =>
    obtain ⟨k1, vs⟩ := p
    by_cases h1 : k = k1
    · simp [valuesSet, h1]
    · by_cases h2 : keyLt k.data k1.data = true
      · simp [valuesSet, h1, h2]
      · simp [valuesSet, h1, h2, ih]

theorem splitOnChar_ne_nil (sep : Char) (s : List Char) : splitOnChar sep s ≠ [] := by
  induction s with
  | nil => simp [splitOnChar]
  | cons c cs ih =>
    unfold splitOnChar
    split
    · simp
    · split <;> simp

theorem splitOnChar_cons_sep (sep : Char) (cs : List Char) :
    splitOnChar sep (sep :: cs) = [] :: splitOnChar sep cs := by
  rw [splitOnChar, if_pos rfl]

theorem splitOnChar_cons_other (sep c : Char) (cs h : List Char) (t : List (List Char))
    (hc : c ≠ sep) (hs : splitOnChar sep cs = h :: t) :
    splitOnChar sep (c :: cs) = (c :: h) :: t := by
  rw [splitOnChar, if_neg hc, hs]

theorem splitOnChar_clean (sep : Char) (a : List Char) (h : ∀ c ∈ a, c ≠ sep) :
    splitOnChar sep a = [a] := by
  induction a with
  | nil => rfl
  | cons c cs ih =>
    have hc : c ≠ sep := h c (List.mem_cons_self _ _)
    have := ih (fun d hd => h d (List.mem_cons_of_mem _ hd))
    exact splitOnChar_cons_other sep c cs cs [] hc this

theorem splitOnChar_append (sep : Char) (a b : List Char) (h : ∀ c ∈ a, c ≠ sep) :
    splitOnChar sep (a ++ sep :: b) = a :: splitOnChar sep b := by
  induction a with
  | nil => exact splitOnChar_cons_sep sep b
  | cons c cs ih =>
    have hc : c ≠ sep := h c (List.mem_cons_self _ _)
    have := ih (fun d hd => h d (List.mem_cons_of_mem _ hd))
    exact splitOnChar_cons_other sep c _ cs _ hc this

theorem cutAt_append (sep : Char) (a b : List Char) (h : ∀ c ∈ a, c ≠ sep) :
    cutAt sep (a ++ sep :: b) = (a, b) := by
  unfold cutAt
  induction a with
  | nil => simp
  | cons c cs ih =>
    have hc : c ≠ sep := h c (List.mem_cons_self _ _)
    have := ih (fun d hd => h d (List.mem_cons_of_mem _ hd))
    simp only [List.cons_append, List.takeWhile_cons, List.dropWhile_cons, hc, ne_eq,
      not_false_eq_true, decide_True, if_true]
    simp only [Prod.mk.injEq] at this ⊢
    exact ⟨by rw [this.1], this.2⟩

theorem encodePairs_eq (codec : QueryCodec) (m : Values) :
    encodePairs codec m = (flatPairs m).map (encodePair codec) := by
  induction m with
  | nil => rfl
  | cons p rest ih =>
    obtain ⟨k, vs⟩ := p
    simp only [encodePairs, flatPairs, ih, List.map_append, List.map_map]
    rfl

theorem encodePair_data (codec : QueryCodec) (kv : String × String) :
    (encodePair codec kv).data = (codec.escape kv.1).data ++ '=' :: (codec.escape kv.2).data := by
  unfold encodePair
  rw [String.data_append, String.data_append]
  simp

theorem encodePair_clean (codec : QueryCodec) (hl : codec.Lawful) (kv : String × String) :
    (∀ c ∈ (encodePair codec kv).data, c ≠ '&') ∧ (∀ c ∈ (encodePair codec kv).data, c ≠ ';') := by
  rw [encodePair_data]
  constructor
  · intro c hc
    rcases List.mem_append.mp hc with h | h
    · exact (hl.escape_clean _ c h).1
    · rcases List.mem_cons.mp h with h | h
      · rw [h]; decide
      · exact (hl.escape_clean _ c h).1
  · intro c hc
    rcases List.mem_append.mp hc with h | h
    · exact (hl.escape_clean _ c h).2.2
    · rcases List.mem_cons.mp h with h | h
      · rw [h]; decide
      · exact (hl.escape_clean _ c h).2.2

theorem parsePair_encodePair (codec : QueryCodec) (hl : codec.Lawful) (acc : Values)
    (kv : String × String) :
    parsePair codec acc (encodePair codec kv).data = valuesAdd acc kv.1 kv.2 := by
  unfold parsePair
  have hsemi : (encodePair codec kv).data.contains ';' = false := by
    rw [List.contains_eq_any_beq, List.any_eq_false]
    intro c hc
    have := (encodePair_clean codec hl kv).2 c hc
    simpa using fun h : ';' = c => this h.symm
  have hne : (encodePair codec kv).data ≠ [] := by
    rw [encodePair_data]; simp
  have hcut : cutAt '=' (encodePair codec kv).data =
      ((codec.escape kv.1).data, (codec.escape kv.2).data) := by
    rw [encodePair_data]
    exact cutAt_append '=' _ _ (fun c hc => (hl.escape_clean _ c hc).2.1)
  have e1 : String.mk (codec.escape kv.1).data = codec.escape kv.1 := rfl
  have e2 : String.mk (codec.escape kv.2).data = codec.escape kv.2 := rfl
  simp only [hsemi, hne, hcut, e1, e2, hl.unescape_escape, if_false, Bool.false_eq_true]

theorem split_joinAmp (ps : List String) (hne : ps ≠ []) (h : ∀ p ∈ ps, ∀ c ∈ p.data, c ≠ '&') :
    splitOnChar '&' (joinAmp ps).data = ps.map (fun p => p.data) := by
  induction ps with
  | nil => exact absurd rfl hne
  | cons p rest ih =>
    cases rest with
    | nil =>
      show splitOnChar '&' p.data = [p.data]
      exact splitOnChar_clean '&' p.data (h p (List.mem_cons_self _ _))
    | cons q rest =>
      have hj : (joinAmp (p :: q :: rest)).data = p.data ++ '&' :: (joinAmp (q :: rest)).data := by
        show (p ++ "&" ++ joinAmp (q :: rest)).data = _
        rw [String.data_append, String.data_append]
        simp
      rw [hj, splitOnChar_append '&' _ _ (h p (List.mem_cons_self _ _)),
        ih (by simp) (fun r hr => h r (List.mem_cons_of_mem _ hr))]
      rfl

theorem parse_joinAmp (codec : QueryCodec) (hl : codec.Lawful) (kvs : List (String × String))
    (acc : Values) :
    (splitOnChar '&' (joinAmp (kvs.map (encodePair codec))).data).foldl (parsePair codec) acc =
      kvs.foldl (fun a kv => valuesAdd a kv.1 kv.2) acc := by
  cases hk : kvs with
  | nil => rfl
  | cons kv rest =>
    rw [← hk]
    have hne : kvs.map (encodePair codec) ≠ [] := by rw [hk]; simp
    have hclean : ∀ p ∈ kvs.map (encodePair codec), ∀ c ∈ p.data, c ≠ '&' := by
      intro p hp
      obtain ⟨kv1, _, rfl⟩ := List.mem_map.mp hp
      exact (encodePair_clean codec hl kv1).1
    rw [split_joinAmp _ hne hclean, List.map_map, List.foldl_map]
    clear hk hne hclean
    induction kvs generalizing acc with
    | nil => rfl
    | cons kv1 rest1 ih =>
      simp only [List.foldl_cons, Function.comp]
      rw [parsePair_encodePair codec hl]
      exact ih _

theorem valuesAdd_cons_gt (k1 : String) (vs : List String) (rest : Values) (k v : String)
    (h : keyLt k1.data k.data = true) :
    valuesAdd ((k1, vs) :: rest) k v = (k1, vs) :: valuesAdd rest k v := by
  have hne : ¬ k = k1 := fun e => keyLt_ne h e.symm
  have hnl : ¬ keyLt k.data k1.data = true := by rw [keyLt_asymm h]; simp
  rw [valuesAdd, if_neg hne, if_neg hnl]

theorem valuesAdd_end_new (m : Values) (k v : String)
    (h : ∀ p ∈ m, keyLt p.1.data k.data = true) : valuesAdd m k v = m ++ [(k, [v])] := by
  induction m with
  | nil => rfl
  | cons p rest ih =>
    obtain ⟨k1, vs⟩ := p
    have h1 : keyLt k1.data k.data = true := h (k1, vs) (List.mem_cons_self _ _)
    rw [valuesAdd_cons_gt k1 vs rest k v h1, ih (fun q hq => h q (List.mem_cons_of_mem _ hq))]
    rfl

theorem valuesAdd_end_same (m : Values) (k v : String) (vs : List String)
    (h : ∀ p ∈ m, keyLt p.1.data k.data = true) :
    valuesAdd (m ++ [(k, vs)]) k v = m ++ [(k, vs ++ [v])] := by
  induction m with
  | nil => simp [valuesAdd]
  | cons p rest ih =>
    obtain ⟨k1, vs1⟩ := p
    have h1 : keyLt k1.data k.data = true := h (k1, vs1) (List.mem_cons_self _ _)
    rw [List.cons_append, valuesAdd_cons_gt k1 vs1 _ k v h1,
      ih (fun q hq => h q (List.mem_cons_of_mem _ hq))]
    rfl

theorem foldl_valuesAdd_same (m : Values) (k : String) (vs ws : List String)
    (h : ∀ p ∈ m, keyLt p.1.data k.data = true) :
    (ws.map (fun v => (k, v))).foldl (fun a kv => valuesAdd a kv.1 kv.2) (m ++ [(k, vs)]) =
      m ++ [(k, vs ++ ws)] := by
  induction ws generalizing vs with
  | nil => simp
  | cons w ws ih =>
    simp only [List.map_cons, List.foldl_cons]
    rw [valuesAdd_end_same m k w vs h, ih]
    simp

theorem foldl_valuesAdd_flat (m : Values) :
    ∀ acc : Values, (∀ p ∈ acc, ∀ q ∈ m, keyLt p.1.data q.1.data = true) → Canon m →
      (flatPairs m).foldl (fun a kv => valuesAdd a kv.1 kv.2) acc = acc ++ m := by
  induction m with
  | nil => intro acc _ _; simp [flatPairs]
  | cons p rest ih =>
    intro acc hacc hcanon
    obtain ⟨k, vs⟩ := p
    obtain ⟨hpw, hnonempty⟩ := hcanon
    rw [List.pairwise_cons] at hpw
    have hvs : vs ≠ [] := hnonempty (k, vs) (List.mem_cons_self _ _)
    cases vs with
    | nil => exact absurd rfl hvs
    | cons v vs1 =>
      have hk : ∀ q ∈ acc, keyLt q.1.data k.data = true :=
        fun q hq => hacc q hq (k, v :: vs1) (List.mem_cons_self _ _)
      simp only [flatPairs, List.map_cons, List.cons_append, List.foldl_cons, List.foldl_append]
      rw [valuesAdd_end_new acc k v hk, foldl_valuesAdd_same acc k [v] vs1 hk]
      rw [ih (acc ++ [(k, [v] ++ vs1)]) ?_ ⟨hpw.2, fun q hq => hnonempty q (List.mem_cons_of_mem _ hq)⟩]
      · simp
      · intro q hq r hr
        rcases List.mem_append.mp hq with hq | hq
        · exact hacc q hq r (List.mem_cons_of_mem _ hr)
        · rw [List.mem_singleton] at hq
          rw [hq]
          exact hpw.1 r hr

/-- Parsing what `Encode` wrote gives the value map back. -/
theorem parseQuery_encodeValues (codec : QueryCodec) (hl : codec.Lawful) (m : Values)
    (hm : Canon m) : parseQuery codec (encodeValues codec m) = m := by
  unfold parseQuery encodeValues
  rw [encodePairs_eq, parse_joinAmp codec hl, foldl_valuesAdd_flat m [] (by simp) hm]
  rfl

theorem valuesAdd_keys (m : Values) (k v : String) :
    ∀ p ∈ valuesAdd m k v, p.1 = k ∨ ∃ q ∈ m, q.1 = p.1 := by
  induction m with
  | nil =>
    intro p hp
    simp only [valuesAdd, List.mem_singleton] at hp
    left; rw [hp]
  | cons q rest ih =>
    obtain ⟨k1, vs⟩ := q
    intro p hp
    unfold valuesAdd at hp
    split at hp
    · rcases List.mem_cons.mp hp with h | h
      · right; exact ⟨(k1, vs), List.mem_cons_self _ _, by rw [h]⟩
      · right; exact ⟨p, List.mem_cons_of_mem _ h, rfl⟩
    · split at hp
      · rcases List.mem_cons.mp hp with h | h
        · left; rw [h]
        · right; exact ⟨p, h, rfl⟩
      · rcases List.mem_cons.mp hp with h | h
        · right; exact ⟨(k1, vs), List.mem_cons_self _ _, by rw [h]⟩
        · rcases ih p h with h2 | ⟨r, hr, hr2⟩
          · left; exact h2
          · right; exact ⟨r, List.mem_cons_of_mem _ hr, hr2⟩

theorem valuesSet_keys (m : Values) (k v : String) :
    ∀ p ∈ valuesSet m k v, p.1 = k ∨ ∃ q ∈ m, q.1 = p.1 := by
  induction m with
  | nil =>
    intro p hp
    simp only [valuesSet, List.mem_singleton] at hp
    left; rw [hp]
  | cons q rest ih =>
    obtain ⟨k1, vs⟩ := q
    intro p hp
    unfold valuesSet at hp
    split at hp
    · rcases List.mem_cons.mp hp with h | h
      · right; exact ⟨(k1, vs), List.mem_cons_self _ _, by rw [h]⟩
      · right; exact ⟨p, List.mem_cons_of_mem _ h, rfl⟩
    · split at hp
      · rcases List.mem_cons.mp hp with h | h
        · left; rw [h]
        · right; exact ⟨p, h, rfl⟩
      · rcases List.mem_cons.mp hp with h | h
        · right; exact ⟨(k1, vs), List.mem_cons_self _ _, by rw [h]⟩
        · rcases ih p h with h2 | ⟨r, hr, hr2⟩
          · left; exact h2
          · right; exact ⟨r, List.mem_cons_of_mem _ hr, hr2⟩

theorem Canon.valuesAdd {m : Values} (hm : Canon m) (k v : String) :
    Canon (valuesAdd m k v) := by
  induction m with
  | nil =>
    exact ⟨List.pairwise_singleton _ _, fun p hp => by
      simp only [Channel.valuesAdd, List.mem_singleton] at hp; rw [hp]; simp⟩
  | cons q rest ih =>
    obtain ⟨k1, vs⟩ := q
    obtain ⟨hpw, hnonempty⟩ := hm
    rw [List.pairwise_cons] at hpw
    have hrest : Canon rest := ⟨hpw.2, fun p hp => hnonempty p (List.mem_cons_of_mem _ hp)⟩
    unfold Channel.valuesAdd
    by_cases h1 : k = k1
    · rw [if_pos h1]
      refine ⟨List.pairwise_cons.mpr ⟨hpw.1, hpw.2⟩, ?_⟩
      intro p hp
      rcases List.mem_cons.mp hp with h | h
      · rw [h]; simp
      · exact hnonempty p (List.mem_cons_of_mem _ h)
    · rw [if_neg h1]
      by_cases h2 : keyLt k.data k1.data = true
      · rw [if_pos h2]
        refine ⟨List.pairwise_cons.mpr ⟨?_, List.pairwise_cons.mpr hpw⟩, ?_⟩
        · intro p hp
          rcases List.mem_cons.mp hp with h | h
          · rw [h]; exact h2
          · exact keyLt_trans _ _ _ h2 (hpw.1 p h)
        · intro p hp
          rcases List.mem_cons.mp hp with h | h
          · rw [h]; simp
          · exact hnonempty p h
      · rw [if_neg h2]
        have h3 : keyLt k1.data k.data = true := by
          apply keyLt_total
          · intro e; apply h1; exact (String.ext e)
          · simpa using h2
        obtain ⟨ipw, inon⟩ := ih hrest
        refine ⟨List.pairwise_cons.mpr ⟨?_, ipw⟩, ?_⟩
        · intro p hp
          rcases valuesAdd_keys rest k v p hp with h | ⟨r, hr, hr2⟩
          · rw [h]; exact h3
          · rw [← hr2]; exact hpw.1 r hr
        · intro p hp
          rcases List.mem_cons.mp hp with h | h
          · rw [h]; exact hnonempty (k1, vs) (List.mem_cons_self _ _)
          · exact inon p h

theorem Canon.valuesSet {m : Values} (hm : Canon m) (k v : String) :
    Canon (valuesSet m k v) := by
  induction m with
  | nil =>
    exact ⟨List.pairwise_singleton _ _, fun p hp => by
      simp only [Channel.valuesSet, List.mem_singleton] at hp; rw [hp]; simp⟩
  | cons q rest ih =>
    obtain ⟨k1, vs⟩ := q
    obtain ⟨hpw, hnonempty⟩ := hm
    rw [List.pairwise_cons] at hpw
    have hrest : Canon rest := ⟨hpw.2, fun p hp => hnonempty p (List.mem_cons_of_mem _ hp)⟩
    unfold Channel.valuesSet
    by_cases h1 : k = k1
    · rw [if_pos h1]
      refine ⟨List.pairwise_cons.mpr ⟨hpw.1, hpw.2⟩, ?_⟩
      intro p hp
      rcases List.mem_cons.mp hp with h | h
      · rw [h]; simp
      · exact hnonempty p (List.mem_cons_of_mem _ h)
    · rw [if_neg h1]
      by_cases h2 : keyLt k.data k1.data = true
      · rw [if_pos h2]
        refine ⟨List.pairwise_cons.mpr ⟨?_, List.pairwise_cons.mpr hpw⟩, ?_⟩
        · intro p hp
          rcases List.mem_cons.mp hp with h | h
          · rw [h]; exact h2
          · exact keyLt_trans _ _ _ h2 (hpw.1 p h)
        · intro p hp
          rcases List.mem_cons.mp hp with h | h
          · rw [h]; simp
          · exact hnonempty p h
      · rw [if_neg h2]
        have h3 : keyLt k1.data k.data = true := by
          apply keyLt_total
          · intro e; apply h1; exact (String.ext e)
          · simpa using h2
        obtain ⟨ipw, inon⟩ := ih hrest
        refine ⟨List.pairwise_cons.mpr ⟨?_, ipw⟩, ?_⟩
        · intro p hp
          rcases valuesSet_keys rest k v p hp with h | ⟨r, hr, hr2⟩
          · rw [h]; exact h3
          · rw [← hr2]; exact hpw.1 r hr
        · intro p hp
          rcases List.mem_cons.mp hp with h | h
          · rw [h]; exact hnonempty (k1, vs) (List.mem_cons_self _ _)
          · exact inon p h

theorem Canon.parsePair {m : Values} (hm : Canon m) (codec : QueryCodec) (seg : List Char) :
    Canon (parsePair codec m seg) := by
  unfold Channel.parsePair
  split
  · exact hm
  · split
    · exact hm
    · split
      · exact hm
      · split
        · exact hm
        · exact hm.valuesAdd _ _

theorem Canon.parseQuery (codec : QueryCodec) (query : String) :
    Canon (parseQuery codec query) := by
  unfold Channel.parseQuery
  have : ∀ (segs : List (List Char)) (acc : Values), Canon acc →
      Canon (segs.foldl (Channel.parsePair codec) acc) := by
    intro segs
    induction segs with
    | nil => intro acc h; exact h
    | cons sg rest ih => intro acc h; exact ih _ (h.parsePair codec sg)
  exact this _ [] ⟨List.Pairwise.nil, fun p hp => by cases hp⟩

theorem sepUnescape_other (c : Char) (e : List Char) (hc : c ≠ '%') :
    sepUnescape (c :: e) = (sepUnescape e).map (fun r => c :: r) := by
  cases e with
  | nil => simp [sepUnescape, hc]
  | cons d rest => rw [sepUnescape, if_neg hc]

theorem sepUnescape_percent (d : Char) (e : List Char) :
    sepUnescape ('%' :: d :: e) =
      (sepDecode d).bind (fun x => (sepUnescape e).map (fun r => x :: r)) := by
  rw [sepUnescape, if_pos rfl]

theorem sepUnescape_sepEscape (l : List Char) : sepUnescape (sepEscape l) = some l := by
  induction l with
  | nil => rfl
  | cons c cs ih =>
    unfold sepEscape sepEscapeChar
    by_cases h1 : c = '%'
    · subst h1
      simp only [if_true, List.cons_append, List.nil_append]
      rw [sepUnescape_percent, ih]
      rfl
    · by_cases h2 : c = '&'
      · subst h2
        simp only [h1, if_false, if_true, List.cons_append, List.nil_append]
        rw [sepUnescape_percent, ih]
        rfl
      · by_cases h3 : c = '='
        · subst h3
          simp only [h1, h2, if_false, if_true, List.cons_append, List.nil_append]
          rw [sepUnescape_percent, ih]
          rfl
        · by_cases h4 : c = ';'
          · subst h4
            simp only [h1, h2, h3, if_false, if_true, List.cons_append, List.nil_append]
            rw [sepUnescape_percent, ih]
            rfl
          · simp only [h1, h2, h3, h4, if_false, List.cons_append, List.nil_append]
            rw [sepUnescape_other c _ h1, ih]
            rfl

theorem sepEscapeChar_clean (a c : Char) (h : c ∈ sepEscapeChar a) :
    c ≠ '&' ∧ c ≠ '=' ∧ c ≠ ';' := by
  unfold sepEscapeChar at h
  split_ifs at h with h1 h2 h3 h4
  · simp only [List.mem_cons, List.mem_singleton, List.not_mem_nil, or_false] at h
    rcases h with h | h <;> (rw [h]; decide)
  · simp only [List.mem_cons, List.mem_singleton, List.not_mem_nil, or_false] at h
    rcases h with h | h <;> (rw [h]; decide)
  · simp only [List.mem_cons, List.mem_singleton, List.not_mem_nil, or_false] at h
    rcases h with h | h <;> (rw [h]; decide)
  · simp only [List.mem_cons, List.mem_singleton, List.not_mem_nil, or_false] at h
    rcases h with h | h <;> (rw [h]; decide)
  · simp only [List.mem_singleton] at h
    rw [h]
    exact ⟨h2, h3, h4⟩

theorem sepEscape_clean (l : List Char) :
    ∀ c ∈ sepEscape l, c ≠ '&' ∧ c ≠ '=' ∧ c ≠ ';' := by
  induction l with
  | nil => intro c hc; cases hc
  | cons a cs ih =>
    intro c hc
    unfold sepEscape at hc
    rcases List.mem_append.mp hc with h | h
    · exact sepEscapeChar_clean a c h
    · exact ih c h

theorem sepCodec_lawful : sepCodec.Lawful := by
  constructor
  · intro s
    show (sepUnescape (sepEscape s.data)).map String.mk = some s
    rw [sepUnescape_sepEscape]
    rfl
  · intro s c hc
    exact sepEscape_clean s.data c hc

theorem lookup_valuesSet_same (m : Values) (k v : String) :
    (valuesSet m k v).lookup k = some [v] := by
  induction m with
  | nil => simp [valuesSet, List.lookup]
  | cons p rest ih =>
    obtain ⟨k1, vs⟩ := p
    by_cases h1 : k = k1
    · subst h1
      simp [valuesSet, List.lookup]
    · by_cases h2 : keyLt k.data k1.data = true
      · simp [valuesSet, h1, h2, List.lookup]
      · have hb : (k == k1) = false := by simpa using h1
        simp only [valuesSet, h1, h2, if_false, List.lookup, hb]
        exact ih

theorem lookup_valuesSet_other (m : Values) (k v k2 : String) (hk : k2 ≠ k) :
    (valuesSet m k v).lookup k2 = m.lookup k2 := by
  have hb : (k2 == k) = false := by simpa using hk
  induction m with
  | nil => simp [valuesSet, List.lookup, hb]
  | cons p rest ih =>
    obtain ⟨k1, vs⟩ := p
    by_cases h1 : k = k1
    · subst h1
      simp [valuesSet, List.lookup, hb]
    · by_cases h2 : keyLt k.data k1.data = true
      · simp [valuesSet, h1, h2, List.lookup, hb]
      · simp only [valuesSet, h1, h2, if_false, List.lookup]
        cases (k2 == k1) with
        | true => rfl
        | false => exact ih

theorem ModifyRequest_eq (codec : QueryCodec) (req : HTTPRequest) (apiKey : APIKey)
    (group : Group) :
    ModifyRequest codec req apiKey group = withRawQuery req
      (encodeValues codec (valuesSet (parseQuery codec req.URL.RawQuery) "key" apiKey.KeyValue)) :=
  rfl

/-- C16: applying `ModifyRequest` a second time with the same credential leaves
the request exactly as the first application left it.  After the first
application the query string parses to the value map of the original query
with `key` set: `key` carries the single value of the credential and every
other parameter has the values it had.  `QueryEscape` and `QueryUnescape` enter
through the two facts of `QueryCodec.Lawful`. -/
theorem C16_modify_request_twice (codec : QueryCodec) (hl : codec.Lawful) (req : HTTPRequest)
    (apiKey : APIKey) (group : Group) :
    ModifyRequest codec (ModifyRequest codec req apiKey group) apiKey group =
      ModifyRequest codec req apiKey group ∧
    parseQuery codec (ModifyRequest codec req apiKey group).URL.RawQuery =
      valuesSet (parseQuery codec req.URL.RawQuery) "key" apiKey.KeyValue ∧
    (parseQuery codec (ModifyRequest codec req apiKey group).URL.RawQuery).lookup "key" =
      some [apiKey.KeyValue] ∧
    (∀ k : String, k ≠ "key" →
      (parseQuery codec (ModifyRequest codec req apiKey group).URL.RawQuery).lookup k =
        (parseQuery codec req.URL.RawQuery).lookup k) := by
  have hcanon : Canon (valuesSet (parseQuery codec req.URL.RawQuery) "key" apiKey.KeyValue) :=
    (Canon.parseQuery codec req.URL.RawQuery).valuesSet _ _
  have hparse : parseQuery codec (ModifyRequest codec req apiKey group).URL.RawQuery =
      valuesSet (parseQuery codec req.URL.RawQuery) "key" apiKey.KeyValue := by
    show parseQuery codec (encodeValues codec _) = _
    exact parseQuery_encodeValues codec hl _ hcanon
  refine ⟨?_, hparse, ?_, ?_⟩
  · rw [ModifyRequest_eq codec (ModifyRequest codec req apiKey group), hparse, valuesSet_idem,
      ModifyRequest_eq codec req]
    rfl
  · rw [hparse, lookup_valuesSet_same]
  · intro k hk
    rw [hparse, lookup_valuesSet_other _ _ _ _ hk]

theorem C16_modify_request_twice_witness :
    sepCodec.Lawful ∧
    (ModifyRequest sepCodec req0 { KeyValue := "se=cret", UpstreamFilter := "" }
      (groupOf "g")).URL.RawQuery = "alt=sse&key=se%ecret&x=1&x=2" ∧
    ModifyRequest sepCodec
        (ModifyRequest sepCodec req0 { KeyValue := "se=cret", UpstreamFilter := "" } (groupOf "g"))
        { KeyValue := "se=cret", UpstreamFilter := "" } (groupOf "g") =
      ModifyRequest sepCodec req0 { KeyValue := "se=cret", UpstreamFilter := "" } (groupOf "g") :=
  ⟨sepCodec_lawful, by decide,
    (C16_modify_request_twice sepCodec sepCodec_lawful req0
      { KeyValue := "se=cret", UpstreamFilter := "" } (groupOf "g")).1⟩

/-! ## Credential extraction -/

/-- C15: `ExtractKey` returns the value of the `X-Goog-Api-Key` header when
that is non-empty, whatever the query holds; otherwise the `key` query
parameter when that is non-empty; otherwise the empty string. -/
theorem C15_extract_key_priority (c : GinContext) :
    (c.GetHeader "X-Goog-Api-Key" ≠ "" → ExtractKey c = c.GetHeader "X-Goog-Api-Key") ∧
    (c.GetHeader "X-Goog-Api-Key" = "" → c.Query "key" ≠ "" → ExtractKey c = c.Query "key") ∧
    (c.GetHeader "X-Goog-Api-Key" = "" → c.Query "key" = "" → ExtractKey c = "") := by
  unfold ExtractKey
  refine ⟨?_, ?_, ?_⟩
  · intro h
    simp only [h, ne_eq, not_false_eq_true, if_true]
  · intro h1 h2
    simp only [h1, h2, ne_eq, not_true_eq_false, not_false_eq_true, if_false, if_true]
  · intro h1 h2
    simp only [h1, h2, ne_eq, not_true_eq_false, if_false]

theorem C15_extract_key_priority_witness :
    ctxBoth.GetHeader "X-Goog-Api-Key" ≠ "" ∧ ctxBoth.Query "key" = "from-query" ∧
    ExtractKey ctxBoth = "from-header" ∧
    ctxQuery.GetHeader "X-Goog-Api-Key" = "" ∧ ctxQuery.Query "key" ≠ "" ∧
    ExtractKey ctxQuery = "from-query" :=
  ⟨by decide, by decide,
    ((C15_extract_key_priority ctxBoth).1 (by decide)).trans (by decide),
    by decide, by decide,
    ((C15_extract_key_priority ctxQuery).2.1 (by decide) (by decide)).trans (by decide)⟩

end Channel

